import Mathlib

/-!
Gargantua: the black-hole ray marcher of `OpenMP/blackhole_video.cpp`.

A shallow embedding of the renderer's numeric core and the properties stated about it.

Conventions of the embedding.

* The functions of the source are embedded twice.  In the first embedding `float` is an
  arbitrary linearly ordered field `F` with exact arithmetic and decimal literals are the exact
  rationals they denote; it states what the program computes when rounding is ignored.  In the
  second embedding, the namespace `FP`, `float` is the type `binary32`: the IEEE 754 single
  format with signed zeros, subnormal numbers, infinities and NaN, every operation rounded to
  nearest, ties to even, and every literal `xf` the float nearest to the decimal `x`.  Each
  operation of the source is one rounded operation (no contraction, no excess precision), in the
  order the source's grammar gives.
* `sqrtf` is correctly rounded in `FP`.  The other functions of `<cmath>` (`powf`, `expf`,
  `sinf`, `cosf`, `tanf`) are the fields of a record `Libm` passed to every function that calls
  one.  Theorems of the exact embedding that depend on what these functions compute are stated
  over `ℝ` for a `Libm ℝ` that `IsReal`; theorems of `FP` hold for every `Libm binary32`.
  `fabsf`, `fmaxf` and `fminf` are `|·|`, `max` and `min` of the field, and the functions `abs`,
  `fmaxf` and `fminf` of `binary32`.
* The exact value of a finite float is `binary32.toRat`; `FP.val` maps a vector of floats to the
  vector of the exact values, so that the exact length or dot product of computed vectors is
  written with the functions of the first embedding.
* `int` loop counters and image dimensions are natural numbers; the buffer index
  `y * width + x` of the kernel is computed in 32-bit `int` arithmetic (`wrapInt32`).
* A `void` function updating reference parameters returns the updated values; a `bool` function
  with an output parameter returns the pair of the flag and the output parameter.
-/

namespace Gargantua

/-- The `<cmath>` functions called by the renderer, as functions on the scalar type. -/
structure Libm (F : Type) where
  /-- The function `sqrtf`. -/
  sqrtf : F → F
  /-- The function `powf`, base first. -/
  powf : F → F → F
  /-- The function `expf`. -/
  expf : F → F
  /-- The function `sinf`. -/
  sinf : F → F
  /-- The function `cosf`. -/
  cosf : F → F
  /-- The function `tanf`. -/
  tanf : F → F

/-- The library computes the real functions: exact square root, real power, exponential and
trigonometric functions. -/
def Libm.IsReal (M : Libm ℝ) : Prop :=
  M.sqrtf = Real.sqrt ∧ M.powf = (fun x y => x ^ y) ∧ M.expf = Real.exp ∧
    M.sinf = Real.sin ∧ M.cosf = Real.cos ∧ M.tanf = Real.tan

/-- The source's `struct vec3`: three scalar components. -/
@[ext]
structure vec3 (F : Type) where
  /-- First component. -/
  x : F
  /-- Second component. -/
  y : F
  /-- Third component. -/
  z : F
  deriving DecidableEq

section Defs

variable {F : Type} [LinearOrderedField F]

/-- The method `vec3::lengthSq`. -/
def vec3.lengthSq (v : vec3 F) : F := v.x * v.x + v.y * v.y + v.z * v.z

/-- The method `vec3::length`. -/
def vec3.length (M : Libm F) (v : vec3 F) : F := M.sqrtf (v.x * v.x + v.y * v.y + v.z * v.z)

/-- The method `vec3::normalize`: the zero vector when the length is `0`. -/
def vec3.normalize (M : Libm F) (v : vec3 F) : vec3 F :=
  let l := v.length M
  if l = 0 then ⟨0, 0, 0⟩
  else
    let inv_l := 1 / l
    ⟨v.x * inv_l, v.y * inv_l, v.z * inv_l⟩

/-- The operator `vec3 + vec3`. -/
def vec3.add (a v : vec3 F) : vec3 F := ⟨a.x + v.x, a.y + v.y, a.z + v.z⟩

/-- The operator `vec3 - vec3`. -/
def vec3.sub (a v : vec3 F) : vec3 F := ⟨a.x - v.x, a.y - v.y, a.z - v.z⟩

/-- The operator `vec3 * float`. -/
def vec3.mul (a : vec3 F) (s : F) : vec3 F := ⟨a.x * s, a.y * s, a.z * s⟩

/-- The operator `vec3 / float`: the zero vector when `|s| < 1e-9`. -/
def vec3.div (a : vec3 F) (s : F) : vec3 F :=
  if |s| < 1 / 1000000000 then ⟨0, 0, 0⟩
  else
    let inv_s := 1 / s
    ⟨a.x * inv_s, a.y * inv_s, a.z * inv_s⟩

/-- The unary operator `-vec3`. -/
def vec3.neg (a : vec3 F) : vec3 F := ⟨-a.x, -a.y, -a.z⟩

/-- The method `vec3::cross`. -/
def vec3.cross (a v : vec3 F) : vec3 F :=
  ⟨a.y * v.z - a.z * v.y, a.z * v.x - a.x * v.z, a.x * v.y - a.y * v.x⟩

/-- The method `vec3::dot`. -/
def vec3.dot (a v : vec3 F) : F := a.x * v.x + a.y * v.y + a.z * v.z

instance : Add (vec3 F) := ⟨vec3.add⟩

instance : Sub (vec3 F) := ⟨vec3.sub⟩

instance : Neg (vec3 F) := ⟨vec3.neg⟩

instance : HMul (vec3 F) F (vec3 F) := ⟨vec3.mul⟩

instance : HDiv (vec3 F) F (vec3 F) := ⟨vec3.div⟩

/-- The free operator `float * vec3`, which the source defines as `v * s`. -/
instance : HMul F (vec3 F) (vec3 F) := ⟨fun s v => vec3.mul v s⟩

/-- The constant `M_BH`. -/
def M_BH : F := 1

/-- The constant `RS = 2 * M_BH`. -/
def RS : F := 2 * M_BH

/-- The constant `RS_SQ`. -/
def RS_SQ : F := RS * RS

/-- The constant `MAX_STEPS`. -/
def MAX_STEPS : Nat := 2000

/-- The constant `DT = 0.05`. -/
def DT : F := 5 / 100

/-- The constant `MAX_DIST`. -/
def MAX_DIST : F := 100

/-- The constant `HIT_DIST_SQ = RS_SQ * 1.01`. -/
def HIT_DIST_SQ : F := RS_SQ * (101 / 100)

/-- The constant `DISK_INNER_R = 3 * RS`. -/
def DISK_INNER_R : F := 3 * RS

/-- The constant `DISK_OUTER_R = 15 * RS`. -/
def DISK_OUTER_R : F := 15 * RS

/-- The constant `DISK_INNER_R_SQ`. -/
def DISK_INNER_R_SQ : F := DISK_INNER_R * DISK_INNER_R

/-- The constant `DISK_OUTER_R_SQ`. -/
def DISK_OUTER_R_SQ : F := DISK_OUTER_R * DISK_OUTER_R

/-- The function `intersectDisk`.  The third argument is the output parameter
`intersection_point`; the result is the returned flag and the value the output parameter holds
on return (unchanged on the early returns). -/
def intersectDisk (p1 p2 intersection_point : vec3 F) : Bool × vec3 F :=
  if p1.z * p2.z ≥ 0 then (false, intersection_point)
  else
    let dz := p2.z - p1.z
    if |dz| < 1 / 1000000 then (false, intersection_point)
    else
      let t := -p1.z / dz
      if t < 0 ∨ t > 1 then (false, intersection_point)
      else
        let intersection_point := p1 + t * (p2 - p1)
        let r_sq := intersection_point.x * intersection_point.x +
          intersection_point.y * intersection_point.y
        (decide (r_sq ≥ DISK_INNER_R_SQ ∧ r_sq ≤ DISK_OUTER_R_SQ), intersection_point)

/-- The constant `PI`, the decimal literal of the source. -/
def PI : F := 3141592653589793 / 1000000000000000

/-- The function `getDiskEmissionColor`. -/
def getDiskEmissionColor (M : Libm F) (pos view_dir_at_disk : vec3 F) : vec3 F :=
  let r := M.sqrtf (pos.x * pos.x + pos.y * pos.y)
  let norm_r := (r - DISK_INNER_R) / (DISK_OUTER_R - DISK_INNER_R)
  let norm_r := max 0 (min 1 norm_r)
  let temp_brightness := M.powf (1 - norm_r) (35 / 10) + 3 / 100
  let hot_color : vec3 F := ⟨1, 1, 8 / 10⟩
  let cool_color : vec3 F := ⟨8 / 10, 2 / 10, 0⟩
  let temp_color := hot_color * (1 - norm_r) + cool_color * norm_r
  let doppler_modulator := if r > 1 / 100000 then pos.x / r else 0
  let doppler_strength : F := 75 / 100
  let doppler_brightness := 1 + doppler_modulator * doppler_strength
  let color_shift_strength : F := 1 / 10
  let doppler_color_shift :=
    (⟨-(5 / 100), 5 / 100, 10 / 100⟩ : vec3 F) * doppler_modulator * color_shift_strength
  let turbulence_brightness : F := 1
  let edge_sharpness : F := 1200
  let inner_edge_boost := M.expf (-norm_r * edge_sharpness) * 8
  let cos_theta := |view_dir_at_disk.z|
  let grazing_boost := 1 + 1 / 2 * M.powf (1 - cos_theta) 4
  let base_color := temp_color + doppler_color_shift
  let base_color : vec3 F := ⟨max 0 base_color.x, base_color.y, base_color.z⟩
  let base_color : vec3 F := ⟨base_color.x, max 0 base_color.y, base_color.z⟩
  let base_color : vec3 F := ⟨base_color.x, base_color.y, max 0 base_color.z⟩
  let combined_brightness :=
    temp_brightness * doppler_brightness * turbulence_brightness * grazing_boost
  let ring_color := hot_color * inner_edge_boost
  let global_scale : F := 2
  (base_color * combined_brightness + ring_color) * global_scale

/-- The function `backgroundStars`. -/
def backgroundStars (M : Libm F) (dir : vec3 F) : vec3 F :=
  let hash_val := M.sinf (dir.x * 500) * M.cosf (dir.y * 500) * M.sinf (dir.z * 500)
  let hash_val := hash_val * hash_val
  if hash_val > 99 / 100 then
    let brightness := (hash_val - 99 / 100) / (1 / 100)
    let brightness := M.powf brightness 2
    (⟨1, 1, 1⟩ : vec3 F) * brightness * (8 / 10 : F)
  else ⟨0, 0, 0⟩

/-- The function `geodesic_acceleration`. -/
def geodesic_acceleration (M : Libm F) (pos dir : vec3 F) : vec3 F :=
  let r_sq := pos.lengthSq
  let r := M.sqrtf r_sq
  if r < RS * (1001 / 1000) then ⟨0, 0, 0⟩
  else
    let grav_accel : vec3 F := -pos * (M_BH / (r_sq * r) : F)
    let gr_factor : F := 1 + (15 / 10) * RS_SQ / r_sq
    let total_accel : vec3 F := grav_accel * gr_factor
    let accel_perp : vec3 F := total_accel - dir * dir.dot total_accel
    accel_perp

/-- The function `integrateRK4`: the pair of the updated `pos` and the updated `dir`. -/
def integrateRK4 (M : Libm F) (pos dir : vec3 F) (dt : F) : vec3 F × vec3 F :=
  let k1_pos := dir
  let k1_dir := geodesic_acceleration M pos dir
  let p2 := pos + (1 / 2 * dt) * k1_pos
  let d2 := (dir + (1 / 2 * dt) * k1_dir).normalize M
  let k2_dir := geodesic_acceleration M p2 d2
  let k2_pos := d2
  let p3 := pos + (1 / 2 * dt) * k2_pos
  let d3 := (dir + (1 / 2 * dt) * k2_dir).normalize M
  let k3_dir := geodesic_acceleration M p3 d3
  let k3_pos := d3
  let p4 := pos + dt * k3_pos
  let d4 := (dir + dt * k3_dir).normalize M
  let k4_dir := geodesic_acceleration M p4 d4
  let k4_pos := d4
  let pos := pos + (dt / 6) * (k1_pos + (2 : F) * k2_pos + (2 : F) * k3_pos + k4_pos)
  let dir := dir + (dt / 6) * (k1_dir + (2 : F) * k2_dir + (2 : F) * k3_dir + k4_dir)
  let dir := dir.normalize M
  (pos, dir)

/-- One iteration of the loop of `traceRay`, from the loop variables `current_pos` and
`current_dir`: either the colour returned from inside the loop, or the loop variables for the
next iteration. -/
def traceRayStep (M : Libm F) (current_pos current_dir : vec3 F) :
    vec3 F ⊕ (vec3 F × vec3 F) :=
  let prev_pos := current_pos
  let prev_dir := current_dir
  let (current_pos, current_dir) := integrateRK4 M current_pos current_dir DT
  let r_sq := current_pos.lengthSq
  if r_sq < HIT_DIST_SQ then Sum.inl ⟨0, 0, 0⟩
  else
    let (hit, intersection_pt) := intersectDisk prev_pos current_pos ⟨0, 0, 0⟩
    if hit then
      let view_direction_at_disk := -(prev_dir.normalize M)
      Sum.inl (getDiskEmissionColor M intersection_pt view_direction_at_disk)
    else if r_sq > MAX_DIST * MAX_DIST then Sum.inl (backgroundStars M current_dir)
    else Sum.inr (current_pos, current_dir)

/-- The loop of `traceRay` with `n` iterations left. -/
def traceRayLoop (M : Libm F) : Nat → vec3 F → vec3 F → vec3 F
  | 0, _, current_dir => backgroundStars M current_dir
  | n + 1, current_pos, current_dir =>
    match traceRayStep M current_pos current_dir with
    | Sum.inl color => color
    | Sum.inr (next_pos, next_dir) => traceRayLoop M n next_pos next_dir

/-- The loop variables of `traceRay` after `k` iterations, none of which returned, from the
loop variables `current_pos` and `current_dir`; `none` when one of these iterations returns. -/
def traceRayIter (M : Libm F) : Nat → vec3 F → vec3 F → Option (vec3 F × vec3 F)
  | 0, current_pos, current_dir => some (current_pos, current_dir)
  | k + 1, current_pos, current_dir =>
    match traceRayStep M current_pos current_dir with
    | Sum.inl _ => none
    | Sum.inr (next_pos, next_dir) => traceRayIter M k next_pos next_dir

/-- The function `traceRay`. -/
def traceRay (M : Libm F) (ray_pos ray_dir : vec3 F) : vec3 F :=
  let current_pos := ray_pos
  let current_dir := ray_dir.normalize M
  traceRayLoop M MAX_STEPS current_pos current_dir

/-- The value of an expression of type `int`: the mathematical result reduced to the range of
a 32-bit two's-complement integer.  Signed overflow, undefined in the source, wraps around. -/
def wrapInt32 (n : Int) : Int := (n + 2147483648) % 4294967296 - 2147483648

/-- The store `buffer[i] = v` for an index `i` of type `int`.  A negative index converts to a
`size_t` beyond the end of every buffer, and a store outside the buffer (undefined in the source)
leaves the buffer unchanged. -/
def storeAt {α : Type} (buffer : List α) (i : Int) (v : α) : List α :=
  if 0 ≤ i then buffer.set i.toNat v else buffer

/-- The function `renderKernel` with a ghost log: the first component is `output_buffer` on
return; the second lists, in the order of the sequential loop nest, every write as the triple
`(x, y, index)` of the pixel and the buffer index it stores to.  The index `y * width + x` is
computed in `int` arithmetic. -/
def renderKernelTraced (M : Libm F) (output_buffer : List (vec3 F)) (width height : Nat)
    (cam_pos cam_look_at cam_up : vec3 F) (fov : F) :
    List (vec3 F) × List (Nat × Nat × Int) :=
  let aspect_ratio : F := (width : F) / (height : F)
  let half_fov_tan := M.tanf (fov * PI / 180 * (1 / 2))
  let cam_forward := (cam_look_at - cam_pos).normalize M
  let cam_right := (cam_forward.cross cam_up).normalize M
  let cam_up_actual := (cam_right.cross cam_forward).normalize M
  (List.range height).foldl
    (fun (state : List (vec3 F) × List (Nat × Nat × Int)) (y : Nat) =>
      (List.range width).foldl
        (fun (state : List (vec3 F) × List (Nat × Nat × Int)) (x : Nat) =>
          let u : F := (2 * ((x : F) + 1 / 2) / (width : F) - 1) * aspect_ratio * half_fov_tan
          let v : F := (1 - 2 * ((y : F) + 1 / 2) / (height : F)) * half_fov_tan
          let ray_dir := (cam_forward + u * cam_right + v * cam_up_actual).normalize M
          let color := traceRay M cam_pos ray_dir
          let index := wrapInt32 (wrapInt32 ((y : Int) * (width : Int)) + (x : Int))
          (storeAt state.1 index color, state.2 ++ [(x, y, index)]))
        state)
    (output_buffer, [])

/-- The function `renderKernel`: the contents of `output_buffer` on return. -/
def renderKernel (M : Libm F) (output_buffer : List (vec3 F)) (width height : Nat)
    (cam_pos cam_look_at cam_up : vec3 F) (fov : F) : List (vec3 F) :=
  (renderKernelTraced M output_buffer width height cam_pos cam_look_at cam_up fov).1

/-- The camera ray of the frame-render kernel as the specification words it: an orthonormal
basis (forward = normalised look-at minus position, right = forward cross up, normalised,
corrected up = right cross forward, normalised); the centre of pixel `(x, y)` mapped to
normalised device coordinates in `[-1,1] × [-1,1]`, scaled by the aspect ratio and the tangent of
half the vertical field of view (given in degrees); the combination with the basis, normalised. -/
def cameraRay (M : Libm F) (width height : Nat) (cam_pos cam_look_at cam_up : vec3 F) (fov : F)
    (x y : Nat) : vec3 F :=
  let forward := (cam_look_at - cam_pos).normalize M
  let right := (forward.cross cam_up).normalize M
  let up := (right.cross forward).normalize M
  let ndc_x : F := 2 * ((x : F) + 1 / 2) / (width : F) - 1
  let ndc_y : F := 1 - 2 * ((y : F) + 1 / 2) / (height : F)
  let aspect : F := (width : F) / (height : F)
  let half_tan := M.tanf (fov * PI / 180 * (1 / 2))
  (forward + (ndc_x * aspect * half_tan) * right + (ndc_y * half_tan) * up).normalize M

/-- The conversion `static_cast<unsigned char>` of a scalar: truncation toward zero, taken
modulo `256` (the source leaves the conversion of a value outside `[0, 256)` undefined). -/
def toUChar [FloorRing F] (v : F) : Nat :=
  ((if 0 ≤ v then ⌊v⌋ else ⌈v⌉) % 256).toNat

/-- One channel of the tone-mapping loop of `saveImage`: compression, clamp to `[0,1]`, gamma
`1/2.2`, conversion of `value * 255.99` to `unsigned char`. -/
def toneMapChannel [FloorRing F] (M : Libm F) (c : F) : Nat :=
  let gamma : F := 1 / (22 / 10)
  let r := c / (c + 1 + 1 / 1000000)
  let r := max 0 (min 1 r)
  let r := M.powf r gamma
  toUChar (r * (25599 / 100))

/-- The tone-mapping loop of `saveImage`: the contents of `image_data` after the loop, three
bytes per pixel.  A pixel missing from `buffer` (an out-of-bounds read in the source) is read as
the zero vector. -/
def toneMapLoop [FloorRing F] (M : Libm F) (buffer : List (vec3 F)) (width height : Nat) :
    List Nat :=
  let num_components := 3
  (List.range (width * height)).foldl
    (fun image_data i =>
      let p := buffer.getD i ⟨0, 0, 0⟩
      ((image_data.set (i * num_components + 0) (toneMapChannel M p.x)).set
        (i * num_components + 1) (toneMapChannel M p.y)).set
        (i * num_components + 2) (toneMapChannel M p.z))
    (List.replicate (width * height * num_components) 0)

end Defs

/-- A value of the IEEE 754 binary32 format, the type `float` of the source: not-a-number, an
infinity with its sign, or the finite value `(-1)^neg * m * 2^e`.  The operations below return
finite values in canonical form: `m < 2^24`, `-149 ≤ e ≤ 104`, and `2^23 ≤ m` unless
`e = -149`; zero is `fin neg 0 (-149)`, with its sign. -/
inductive binary32 where
  | nan : binary32
  | inf (neg : Bool) : binary32
  | fin (neg : Bool) (m : Nat) (e : Int) : binary32
  deriving DecidableEq

namespace binary32

/-- Number of binary digits of `n`, by halving at most `fuel` times. -/
def bitlenAux : Nat → Nat → Nat
  | 0, _ => 0
  | fuel + 1, n => if n = 0 then 0 else bitlenAux fuel (n / 2) + 1

/-- Number of binary digits of `n` (`0` for `0`). -/
def bitlen (n : Nat) : Nat := bitlenAux n n

/-- Integer square root by bisection on the top `k` bits below the accumulated root `r`. -/
def isqrtAux : Nat → Nat → Nat → Nat
  | 0, _, r => r
  | k + 1, n, r => if (r + 2 ^ k) * (r + 2 ^ k) ≤ n then isqrtAux k n (r + 2 ^ k)
    else isqrtAux k n r

/-- Integer square root: the largest `s` with `s * s ≤ n`. -/
def isqrt (n : Nat) : Nat := isqrtAux (bitlen n / 2 + 1) n 0

/-- A finite result, or the infinity when the exponent exceeds the largest one of the format. -/
def overflowCheck (neg : Bool) (m : Nat) (e : Int) : binary32 :=
  if e > 104 then inf neg else fin neg m e

/-- Rounding to nearest, ties to even, of the exact value `(-1)^neg * M * 2^E` to binary32,
with gradual underflow and overflow to infinity. -/
def roundNE (neg : Bool) (M : Nat) (E : Int) : binary32 :=
  if M = 0 then fin neg 0 (-149)
  else
    let er : Int := max (E + (bitlen M : Int) - 24) (-149)
    if er ≤ E then overflowCheck neg (M * 2 ^ (E - er).toNat) er
    else
      let sh := (er - E).toNat
      let q := M / 2 ^ sh
      let r := M % 2 ^ sh
      let half := 2 ^ (sh - 1)
      let m := if r > half ∨ (r = half ∧ q % 2 = 1) then q + 1 else q
      if m = 2 ^ 24 then overflowCheck neg (2 ^ 23) (er + 1) else overflowCheck neg m er

/-- The integer `(-1)^neg * m * 2^(e - e0)`, for `e0 ≤ e`. -/
def scaled (neg : Bool) (m : Nat) (e e0 : Int) : Int :=
  if neg then -((m * 2 ^ (e - e0).toNat : Nat) : Int) else ((m * 2 ^ (e - e0).toNat : Nat) : Int)

/-- Unary minus. -/
def neg : binary32 → binary32
  | nan => nan
  | inf s => inf (!s)
  | fin s m e => fin (!s) m e

/-- The function `fabsf`. -/
def abs : binary32 → binary32
  | nan => nan
  | inf _ => inf false
  | fin _ m e => fin false m e

/-- Addition, correctly rounded. -/
def add : binary32 → binary32 → binary32
  | nan, _ => nan
  | _, nan => nan
  | inf s, inf t => if s = t then inf s else nan
  | inf s, fin _ _ _ => inf s
  | fin _ _ _, inf t => inf t
  | fin s1 m1 e1, fin s2 m2 e2 =>
    let v : Int := scaled s1 m1 e1 (min e1 e2) + scaled s2 m2 e2 (min e1 e2)
    if v = 0 then fin (s1 && s2) 0 (-149) else roundNE (decide (v < 0)) v.natAbs (min e1 e2)

/-- Subtraction, correctly rounded. -/
def sub (a b : binary32) : binary32 := add a (neg b)

/-- Multiplication, correctly rounded. -/
def mul : binary32 → binary32 → binary32
  | nan, _ => nan
  | _, nan => nan
  | inf s, inf t => inf (xor s t)
  | inf s, fin t m _ => if m = 0 then nan else inf (xor s t)
  | fin s m _, inf t => if m = 0 then nan else inf (xor s t)
  | fin s1 m1 e1, fin s2 m2 e2 => roundNE (xor s1 s2) (m1 * m2) (e1 + e2)

/-- The quotient of two natural numbers scaled by `2^E`, correctly rounded: the quotient is
taken with `k` extra binary digits and a sticky last digit. -/
def roundQuot (neg : Bool) (n d : Nat) (k : Nat) (E : Int) : binary32 :=
  roundNE neg (2 * (n * 2 ^ k / d) + (if n * 2 ^ k % d = 0 then 0 else 1)) (E - k - 1)

/-- Division, correctly rounded. -/
def div : binary32 → binary32 → binary32
  | nan, _ => nan
  | _, nan => nan
  | inf _, inf _ => nan
  | inf s, fin t _ _ => inf (xor s t)
  | fin s _ _, inf t => fin (xor s t) 0 (-149)
  | fin s1 m1 e1, fin s2 m2 e2 =>
    if m2 = 0 then (if m1 = 0 then nan else inf (xor s1 s2))
    else roundQuot (xor s1 s2) m1 m2 64 (e1 - e2)

/-- The function `sqrtf`, correctly rounded. -/
def sqrt : binary32 → binary32
  | nan => nan
  | inf s => if s then nan else inf false
  | fin s m e =>
    if m = 0 then fin s 0 (-149)
    else if s then nan
    else
      let k : Nat := if e % 2 = 0 then 64 else 65
      let s0 := isqrt (m * 2 ^ k)
      roundNE false (2 * s0 + (if s0 * s0 = m * 2 ^ k then 0 else 1)) ((e - k) / 2 - 1)

/-- The comparison `<`. -/
def lt : binary32 → binary32 → Bool
  | nan, _ => false
  | _, nan => false
  | inf s, inf t => s && !t
  | inf s, fin _ _ _ => s
  | fin _ _ _, inf t => !t
  | fin s1 m1 e1, fin s2 m2 e2 =>
    decide (scaled s1 m1 e1 (min e1 e2) < scaled s2 m2 e2 (min e1 e2))

/-- The comparison `<=`. -/
def le : binary32 → binary32 → Bool
  | nan, _ => false
  | _, nan => false
  | inf s, inf t => s || !t
  | inf s, fin _ _ _ => s
  | fin _ _ _, inf t => !t
  | fin s1 m1 e1, fin s2 m2 e2 =>
    decide (scaled s1 m1 e1 (min e1 e2) ≤ scaled s2 m2 e2 (min e1 e2))

/-- The comparison `==`: equality of values, so `-0 == +0`, and never true of a NaN. -/
def eq : binary32 → binary32 → Bool
  | nan, _ => false
  | _, nan => false
  | inf s, inf t => decide (s = t)
  | inf _, fin _ _ _ => false
  | fin _ _ _, inf _ => false
  | fin s1 m1 e1, fin s2 m2 e2 =>
    decide (scaled s1 m1 e1 (min e1 e2) = scaled s2 m2 e2 (min e1 e2))

/-- The function `fmaxf`: the other argument when one is a NaN. -/
def fmaxf (a b : binary32) : binary32 :=
  match a, b with
  | nan, _ => b
  | _, nan => a
  | _, _ => if lt a b then b else a

/-- The function `fminf`: the other argument when one is a NaN. -/
def fminf (a b : binary32) : binary32 :=
  match a, b with
  | nan, _ => b
  | _, nan => a
  | _, _ => if lt b a then b else a

/-- The conversion of an `int` to `float`. -/
def ofInt (n : Int) : binary32 := roundNE (decide (n < 0)) n.natAbs 0

/-- The `float` literal written as the decimal fraction `n / d`, correctly rounded. -/
def lit (n d : Nat) : binary32 := roundQuot false n d (bitlen d + 64) 0

/-- The rational value of a finite float (`0` for a NaN or an infinity). -/
def toRat : binary32 → ℚ
  | nan => 0
  | inf _ => 0
  | fin s m e => (if s then -1 else 1) * (m : ℚ) * (2 : ℚ) ^ e

/-- Canonical form of a finite value: a significand below `2^24`, an exponent in
`[-149, 104]`, and a significand of at least `2^23` unless the exponent is the least one. -/
def Canon (m : Nat) (e : Int) : Prop :=
  m < 2 ^ 24 ∧ -149 ≤ e ∧ e ≤ 104 ∧ (2 ^ 23 ≤ m ∨ e = -149)

/-- The value is a finite number (neither a NaN nor an infinity), in canonical form. -/
def IsFinite : binary32 → Prop
  | nan => False
  | inf _ => False
  | fin _ m e => Canon m e

/-- The float `r` is a rounding of the exact value `V`: either an infinity of the sign of `V`,
for a `V` of magnitude at least `2^128 - 2^103`, or a finite value within the relative error `2^-24` or
the absolute error `2^-150` of `V`, with no finite value strictly between `V` and `r`. -/
def Rounds (r : binary32) (V : ℚ) : Prop :=
  (r = inf (decide (V < 0)) ∧ (2 : ℚ) ^ 128 - 2 ^ 103 ≤ |V|) ∨
  (r.IsFinite ∧
    (|r.toRat - V| ≤ 2 ^ (-24 : ℤ) * |V| ∨ |r.toRat - V| ≤ 2 ^ (-150 : ℤ)) ∧
    ∀ f : binary32, f.IsFinite →
      (f.toRat ≤ V → f.toRat ≤ r.toRat) ∧ (V ≤ f.toRat → r.toRat ≤ f.toRat))

end binary32

instance : Add binary32 := ⟨binary32.add⟩

instance : Sub binary32 := ⟨binary32.sub⟩

instance : Mul binary32 := ⟨binary32.mul⟩

instance : Div binary32 := ⟨binary32.div⟩

instance : Neg binary32 := ⟨binary32.neg⟩

namespace FP

open binary32

/-- The vector `vec3(0, 0, 0)`. -/
def zero3 : vec3 binary32 := ⟨lit 0 1, lit 0 1, lit 0 1⟩

/-- The method `vec3::length` in binary32 arithmetic. -/
def length (v : vec3 binary32) : binary32 := sqrt (v.x * v.x + v.y * v.y + v.z * v.z)

/-- The method `vec3::lengthSq` in binary32 arithmetic. -/
def lengthSq (v : vec3 binary32) : binary32 := v.x * v.x + v.y * v.y + v.z * v.z

/-- The method `vec3::normalize` in binary32 arithmetic. -/
def normalize (v : vec3 binary32) : vec3 binary32 :=
  let l := length v
  if eq l (lit 0 1) then zero3
  else
    let inv_l := lit 1 1 / l
    ⟨v.x * inv_l, v.y * inv_l, v.z * inv_l⟩

/-- The operator `vec3 + vec3` in binary32 arithmetic (also `+=`). -/
def vadd (a v : vec3 binary32) : vec3 binary32 := ⟨a.x + v.x, a.y + v.y, a.z + v.z⟩

/-- The operator `vec3 - vec3` in binary32 arithmetic. -/
def vsub (a v : vec3 binary32) : vec3 binary32 := ⟨a.x - v.x, a.y - v.y, a.z - v.z⟩

/-- The operator `vec3 * float` in binary32 arithmetic; `float * vec3` is `v * s` in the source. -/
def vmul (a : vec3 binary32) (s : binary32) : vec3 binary32 := ⟨a.x * s, a.y * s, a.z * s⟩

/-- The operator `vec3 / float` in binary32 arithmetic. -/
def vdiv (a : vec3 binary32) (s : binary32) : vec3 binary32 :=
  if lt (abs s) (lit 1 1000000000) then zero3
  else
    let inv_s := lit 1 1 / s
    ⟨a.x * inv_s, a.y * inv_s, a.z * inv_s⟩

/-- The unary operator `-vec3` in binary32 arithmetic. -/
def vneg (a : vec3 binary32) : vec3 binary32 := ⟨-a.x, -a.y, -a.z⟩

/-- The method `vec3::cross` in binary32 arithmetic. -/
def cross (a v : vec3 binary32) : vec3 binary32 :=
  ⟨a.y * v.z - a.z * v.y, a.z * v.x - a.x * v.z, a.x * v.y - a.y * v.x⟩

/-- The method `vec3::dot` in binary32 arithmetic. -/
def dot (a v : vec3 binary32) : binary32 := a.x * v.x + a.y * v.y + a.z * v.z

/-- The constant `M_BH` as a `float`. -/
def M_BH : binary32 := lit 1 1

/-- The constant `RS` as a `float`. -/
def RS : binary32 := lit 2 1 * M_BH

/-- The constant `RS_SQ` as a `float`. -/
def RS_SQ : binary32 := RS * RS

/-- The constant `DT` as a `float`. -/
def DT : binary32 := lit 5 100

/-- The constant `MAX_DIST` as a `float`. -/
def MAX_DIST : binary32 := lit 100 1

/-- The constant `HIT_DIST_SQ` as a `float`. -/
def HIT_DIST_SQ : binary32 := RS_SQ * lit 101 100

/-- The constant `DISK_INNER_R` as a `float`. -/
def DISK_INNER_R : binary32 := lit 3 1 * RS

/-- The constant `DISK_OUTER_R` as a `float`. -/
def DISK_OUTER_R : binary32 := lit 15 1 * RS

/-- The constant `DISK_INNER_R_SQ` as a `float`. -/
def DISK_INNER_R_SQ : binary32 := DISK_INNER_R * DISK_INNER_R

/-- The constant `DISK_OUTER_R_SQ` as a `float`. -/
def DISK_OUTER_R_SQ : binary32 := DISK_OUTER_R * DISK_OUTER_R

/-- The function `geodesic_acceleration` in binary32 arithmetic. -/
def geodesic_acceleration (pos dir : vec3 binary32) : vec3 binary32 :=
  let r_sq := lengthSq pos
  let r := sqrt r_sq
  if lt r (RS * lit 1001 1000) then zero3
  else
    let grav_accel := vmul (vneg pos) (M_BH / (r_sq * r))
    let gr_factor := lit 1 1 + lit 15 10 * RS_SQ / r_sq
    let total_accel := vmul grav_accel gr_factor
    let accel_perp := vsub total_accel (vmul dir (dot dir total_accel))
    accel_perp

/-- The function `integrateRK4` in binary32 arithmetic: the updated `pos` and `dir`. -/
def integrateRK4 (pos dir : vec3 binary32) (dt : binary32) : vec3 binary32 × vec3 binary32 :=
  let k1_pos := dir
  let k1_dir := geodesic_acceleration pos dir
  let p2 := vadd pos (vmul k1_pos (lit 5 10 * dt))
  let d2 := normalize (vadd dir (vmul k1_dir (lit 5 10 * dt)))
  let k2_dir := geodesic_acceleration p2 d2
  let k2_pos := d2
  let p3 := vadd pos (vmul k2_pos (lit 5 10 * dt))
  let d3 := normalize (vadd dir (vmul k2_dir (lit 5 10 * dt)))
  let k3_dir := geodesic_acceleration p3 d3
  let k3_pos := d3
  let p4 := vadd pos (vmul k3_pos dt)
  let d4 := normalize (vadd dir (vmul k3_dir dt))
  let k4_dir := geodesic_acceleration p4 d4
  let k4_pos := d4
  let pos := vadd pos (vmul
    (vadd (vadd (vadd k1_pos (vmul k2_pos (lit 2 1))) (vmul k3_pos (lit 2 1))) k4_pos)
    (dt / lit 6 1))
  let dir := vadd dir (vmul
    (vadd (vadd (vadd k1_dir (vmul k2_dir (lit 2 1))) (vmul k3_dir (lit 2 1))) k4_dir)
    (dt / lit 6 1))
  let dir := normalize dir
  (pos, dir)

/-- The function `intersectDisk` in binary32 arithmetic: the returned flag and the value of the
output parameter on return. -/
def intersectDisk (p1 p2 intersection_point : vec3 binary32) : Bool × vec3 binary32 :=
  if le (lit 0 1) (p1.z * p2.z) then (false, intersection_point)
  else
    let dz := p2.z - p1.z
    if lt (abs dz) (lit 1 1000000) then (false, intersection_point)
    else
      let t := -p1.z / dz
      if lt t (lit 0 1) || lt (lit 1 1) t then (false, intersection_point)
      else
        let intersection_point := vadd p1 (vmul (vsub p2 p1) t)
        let r_sq := intersection_point.x * intersection_point.x +
          intersection_point.y * intersection_point.y
        (le DISK_INNER_R_SQ r_sq && le r_sq DISK_OUTER_R_SQ, intersection_point)

/-- The function `getDiskEmissionColor` in binary32 arithmetic; `powf` and `expf` are those of
the library `M`. -/
def getDiskEmissionColor (M : Libm binary32) (pos view_dir_at_disk : vec3 binary32) :
    vec3 binary32 :=
  let r := sqrt (pos.x * pos.x + pos.y * pos.y)
  let norm_r := (r - DISK_INNER_R) / (DISK_OUTER_R - DISK_INNER_R)
  let norm_r := fmaxf (lit 0 1) (fminf (lit 1 1) norm_r)
  let temp_brightness := M.powf (lit 1 1 - norm_r) (lit 35 10) + lit 3 100
  let hot_color : vec3 binary32 := ⟨lit 1 1, lit 1 1, lit 8 10⟩
  let cool_color : vec3 binary32 := ⟨lit 8 10, lit 2 10, lit 0 1⟩
  let temp_color := vadd (vmul hot_color (lit 1 1 - norm_r)) (vmul cool_color norm_r)
  let doppler_modulator := if lt (lit 1 100000) r then pos.x / r else lit 0 1
  let doppler_strength := lit 75 100
  let doppler_brightness := lit 1 1 + doppler_modulator * doppler_strength
  let color_shift_strength := lit 1 10
  let doppler_color_shift :=
    vmul (vmul (⟨-lit 5 100, lit 5 100, lit 10 100⟩ : vec3 binary32) doppler_modulator)
      color_shift_strength
  let turbulence_brightness := lit 1 1
  let edge_sharpness := lit 1200 1
  let inner_edge_boost := M.expf (-norm_r * edge_sharpness) * lit 8 1
  let cos_theta := abs view_dir_at_disk.z
  let grazing_boost := lit 1 1 + lit 5 10 * M.powf (lit 1 1 - cos_theta) (lit 4 1)
  let base_color := vadd temp_color doppler_color_shift
  let base_color : vec3 binary32 := ⟨fmaxf (lit 0 1) base_color.x, base_color.y, base_color.z⟩
  let base_color : vec3 binary32 := ⟨base_color.x, fmaxf (lit 0 1) base_color.y, base_color.z⟩
  let base_color : vec3 binary32 := ⟨base_color.x, base_color.y, fmaxf (lit 0 1) base_color.z⟩
  let combined_brightness :=
    temp_brightness * doppler_brightness * turbulence_brightness * grazing_boost
  let ring_color := vmul hot_color inner_edge_boost
  let global_scale := lit 2 1
  vmul (vadd (vmul base_color combined_brightness) ring_color) global_scale

/-- The function `backgroundStars` in binary32 arithmetic; `sinf`, `cosf` and `powf` are those
of the library `M`. -/
def backgroundStars (M : Libm binary32) (dir : vec3 binary32) : vec3 binary32 :=
  let hash_val := M.sinf (dir.x * lit 500 1) * M.cosf (dir.y * lit 500 1) *
    M.sinf (dir.z * lit 500 1)
  let hash_val := hash_val * hash_val
  if lt (lit 99 100) hash_val then
    let brightness := (hash_val - lit 99 100) / lit 1 100
    let brightness := M.powf brightness (lit 2 1)
    vmul (vmul (⟨lit 1 1, lit 1 1, lit 1 1⟩ : vec3 binary32) brightness) (lit 8 10)
  else zero3

/-- One iteration of the loop of `traceRay` in binary32 arithmetic: the colour returned, or the
loop variables for the next iteration. -/
def traceRayStep (M : Libm binary32) (current_pos current_dir : vec3 binary32) :
    vec3 binary32 ⊕ (vec3 binary32 × vec3 binary32) :=
  let prev_pos := current_pos
  let prev_dir := current_dir
  let (current_pos, current_dir) := integrateRK4 current_pos current_dir DT
  let r_sq := lengthSq current_pos
  if lt r_sq HIT_DIST_SQ then Sum.inl zero3
  else
    let (hit, intersection_pt) := intersectDisk prev_pos current_pos zero3
    if hit then
      let view_direction_at_disk := vneg (normalize prev_dir)
      Sum.inl (getDiskEmissionColor M intersection_pt view_direction_at_disk)
    else if lt (MAX_DIST * MAX_DIST) r_sq then Sum.inl (backgroundStars M current_dir)
    else Sum.inr (current_pos, current_dir)

/-- The loop of `traceRay` in binary32 arithmetic with `n` iterations left. -/
def traceRayLoop (M : Libm binary32) : Nat → vec3 binary32 → vec3 binary32 → vec3 binary32
  | 0, _, current_dir => backgroundStars M current_dir
  | n + 1, current_pos, current_dir =>
    match traceRayStep M current_pos current_dir with
    | Sum.inl color => color
    | Sum.inr (next_pos, next_dir) => traceRayLoop M n next_pos next_dir

/-- The function `traceRay` in binary32 arithmetic. -/
def traceRay (M : Libm binary32) (ray_pos ray_dir : vec3 binary32) : vec3 binary32 :=
  let current_pos := ray_pos
  let current_dir := normalize ray_dir
  traceRayLoop M 2000 current_pos current_dir

/-- The conversion `static_cast<unsigned char>` of a `float`: truncation toward zero, taken
modulo `256` (the source leaves the conversion of a value outside `[0, 256)`, of an infinity and
of a NaN undefined; these two give `0` here). -/
def toUChar : binary32 → Nat
  | nan => 0
  | inf _ => 0
  | fin s m e =>
    let t : Nat := if 0 ≤ e then m * 2 ^ e.toNat else m / 2 ^ (-e).toNat
    ((if s then -(t : Int) else (t : Int)) % 256).toNat

/-- One channel of the tone-mapping loop of `saveImage` in binary32 arithmetic; `powf` is that
of the library `M`. -/
def toneMapChannel (M : Libm binary32) (c : binary32) : Nat :=
  let gamma := lit 1 1 / lit 22 10
  let r := c / (c + lit 1 1 + lit 1 1000000)
  let r := fmaxf (lit 0 1) (fminf (lit 1 1) r)
  let r := M.powf r gamma
  toUChar (r * lit 25599 100)

/-- The exact values of the components of a finite float vector. -/
def val (v : vec3 binary32) : vec3 ℚ := ⟨v.x.toRat, v.y.toRat, v.z.toRat⟩

/-- The three components are finite floats. -/
def Finite3 (v : vec3 binary32) : Prop := v.x.IsFinite ∧ v.y.IsFinite ∧ v.z.IsFinite

/-- The three components are finite floats of magnitude at most `B`. -/
def Bounded3 (v : vec3 binary32) (B : ℚ) : Prop :=
  Finite3 v ∧ |v.x.toRat| ≤ B ∧ |v.y.toRat| ≤ B ∧ |v.z.toRat| ≤ B

end FP

section Basic

variable {F : Type} [LinearOrderedField F]

@[simp] theorem vec3.add_x (a b : vec3 F) : (a + b).x = a.x + b.x := rfl

@[simp] theorem vec3.add_y (a b : vec3 F) : (a + b).y = a.y + b.y := rfl

@[simp] theorem vec3.add_z (a b : vec3 F) : (a + b).z = a.z + b.z := rfl

@[simp] theorem vec3.sub_x (a b : vec3 F) : (a - b).x = a.x - b.x := rfl

@[simp] theorem vec3.sub_y (a b : vec3 F) : (a - b).y = a.y - b.y := rfl

@[simp] theorem vec3.sub_z (a b : vec3 F) : (a - b).z = a.z - b.z := rfl

@[simp] theorem vec3.neg_x (a : vec3 F) : (-a).x = -a.x := rfl

@[simp] theorem vec3.neg_y (a : vec3 F) : (-a).y = -a.y := rfl

@[simp] theorem vec3.neg_z (a : vec3 F) : (-a).z = -a.z := rfl

@[simp] theorem vec3.mul_x (a : vec3 F) (s : F) : (a * s).x = a.x * s := rfl

@[simp] theorem vec3.mul_y (a : vec3 F) (s : F) : (a * s).y = a.y * s := rfl

@[simp] theorem vec3.mul_z (a : vec3 F) (s : F) : (a * s).z = a.z * s := rfl

@[simp] theorem vec3.smul_x (s : F) (a : vec3 F) : (s * a).x = a.x * s := rfl

@[simp] theorem vec3.smul_y (s : F) (a : vec3 F) : (s * a).y = a.y * s := rfl

@[simp] theorem vec3.smul_z (s : F) (a : vec3 F) : (s * a).z = a.z * s := rfl

end Basic

section Geometry

variable {F : Type} [LinearOrderedField F]

theorem vec3.lengthSq_nonneg (v : vec3 F) : 0 ≤ v.lengthSq := by
  unfold vec3.lengthSq
  nlinarith [mul_self_nonneg v.x, mul_self_nonneg v.y, mul_self_nonneg v.z]

theorem vec3.lengthSq_eq_zero_iff (v : vec3 F) : v.lengthSq = 0 ↔ v = ⟨0, 0, 0⟩ := by
  unfold vec3.lengthSq
  constructor
  · intro h
    have hx : v.x = 0 := by
      nlinarith [mul_self_nonneg v.x, mul_self_nonneg v.y, mul_self_nonneg v.z]
    have hy : v.y = 0 := by
      nlinarith [mul_self_nonneg v.x, mul_self_nonneg v.y, mul_self_nonneg v.z]
    have hz : v.z = 0 := by
      nlinarith [mul_self_nonneg v.x, mul_self_nonneg v.y, mul_self_nonneg v.z]
    ext <;> assumption
  · intro h
    rw [h]
    simp

/-- Cauchy-Schwarz for `vec3::dot`, in squared form. -/
theorem vec3.dot_sq_le (a b : vec3 F) : a.dot b * a.dot b ≤ a.lengthSq * b.lengthSq := by
  unfold vec3.dot vec3.lengthSq
  nlinarith [mul_self_nonneg (a.x * b.y - a.y * b.x), mul_self_nonneg (a.x * b.z - a.z * b.x),
    mul_self_nonneg (a.y * b.z - a.z * b.y)]

theorem vec3.lengthSq_add (a b : vec3 F) :
    (a + b).lengthSq = a.lengthSq + 2 * a.dot b + b.lengthSq := by
  simp only [vec3.lengthSq, vec3.dot, vec3.add_x, vec3.add_y, vec3.add_z]
  ring

theorem vec3.lengthSq_smul (s : F) (a : vec3 F) : (s * a).lengthSq = s * s * a.lengthSq := by
  simp only [vec3.lengthSq, vec3.smul_x, vec3.smul_y, vec3.smul_z]
  ring

end Geometry

section RealGeometry

variable (M : Libm ℝ) (hM : M.IsReal)

include hM

theorem vec3.length_eq_sqrt (v : vec3 ℝ) : v.length M = Real.sqrt v.lengthSq := by
  unfold vec3.length vec3.lengthSq
  rw [hM.1]

theorem vec3.length_nonneg (v : vec3 ℝ) : 0 ≤ v.length M := by
  rw [vec3.length_eq_sqrt M hM]
  exact Real.sqrt_nonneg _

theorem vec3.length_mul_self (v : vec3 ℝ) : v.length M * v.length M = v.lengthSq := by
  rw [vec3.length_eq_sqrt M hM]
  exact Real.mul_self_sqrt v.lengthSq_nonneg

theorem vec3.length_eq_zero_iff (v : vec3 ℝ) : v.length M = 0 ↔ v = ⟨0, 0, 0⟩ := by
  rw [vec3.length_eq_sqrt M hM, Real.sqrt_eq_zero v.lengthSq_nonneg]
  exact v.lengthSq_eq_zero_iff

theorem vec3.length_le_of_lengthSq_le (v : vec3 ℝ) (c : ℝ) (hc : 0 ≤ c)
    (h : v.lengthSq ≤ c * c) : v.length M ≤ c := by
  rw [vec3.length_eq_sqrt M hM]
  rw [Real.sqrt_le_left hc]
  rw [sq]
  exact h

theorem vec3.length_add_le (a b : vec3 ℝ) : (a + b).length M ≤ a.length M + b.length M := by
  have ha := vec3.length_nonneg M hM a
  have hb := vec3.length_nonneg M hM b
  apply vec3.length_le_of_lengthSq_le M hM _ _ (add_nonneg ha hb)
  rw [vec3.lengthSq_add]
  have hcs := vec3.dot_sq_le a b
  rw [← vec3.length_mul_self M hM a, ← vec3.length_mul_self M hM b] at hcs ⊢
  have hdot : a.dot b ≤ a.length M * b.length M := by
    by_contra hlt
    push_neg at hlt
    have hp : 0 ≤ a.length M * b.length M := mul_nonneg ha hb
    nlinarith
  nlinarith

theorem vec3.length_smul (s : ℝ) (a : vec3 ℝ) : (s * a).length M = |s| * a.length M := by
  rw [vec3.length_eq_sqrt M hM, vec3.length_eq_sqrt M hM, vec3.lengthSq_smul,
    Real.sqrt_mul (mul_self_nonneg s), Real.sqrt_mul_self_eq_abs]

theorem vec3.normalize_zero : (vec3.normalize M ⟨0, 0, 0⟩ : vec3 ℝ) = ⟨0, 0, 0⟩ := by
  have h : (⟨0, 0, 0⟩ : vec3 ℝ).length M = 0 := (vec3.length_eq_zero_iff M hM _).mpr rfl
  unfold vec3.normalize
  simp only [h, if_true]

theorem vec3.normalize_of_ne (v : vec3 ℝ) (hv : v ≠ ⟨0, 0, 0⟩) :
    v.normalize M = (1 / v.length M) * v := by
  have h : v.length M ≠ 0 := fun h0 => hv ((vec3.length_eq_zero_iff M hM v).mp h0)
  unfold vec3.normalize
  simp only [h, if_false]
  rfl

theorem vec3.lengthSq_normalize (v : vec3 ℝ) (hv : v ≠ ⟨0, 0, 0⟩) :
    (v.normalize M).lengthSq = 1 := by
  have h : v.length M ≠ 0 := fun h0 => hv ((vec3.length_eq_zero_iff M hM v).mp h0)
  rw [vec3.normalize_of_ne M hM v hv, vec3.lengthSq_smul, ← vec3.length_mul_self M hM v]
  field_simp

theorem vec3.length_eq_one_iff (v : vec3 ℝ) : v.length M = 1 ↔ v.lengthSq = 1 := by
  rw [vec3.length_eq_sqrt M hM]
  constructor
  · intro h
    have := Real.mul_self_sqrt v.lengthSq_nonneg
    rw [h] at this
    linarith
  · intro h
    rw [h, Real.sqrt_one]

theorem vec3.length_normalize (v : vec3 ℝ) (hv : v ≠ ⟨0, 0, 0⟩) :
    (v.normalize M).length M = 1 :=
  (vec3.length_eq_one_iff M hM _).mpr (vec3.lengthSq_normalize M hM v hv)

theorem vec3.length_normalize_le_one (v : vec3 ℝ) : (v.normalize M).length M ≤ 1 := by
  by_cases hv : v = ⟨0, 0, 0⟩
  · rw [hv, vec3.normalize_zero M hM, (vec3.length_eq_zero_iff M hM _).mpr rfl]
    norm_num
  · exact le_of_eq (vec3.length_normalize M hM v hv)

theorem vec3.lengthSq_normalize_le_one (v : vec3 ℝ) : (v.normalize M).lengthSq ≤ 1 := by
  by_cases hv : v = ⟨0, 0, 0⟩
  · rw [hv, vec3.normalize_zero M hM]
    norm_num [vec3.lengthSq]
  · exact le_of_eq (vec3.lengthSq_normalize M hM v hv)

end RealGeometry

section C1
variable {F : Type} [LinearOrderedField F]

theorem crossing_param_bounds (a b : F) (hz : a * b < 0) :
    b - a ≠ 0 ∧ 0 < -a / (b - a) ∧ -a / (b - a) < 1 := by
  rcases mul_neg_iff.mp hz with ⟨ha, hb⟩ | ⟨ha, hb⟩
  · have h : b - a < 0 := by linarith
    refine ⟨ne_of_lt h, ?_, ?_⟩
    · exact div_pos_of_neg_of_neg (by linarith) h
    · rw [div_lt_one_of_neg h]; linarith
  · have h : 0 < b - a := by linarith
    refine ⟨ne_of_gt h, ?_, ?_⟩
    · exact div_pos (by linarith) h
    · rw [div_lt_one h]; linarith

theorem intersectDisk_of_crossing (p1 p2 o : vec3 F) (hz : p1.z * p2.z < 0)
    (hd : 1 / 1000000 ≤ |p2.z - p1.z|) :
    intersectDisk p1 p2 o =
      (decide ((p1 + (-p1.z / (p2.z - p1.z)) * (p2 - p1)).x * (p1 + (-p1.z / (p2.z - p1.z)) * (p2 - p1)).x +
        (p1 + (-p1.z / (p2.z - p1.z)) * (p2 - p1)).y * (p1 + (-p1.z / (p2.z - p1.z)) * (p2 - p1)).y ≥ DISK_INNER_R_SQ ∧
        (p1 + (-p1.z / (p2.z - p1.z)) * (p2 - p1)).x * (p1 + (-p1.z / (p2.z - p1.z)) * (p2 - p1)).x +
        (p1 + (-p1.z / (p2.z - p1.z)) * (p2 - p1)).y * (p1 + (-p1.z / (p2.z - p1.z)) * (p2 - p1)).y ≤ DISK_OUTER_R_SQ),
        p1 + (-p1.z / (p2.z - p1.z)) * (p2 - p1)) := by
  obtain ⟨_, h0, h1⟩ := crossing_param_bounds p1.z p2.z hz
  unfold intersectDisk
  rw [if_neg (not_le.mpr hz)]
  simp only []
  rw [if_neg (not_lt.mpr hd), if_neg (by push_neg; exact ⟨le_of_lt h0, le_of_lt h1⟩)]

end C1

/-- The real functions form a library that `IsReal`. -/
theorem isReal_real :
    Libm.IsReal ⟨Real.sqrt, fun x y => x ^ y, Real.exp, Real.sin, Real.cos, Real.tan⟩ :=
  ⟨rfl, rfl, rfl, rfl, rfl, rfl⟩

section C9

variable {F : Type} [LinearOrderedField F]

end C9

/-- C9 as stated fails at the threshold itself: `pos = (2.002, 0, 0)` has `|pos| = RS * 1.001`,
so `|pos| ≤ RS * 1.001`, yet with `dir = (0, 1, 0)` the acceleration is not the zero vector
(the test of the source is the strict `r < RS * 1.001f`). -/
theorem geodesic_acceleration_boundary_counterexample :
    (⟨2002 / 1000, 0, 0⟩ : vec3 ℝ).length
      ⟨Real.sqrt, fun x y => x ^ y, Real.exp, Real.sin, Real.cos, Real.tan⟩ ≤ RS * (1001 / 1000) ∧
    geodesic_acceleration ⟨Real.sqrt, fun x y => x ^ y, Real.exp, Real.sin, Real.cos, Real.tan⟩
      (⟨2002 / 1000, 0, 0⟩ : vec3 ℝ) ⟨0, 1, 0⟩ ≠ ⟨0, 0, 0⟩ := by
  have hs : Real.sqrt (2002 / 1000 * (2002 / 1000) + 0 * 0 + 0 * 0) = 2002 / 1000 := by
    rw [show (2002 / 1000 * (2002 / 1000) + 0 * 0 + 0 * 0 : ℝ) = (2002 / 1000) * (2002 / 1000) by ring]
    exact Real.sqrt_mul_self (by norm_num)
  constructor
  · simp only [vec3.length, hs]
    norm_num [RS, M_BH]
  · intro h
    have hx := congrArg vec3.x h
    simp only [geodesic_acceleration, vec3.lengthSq, hs] at hx
    norm_num [RS, RS_SQ, M_BH, vec3.dot] at hx

section RadialGeneric

variable {F : Type} [LinearOrderedField F]

end RadialGeneric
section Escape

variable {F : Type} [LinearOrderedField F]

theorem intersectDisk_same_side (p1 p2 o : vec3 F) (h : 0 ≤ p1.z * p2.z) :
    intersectDisk p1 p2 o = (false, o) := by
  unfold intersectDisk
  rw [if_pos h]

theorem traceRayLoop_succ (M : Libm F) (n : Nat) (pos dir : vec3 F) :
    traceRayLoop M (n + 1) pos dir =
      match traceRayStep M pos dir with
      | Sum.inl color => color
      | Sum.inr (next_pos, next_dir) => traceRayLoop M n next_pos next_dir := rfl

end Escape

section Integrator

variable (M : Libm ℝ) (hM : M.IsReal)

include hM

/-- The position after one integrator step: the start plus `dt / 6` times a weighted sum of the
start direction and three vectors of length at most `1`. -/
theorem integrateRK4_fst (pos dir : vec3 ℝ) (dt : ℝ) :
    ∃ k2 k3 k4 : vec3 ℝ, k2.length M ≤ 1 ∧ k3.length M ≤ 1 ∧ k4.length M ≤ 1 ∧
      (integrateRK4 M pos dir dt).1 =
        pos + (dt / 6) * (dir + (2 : ℝ) * k2 + (2 : ℝ) * k3 + k4) :=
  ⟨_, _, _, vec3.length_normalize_le_one M hM _, vec3.length_normalize_le_one M hM _,
    vec3.length_normalize_le_one M hM _, rfl⟩

theorem vec3.length_rk_sum_le (k1 k2 k3 k4 : vec3 ℝ) (c : ℝ)
    (h1 : k1.length M ≤ c) (h2 : k2.length M ≤ c) (h3 : k3.length M ≤ c) (h4 : k4.length M ≤ c) :
    (k1 + (2 : ℝ) * k2 + (2 : ℝ) * k3 + k4).length M ≤ 6 * c := by
  have e1 := vec3.length_add_le M hM (k1 + (2 : ℝ) * k2 + (2 : ℝ) * k3) k4
  have e2 := vec3.length_add_le M hM (k1 + (2 : ℝ) * k2) ((2 : ℝ) * k3)
  have e3 := vec3.length_add_le M hM k1 ((2 : ℝ) * k2)
  have e4 := vec3.length_smul M hM 2 k2
  have e5 := vec3.length_smul M hM 2 k3
  rw [abs_of_pos (by norm_num : (0 : ℝ) < 2)] at e4 e5
  linarith

end Integrator

theorem vec3.lengthSq_sub_proj_le {F : Type} [LinearOrderedField F] (t d : vec3 F)
    (hd : d.lengthSq ≤ 1) : (t - d * d.dot t).lengthSq ≤ t.lengthSq := by
  have e : (t - d * d.dot t).lengthSq =
      t.lengthSq - (2 - d.lengthSq) * (d.dot t * d.dot t) := by
    simp only [vec3.lengthSq, vec3.dot, vec3.sub_x, vec3.sub_y, vec3.sub_z, vec3.mul_x,
      vec3.mul_y, vec3.mul_z]
    ring
  rw [e]
  nlinarith [mul_self_nonneg (d.dot t)]

theorem vec3.lengthSq_neg_mul_mul {F : Type} [LinearOrderedField F] (p : vec3 F) (c g : F) :
    (-p * c * g).lengthSq = p.lengthSq * ((c * g) * (c * g)) := by
  simp only [vec3.lengthSq, vec3.mul_x, vec3.mul_y, vec3.mul_z, vec3.neg_x, vec3.neg_y,
    vec3.neg_z]
  ring

section UnitDirection

variable (M : Libm ℝ) (hM : M.IsReal)

include hM

/-- The acceleration has length at most `1` for every direction of squared length at most `1`. -/
theorem geodesic_acceleration_length_le (pos d : vec3 ℝ) (hd : d.lengthSq ≤ 1) :
    (geodesic_acceleration M pos d).length M ≤ 1 := by
  apply vec3.length_le_of_lengthSq_le M hM _ 1 (by norm_num)
  unfold geodesic_acceleration
  simp only []
  split_ifs with h
  · norm_num [vec3.lengthSq]
  · rw [hM.1] at h ⊢
    push_neg at h
    have hr0 : 0 ≤ Real.sqrt pos.lengthSq := Real.sqrt_nonneg _
    have hrr : Real.sqrt pos.lengthSq * Real.sqrt pos.lengthSq = pos.lengthSq :=
      Real.mul_self_sqrt pos.lengthSq_nonneg
    have hr2 : (2 : ℝ) ≤ Real.sqrt pos.lengthSq := by
      have : (RS : ℝ) * (1001 / 1000) = 2002 / 1000 := by norm_num [RS, M_BH]
      rw [this] at h
      linarith
    have hq4 : (4 : ℝ) ≤ pos.lengthSq := by nlinarith
    refine le_trans (vec3.lengthSq_sub_proj_le _ d hd) ?_
    rw [vec3.lengthSq_neg_mul_mul]
    generalize Real.sqrt pos.lengthSq = r at *
    generalize pos.lengthSq = q at *
    have hq0 : 0 < q := by linarith
    have hrpos : 0 < r := by linarith
    have hg : (1 + 15 / 10 * RS_SQ / q : ℝ) = (q + 6) / q := by
      simp only [RS_SQ, RS, M_BH]
      field_simp
      ring
    rw [hg]
    have hA : M_BH / (q * r) * ((q + 6) / q) * r = (q + 6) / (q * q) := by
      simp only [M_BH]
      field_simp
      ring
    have e : q * ((M_BH / (q * r)) * ((q + 6) / q) * ((M_BH / (q * r)) * ((q + 6) / q))) =
        ((q + 6) / (q * q)) * ((q + 6) / (q * q)) := by
      rw [← hA]
      linear_combination (-((M_BH / (q * r)) * ((q + 6) / q) *
        ((M_BH / (q * r)) * ((q + 6) / q)))) * hrr
    rw [e]
    have hle : (q + 6) / (q * q) ≤ 1 := by
      rw [div_le_one (by positivity)]
      nlinarith
    have hge : 0 ≤ (q + 6) / (q * q) := by positivity
    nlinarith

end UnitDirection

/-- The arithmetic of the colour returned by `getDiskEmissionColor`, for a clamped radius `n`,
a modulator `dm` in `[-1, 1]` and non-negative power and exponential terms. -/
theorem disk_color_bounds {F : Type} [LinearOrderedField F] (n dm P Q E : F)
    (hn1 : n ≤ 1) (hd0 : -1 ≤ dm) (hd1 : dm ≤ 1) (hP : 0 ≤ P) (hQ : 0 ≤ Q) (hE : 0 ≤ E) :
    2 * (795 / 1000) * (3 / 100) * (25 / 100) ≤
        (max 0 (1 * (1 - n) + 8 / 10 * n + -(5 / 100) * dm * (1 / 10)) *
          ((P + 3 / 100) * (1 + dm * (75 / 100)) * 1 * (1 + 1 / 2 * Q)) + 1 * (E * 8)) * 2 ∧
      0 < (max 0 (1 * (1 - n) + 2 / 10 * n + 5 / 100 * dm * (1 / 10)) *
          ((P + 3 / 100) * (1 + dm * (75 / 100)) * 1 * (1 + 1 / 2 * Q)) + 1 * (E * 8)) * 2 ∧
      0 ≤ (max 0 (8 / 10 * (1 - n) + 0 * n + 10 / 100 * dm * (1 / 10)) *
          ((P + 3 / 100) * (1 + dm * (75 / 100)) * 1 * (1 + 1 / 2 * Q)) + 8 / 10 * (E * 8)) * 2 := by
  have hc : (3 / 100 : F) * (25 / 100) ≤ (P + 3 / 100) * (1 + dm * (75 / 100)) * 1 * (1 + 1 / 2 * Q) := by
    have h1 : (3 / 100 : F) ≤ P + 3 / 100 := by linarith
    have h2 : (25 / 100 : F) ≤ 1 + dm * (75 / 100) := by linarith
    have h3 : (1 : F) ≤ 1 + 1 / 2 * Q := by linarith
    have h4 : (3 / 100 : F) * (25 / 100) ≤ (P + 3 / 100) * (1 + dm * (75 / 100)) :=
      mul_le_mul h1 h2 (by norm_num) (by linarith)
    nlinarith
  have hc0 : (0 : F) < (P + 3 / 100) * (1 + dm * (75 / 100)) * 1 * (1 + 1 / 2 * Q) := by
    have : (0 : F) < 3 / 100 * (25 / 100) := by norm_num
    linarith
  have hx : (795 / 1000 : F) ≤ max 0 (1 * (1 - n) + 8 / 10 * n + -(5 / 100) * dm * (1 / 10)) :=
    le_trans (by linarith) (le_max_right _ _)
  have hy : (195 / 1000 : F) ≤ max 0 (1 * (1 - n) + 2 / 10 * n + 5 / 100 * dm * (1 / 10)) :=
    le_trans (by linarith) (le_max_right _ _)
  have hz : (0 : F) ≤ max 0 (8 / 10 * (1 - n) + 0 * n + 10 / 100 * dm * (1 / 10)) :=
    le_max_left _ _
  generalize (P + 3 / 100) * (1 + dm * (75 / 100)) * 1 * (1 + 1 / 2 * Q) = C at hc hc0
  generalize max 0 (1 * (1 - n) + 8 / 10 * n + -(5 / 100) * dm * (1 / 10)) = X at hx
  generalize max 0 (1 * (1 - n) + 2 / 10 * n + 5 / 100 * dm * (1 / 10)) = Y at hy
  generalize max 0 (8 / 10 * (1 - n) + 0 * n + 10 / 100 * dm * (1 / 10)) = Z at hz
  have h1 := mul_le_mul hx hc (by norm_num) (by linarith)
  have h2 := mul_le_mul hy hc (by norm_num) (by linarith)
  have h3 := mul_nonneg hz (le_of_lt hc0)
  have h0 : (0 : F) < 195 / 1000 * (3 / 100 * (25 / 100)) := by norm_num
  refine ⟨by linarith, by linarith, by linarith⟩

/-- C10: under exact real arithmetic, for every point `p` and every view direction `v` with
`|v.z| ≤ 1`, every channel of `getDiskEmissionColor p v` is non-negative, the red channel is at
least `2 * 0.795 * 0.03 * 0.25`, and the red and green channels are strictly positive. -/
theorem getDiskEmissionColor_bounds (M : Libm ℝ) (hM : M.IsReal) (p v : vec3 ℝ)
    (hv : |v.z| ≤ 1) :
    0 ≤ (getDiskEmissionColor M p v).x ∧ 0 ≤ (getDiskEmissionColor M p v).y ∧
      0 ≤ (getDiskEmissionColor M p v).z ∧
      2 * (795 / 1000) * (3 / 100) * (25 / 100) ≤ (getDiskEmissionColor M p v).x ∧
      0 < (getDiskEmissionColor M p v).x ∧ 0 < (getDiskEmissionColor M p v).y := by
  have hr0 : 0 ≤ M.sqrtf (p.x * p.x + p.y * p.y) := by
    rw [hM.1]
    exact Real.sqrt_nonneg _
  have hrr : M.sqrtf (p.x * p.x + p.y * p.y) * M.sqrtf (p.x * p.x + p.y * p.y) =
      p.x * p.x + p.y * p.y := by
    rw [hM.1]
    exact Real.mul_self_sqrt (add_nonneg (mul_self_nonneg _) (mul_self_nonneg _))
  have hdm : ∀ r : ℝ, 0 ≤ r → r * r = p.x * p.x + p.y * p.y →
      -1 ≤ (if r > 1 / 100000 then p.x / r else 0) ∧
        (if r > 1 / 100000 then p.x / r else 0) ≤ 1 := by
    intro r h0 hr
    split_ifs with h
    · have hpos : 0 < r := lt_trans (by norm_num) h
      have hx := abs_le.mp (abs_le_of_sq_le_sq' (show p.x ^ 2 ≤ r ^ 2 by nlinarith [mul_self_nonneg p.y]) h0 |> abs_le.mpr)
      rw [le_div_iff₀ hpos, div_le_iff₀ hpos]
      constructor <;> linarith [hx.1, hx.2]
    · norm_num
  have hn1 : max 0 (min 1 ((M.sqrtf (p.x * p.x + p.y * p.y) - DISK_INNER_R) /
      (DISK_OUTER_R - DISK_INNER_R))) ≤ 1 := max_le (by norm_num) (min_le_left _ _)
  have hn0 : 0 ≤ max 0 (min 1 ((M.sqrtf (p.x * p.x + p.y * p.y) - DISK_INNER_R) /
      (DISK_OUTER_R - DISK_INNER_R))) := le_max_left _ _
  have hP : ∀ b e : ℝ, 0 ≤ b → 0 ≤ M.powf b e := by
    intro b e hb
    rw [hM.2.1]
    exact Real.rpow_nonneg hb e
  have hE : ∀ t : ℝ, 0 ≤ M.expf t := by
    intro t
    rw [hM.2.2.1]
    exact (Real.exp_pos t).le
  have key := disk_color_bounds
    (max 0 (min 1 ((M.sqrtf (p.x * p.x + p.y * p.y) - DISK_INNER_R) /
      (DISK_OUTER_R - DISK_INNER_R))))
    (if M.sqrtf (p.x * p.x + p.y * p.y) > 1 / 100000 then
      p.x / M.sqrtf (p.x * p.x + p.y * p.y) else 0)
    (M.powf (1 - max 0 (min 1 ((M.sqrtf (p.x * p.x + p.y * p.y) - DISK_INNER_R) /
      (DISK_OUTER_R - DISK_INNER_R)))) (35 / 10))
    (M.powf (1 - |v.z|) 4)
    (M.expf (-max 0 (min 1 ((M.sqrtf (p.x * p.x + p.y * p.y) - DISK_INNER_R) /
      (DISK_OUTER_R - DISK_INNER_R))) * 1200))
    hn1 (hdm _ hr0 hrr).1 (hdm _ hr0 hrr).2 (hP _ _ (by linarith)) (hP _ _ (by linarith)) (hE _)
  have kx : 2 * (795 / 1000) * (3 / 100) * (25 / 100) ≤ (getDiskEmissionColor M p v).x := key.1
  have ky : 0 < (getDiskEmissionColor M p v).y := key.2.1
  have kz : 0 ≤ (getDiskEmissionColor M p v).z := key.2.2
  have hpos : (0 : ℝ) < 2 * (795 / 1000) * (3 / 100) * (25 / 100) := by norm_num
  exact ⟨by linarith, ky.le, kz, kx, by linarith, ky⟩

/-- C10 at `p = (10, 0, 0)`, `v = (0, 0, 1)` with the real functions. -/
theorem getDiskEmissionColor_bounds_witness :
    Libm.IsReal ⟨Real.sqrt, fun x y => x ^ y, Real.exp, Real.sin, Real.cos, Real.tan⟩ ∧
    |(⟨0, 0, 1⟩ : vec3 ℝ).z| ≤ 1 ∧
    0 < (getDiskEmissionColor
      ⟨Real.sqrt, fun x y => x ^ y, Real.exp, Real.sin, Real.cos, Real.tan⟩
      (⟨10, 0, 0⟩ : vec3 ℝ) ⟨0, 0, 1⟩).x := by
  have h1 : |(⟨0, 0, 1⟩ : vec3 ℝ).z| ≤ 1 := by norm_num
  exact ⟨isReal_real, h1, (getDiskEmissionColor_bounds _ isReal_real _ _ h1).2.2.2.2.1⟩

theorem toUChar_of_floor {F : Type} [LinearOrderedField F] [FloorRing F] (v : F) (k : Nat)
    (hk : k < 256) (h1 : (k : F) ≤ v) (h2 : v < (k : F) + 1) : toUChar v = k := by
  have h0 : 0 ≤ v := le_trans (Nat.cast_nonneg k) h1
  have hf : ⌊v⌋ = (k : ℤ) := by
    rw [Int.floor_eq_iff]
    exact ⟨by exact_mod_cast h1, by exact_mod_cast h2⟩
  unfold toUChar
  rw [if_pos h0, hf]
  omega

theorem toUChar_le {F : Type} [LinearOrderedField F] [FloorRing F] (v : F) :
    toUChar v ≤ 255 := by
  unfold toUChar
  omega

/-- C6: under exact real arithmetic, for every non-negative radiance value `c` the tone-mapping
pass produces an integer in `[0, 255]` (the value converted to `unsigned char` lies in
`[0, 256)`, so the conversion is defined); input `0` gives `0`; and every `c ≥ 258` gives
exactly `255`. -/
theorem toneMapChannel_range (M : Libm ℝ) (hM : M.IsReal) :
    (∀ c : ℝ, 0 ≤ c → toneMapChannel M c ≤ 255 ∧
        0 ≤ M.powf (max 0 (min 1 (c / (c + 1 + 1 / 1000000)))) (1 / (22 / 10)) * (25599 / 100) ∧
        M.powf (max 0 (min 1 (c / (c + 1 + 1 / 1000000)))) (1 / (22 / 10)) * (25599 / 100) <
          256) ∧
      toneMapChannel M 0 = 0 ∧ ∃ B : ℝ, ∀ c : ℝ, B ≤ c → toneMapChannel M c = 255 := by
  refine ⟨fun c _ => ⟨toUChar_le _, ?_, ?_⟩, ?_, 258, ?_⟩
  · rw [hM.2.1]
    exact mul_nonneg (Real.rpow_nonneg (le_max_left _ _) _) (by norm_num)
  · rw [hM.2.1]
    have h1 : (max (0 : ℝ) (min 1 (c / (c + 1 + 1 / 1000000)))) ^ (1 / (22 / 10) : ℝ) ≤ 1 :=
      Real.rpow_le_one (le_max_left _ _) (max_le (by norm_num) (min_le_left _ _)) (by norm_num)
    simp only []
    linarith
  · unfold toneMapChannel
    simp only [hM.2.1]
    have : max (0 : ℝ) (min 1 (0 / (0 + 1 + 1 / 1000000))) = 0 := by norm_num
    rw [this, Real.zero_rpow (by norm_num)]
    exact toUChar_of_floor _ 0 (by norm_num) (by norm_num) (by norm_num)
  · intro c hc
    unfold toneMapChannel
    simp only [hM.2.1]
    have hpos : (0 : ℝ) < c + 1 + 1 / 1000000 := by linarith
    have hr1 : c / (c + 1 + 1 / 1000000) ≤ 1 := by
      rw [div_le_one hpos]
      linarith
    have hr0 : 255 / (25599 / 100) ≤ c / (c + 1 + 1 / 1000000) := by
      rw [div_le_div_iff₀ (by norm_num) hpos]
      linarith
    have hcl : max 0 (min 1 (c / (c + 1 + 1 / 1000000))) = c / (c + 1 + 1 / 1000000) := by
      rw [min_eq_right hr1, max_eq_right (le_trans (by norm_num) hr0)]
    rw [hcl]
    generalize c / (c + 1 + 1 / 1000000) = r at hr0 hr1
    have hrpos : 0 < r := lt_of_lt_of_le (by norm_num) hr0
    have hge : r ≤ r ^ (1 / (22 / 10) : ℝ) := by
      have := Real.rpow_le_rpow_of_exponent_ge hrpos hr1 (show (1 / (22 / 10) : ℝ) ≤ 1 by norm_num)
      rwa [Real.rpow_one] at this
    have hle : r ^ (1 / (22 / 10) : ℝ) ≤ 1 := Real.rpow_le_one hrpos.le hr1 (by norm_num)
    apply toUChar_of_floor _ 255 (by norm_num)
    · have : (255 : ℝ) ≤ r * (25599 / 100) := by
        rw [div_le_iff₀ (by norm_num)] at hr0
        exact hr0
      push_cast
      nlinarith
    · push_cast
      nlinarith

/-- C6 at input `0` with the real functions. -/
theorem toneMapChannel_range_witness :
    Libm.IsReal ⟨Real.sqrt, fun x y => x ^ y, Real.exp, Real.sin, Real.cos, Real.tan⟩ ∧
    toneMapChannel ⟨Real.sqrt, fun x y => x ^ y, Real.exp, Real.sin, Real.cos, Real.tan⟩
      (0 : ℝ) = 0 :=
  ⟨isReal_real, (toneMapChannel_range _ isReal_real).2.1⟩

section Kernel

theorem foldl_nested_eq {σ : Type} (f : σ → Nat → Nat → σ) (ys xs : List Nat) (init : σ) :
    ys.foldl (fun st y => xs.foldl (fun st x => f st x y) st) init =
      (ys.flatMap (fun y => xs.map (fun x => (x, y)))).foldl (fun st p => f st p.1 p.2) init := by
  induction ys generalizing init with
  | nil => rfl
  | cons y ys ih =>
    rw [List.foldl_cons, List.flatMap_cons, List.foldl_append, ih, List.foldl_map]

theorem foldl_write_log {α : Type} (idx : Nat × Nat → Int) (col : Nat × Nat → α)
    (ps : List (Nat × Nat)) (buf : List α) (log : List (Nat × Nat × Int)) :
    ps.foldl (fun (st : List α × List (Nat × Nat × Int)) p =>
        (storeAt st.1 (idx p) (col p), st.2 ++ [(p.1, p.2, idx p)])) (buf, log) =
      (ps.foldl (fun b p => storeAt b (idx p) (col p)) buf,
        log ++ ps.map (fun p => (p.1, p.2, idx p))) := by
  induction ps generalizing buf log with
  | nil => simp
  | cons p ps ih =>
    rw [List.foldl_cons, ih]
    simp

theorem storeAt_natCast {α : Type} (buf : List α) (n : Nat) (v : α) :
    storeAt buf (n : Int) v = buf.set n v := by
  unfold storeAt
  rw [if_pos (Int.natCast_nonneg n), Int.toNat_natCast]

theorem foldl_storeAt_eq_set {α : Type} (idx : Nat × Nat → Int) (nidx : Nat × Nat → Nat)
    (col : Nat × Nat → α) (ps : List (Nat × Nat)) (buf : List α)
    (h : ∀ p ∈ ps, idx p = (nidx p : Int)) :
    ps.foldl (fun b p => storeAt b (idx p) (col p)) buf =
      ps.foldl (fun b p => b.set (nidx p) (col p)) buf := by
  induction ps generalizing buf with
  | nil => rfl
  | cons p ps ih =>
    rw [List.foldl_cons, List.foldl_cons, h p (List.mem_cons_self _ _), storeAt_natCast]
    exact ih _ (fun q hq => h q (List.mem_cons_of_mem _ hq))

theorem map_log_index (ps : List (Nat × Nat)) (idx : Nat × Nat → Int) (nidx : Nat × Nat → Nat)
    (h : ∀ p ∈ ps, idx p = (nidx p : Int)) :
    (ps.map (fun p => (p.1, p.2, idx p))).map (fun e => e.2.2) =
      (ps.map nidx).map (fun (i : Nat) => (i : Int)) := by
  induction ps with
  | nil => rfl
  | cons p ps ih =>
    rw [List.map_cons, List.map_cons, List.map_cons, List.map_cons,
      ih (fun q hq => h q (List.mem_cons_of_mem _ hq)), ← h p (List.mem_cons_self _ _)]

theorem foldl_set_length {α : Type} (idx : Nat × Nat → Nat) (col : Nat × Nat → α)
    (ps : List (Nat × Nat)) (buf : List α) :
    (ps.foldl (fun b p => b.set (idx p) (col p)) buf).length = buf.length := by
  induction ps generalizing buf with
  | nil => rfl
  | cons p ps ih => rw [List.foldl_cons, ih, List.length_set]

theorem foldl_set_getElem_of_not_mem {α : Type} (idx : Nat × Nat → Nat) (col : Nat × Nat → α)
    (ps : List (Nat × Nat)) (buf : List α) (i : Nat) (h : i ∉ ps.map idx) :
    (ps.foldl (fun b p => b.set (idx p) (col p)) buf)[i]? = buf[i]? := by
  induction ps generalizing buf with
  | nil => rfl
  | cons p ps ih =>
    rw [List.map_cons, List.mem_cons, not_or] at h
    rw [List.foldl_cons, ih _ h.2, List.getElem?_set_ne (Ne.symm h.1)]

theorem foldl_set_getElem_of_mem {α : Type} (idx : Nat × Nat → Nat) (col : Nat × Nat → α)
    (ps : List (Nat × Nat)) (buf : List α) (hnd : (ps.map idx).Nodup) (p : Nat × Nat)
    (hp : p ∈ ps) (hlt : idx p < buf.length) :
    (ps.foldl (fun b p => b.set (idx p) (col p)) buf)[idx p]? = some (col p) := by
  induction ps generalizing buf with
  | nil => simp at hp
  | cons q ps ih =>
    rw [List.map_cons, List.nodup_cons] at hnd
    rw [List.foldl_cons]
    rcases List.mem_cons.mp hp with h | h
    · subst h
      rw [foldl_set_getElem_of_not_mem idx col ps _ _ hnd.1, List.getElem?_set_self hlt]
    · exact ih _ hnd.2 h (by rw [List.length_set]; exact hlt)

theorem flatMap_range_index (width height : Nat) :
    ((List.range height).flatMap (fun y => (List.range width).map (fun x => (x, y)))).map
        (fun p => p.2 * width + p.1) = List.range (width * height) := by
  induction height with
  | zero => simp
  | succ h ih =>
    rw [List.range_succ, List.flatMap_append, List.map_append, ih, List.flatMap_singleton,
      Nat.mul_succ, List.range_add, List.map_map]
    congr 1
    apply List.map_congr_left
    intro x _
    simp [Nat.mul_comm]

theorem pixel_index_lt (width height x y : Nat) (hx : x < width) (hy : y < height) :
    y * width + x < width * height := by
  calc y * width + x < y * width + width := by omega
    _ = (y + 1) * width := by ring
    _ ≤ height * width := Nat.mul_le_mul_right _ hy
    _ = width * height := Nat.mul_comm _ _

theorem pixel_index_inj (width x y x' y' : Nat) (hx : x < width) (hx' : x' < width)
    (h : y * width + x = y' * width + x') : x = x' ∧ y = y' := by
  have h1 : (y * width + x) % width = (y' * width + x') % width := by rw [h]
  have h2 : (y * width + x) / width = (y' * width + x') / width := by rw [h]
  have hw : 0 < width := by omega
  rw [Nat.add_comm, Nat.add_mul_mod_self_right, Nat.mod_eq_of_lt hx, Nat.add_comm (y' * width),
    Nat.add_mul_mod_self_right, Nat.mod_eq_of_lt hx'] at h1
  rw [Nat.add_comm, Nat.add_mul_div_right _ _ hw, Nat.div_eq_of_lt hx, Nat.add_comm (y' * width),
    Nat.add_mul_div_right _ _ hw, Nat.div_eq_of_lt hx'] at h2
  exact ⟨h1, by omega⟩

theorem wrapInt32_of_range (n : Int) (h0 : 0 ≤ n) (h1 : n ≤ 2147483647) : wrapInt32 n = n := by
  unfold wrapInt32
  omega

/-- The `int` index of a pixel is `y * width + x` when the image has at most `INT_MAX` pixels. -/
theorem pixel_index_int (width height x y : Nat) (hx : x < width) (hy : y < height)
    (hint : width * height ≤ 2147483647) :
    wrapInt32 (wrapInt32 ((y : Int) * (width : Int)) + (x : Int)) = ((y * width + x : Nat) : Int) := by
  have h := pixel_index_lt width height x y hx hy
  have h1 : ((y * width : Nat) : Int) ≤ 2147483647 := by
    have : y * width ≤ 2147483647 := by omega
    exact_mod_cast this
  have h2 : ((y * width + x : Nat) : Int) ≤ 2147483647 := by
    have : y * width + x ≤ 2147483647 := by omega
    exact_mod_cast this
  have e1 : (y : Int) * (width : Int) = ((y * width : Nat) : Int) := by push_cast; ring
  rw [e1, wrapInt32_of_range _ (Int.natCast_nonneg _) h1]
  have e2 : ((y * width : Nat) : Int) + (x : Int) = ((y * width + x : Nat) : Int) := by push_cast; ring
  rw [e2, wrapInt32_of_range _ (Int.natCast_nonneg _) h2]

variable {F : Type} [LinearOrderedField F]

/-- The traced kernel in closed form: one write per pixel in row-major order. -/
theorem renderKernelTraced_eq (M : Libm F) (output_buffer : List (vec3 F)) (width height : Nat)
    (cam_pos cam_look_at cam_up : vec3 F) (fov : F) :
    renderKernelTraced M output_buffer width height cam_pos cam_look_at cam_up fov =
      (((List.range height).flatMap (fun y => (List.range width).map (fun x => (x, y)))).foldl
          (fun b p => storeAt b (wrapInt32 (wrapInt32 ((p.2 : Int) * (width : Int)) + (p.1 : Int)))
            (traceRay M cam_pos (cameraRay M width height cam_pos cam_look_at cam_up fov p.1 p.2)))
          output_buffer,
        ((List.range height).flatMap (fun y => (List.range width).map (fun x => (x, y)))).map
          (fun p => (p.1, p.2, wrapInt32 (wrapInt32 ((p.2 : Int) * (width : Int)) + (p.1 : Int))))) := by
  have h1 : renderKernelTraced M output_buffer width height cam_pos cam_look_at cam_up fov =
      (List.range height).foldl (fun st (y : Nat) => (List.range width).foldl
        (fun (st : List (vec3 F) × List (Nat × Nat × Int)) (x : Nat) =>
          (fun (st : List (vec3 F) × List (Nat × Nat × Int)) (x y : Nat) =>
            (storeAt st.1 (wrapInt32 (wrapInt32 ((y : Int) * (width : Int)) + (x : Int)))
              (traceRay M cam_pos (cameraRay M width height cam_pos cam_look_at cam_up fov x y)),
              st.2 ++ [(x, y, wrapInt32 (wrapInt32 ((y : Int) * (width : Int)) + (x : Int)))]))
            st x y) st) (output_buffer, []) := rfl
  rw [h1, foldl_nested_eq]
  rw [foldl_write_log (fun p => wrapInt32 (wrapInt32 ((p.2 : Int) * (width : Int)) + (p.1 : Int)))
    (fun p => traceRay M cam_pos (cameraRay M width height cam_pos cam_look_at cam_up fov p.1 p.2))]
  simp

/-- C5: for an image of at most `INT_MAX = 2147483647` pixels and an output buffer of exactly
`width * height` entries, `renderKernel` writes every entry exactly once.  The log of writes
lists the indices `0, 1, ..., width * height - 1`, each once; the write of pixel `(x, y)`, with
`x < width` and `y < height`, goes to index `y * width + x` and every pixel writes; that index is
within bounds; distinct pixels have distinct indices; every index below `width * height` is the
index of a pixel; the buffer keeps its size; and the entry at `y * width + x` on return is
`traceRay cam_pos (cameraRay x y)`, the trace of the normalised camera ray through the centre of
pixel `(x, y)`. -/
theorem renderKernel_fills_buffer (M : Libm F) (output_buffer : List (vec3 F))
    (width height : Nat) (cam_pos cam_look_at cam_up : vec3 F) (fov : F)
    (hlen : output_buffer.length = width * height) (hint : width * height ≤ 2147483647) :
    (renderKernelTraced M output_buffer width height cam_pos cam_look_at cam_up fov).2.map
        (fun e => e.2.2) = (List.range (width * height)).map (fun (i : Nat) => (i : Int)) ∧
      (∀ e ∈ (renderKernelTraced M output_buffer width height cam_pos cam_look_at cam_up fov).2,
        e.1 < width ∧ e.2.1 < height ∧ e.2.2 = ((e.2.1 * width + e.1 : Nat) : Int)) ∧
      (∀ x y, x < width → y < height → (x, y, ((y * width + x : Nat) : Int)) ∈
        (renderKernelTraced M output_buffer width height cam_pos cam_look_at cam_up fov).2) ∧
      (∀ x y, x < width → y < height → y * width + x < width * height) ∧
      (∀ x y x' y', x < width → x' < width → y * width + x = y' * width + x' →
        x = x' ∧ y = y') ∧
      (∀ i, i < width * height → ∃ x y, x < width ∧ y < height ∧ i = y * width + x) ∧
      (renderKernel M output_buffer width height cam_pos cam_look_at cam_up fov).length =
        width * height ∧
      ∀ x y, x < width → y < height →
        (renderKernel M output_buffer width height cam_pos cam_look_at cam_up fov)[y * width + x]? =
          some (traceRay M cam_pos
            (cameraRay M width height cam_pos cam_look_at cam_up fov x y)) := by
  have hmem : ∀ x y, x < width → y < height → (x, y) ∈
      (List.range height).flatMap (fun y => (List.range width).map (fun x => (x, y))) := by
    intro x y hx hy
    rw [List.mem_flatMap]
    exact ⟨y, List.mem_range.mpr hy, List.mem_map.mpr ⟨x, List.mem_range.mpr hx, rfl⟩⟩
  have hrange : ∀ p ∈ (List.range height).flatMap
      (fun y => (List.range width).map (fun x => (x, y))), p.1 < width ∧ p.2 < height := by
    intro p hp
    obtain ⟨y, hy, hp2⟩ := List.mem_flatMap.mp hp
    obtain ⟨x, hx, rfl⟩ := List.mem_map.mp hp2
    exact ⟨List.mem_range.mp hx, List.mem_range.mp hy⟩
  have hint32 : ∀ p ∈ (List.range height).flatMap
      (fun y => (List.range width).map (fun x => (x, y))),
      wrapInt32 (wrapInt32 ((p.2 : Int) * (width : Int)) + (p.1 : Int)) =
        ((p.2 * width + p.1 : Nat) : Int) := by
    intro p hp
    exact pixel_index_int width height p.1 p.2 (hrange p hp).1 (hrange p hp).2 hint
  have hidx := flatMap_range_index width height
  unfold renderKernel
  rw [renderKernelTraced_eq]
  rw [foldl_storeAt_eq_set _ (fun p => p.2 * width + p.1) _ _ _ hint32]
  refine ⟨?_, ?_, ?_, fun x y hx hy => pixel_index_lt width height x y hx hy,
    fun x y x' y' hx hx' h => pixel_index_inj width x y x' y' hx hx' h, ?_, ?_, ?_⟩
  · rw [← hidx]
    exact map_log_index _ (fun p => wrapInt32 (wrapInt32 ((p.2 : Int) * (width : Int)) + (p.1 : Int)))
      (fun p => p.2 * width + p.1) hint32
  · intro e he
    obtain ⟨p, hp, rfl⟩ := List.mem_map.mp he
    have h := hint32 p hp
    refine ⟨(hrange p hp).1, (hrange p hp).2, ?_⟩
    simp only []
    exact h
  · intro x y hx hy
    have h := hint32 (x, y) (hmem x y hx hy)
    simp only [] at h
    refine List.mem_map.mpr ⟨(x, y), hmem x y hx hy, ?_⟩
    simp only []
    rw [h]
  · intro i hi
    have hw : 0 < width := by
      rcases Nat.eq_zero_or_pos width with h | h
      · rw [h] at hi
        simp at hi
      · exact h
    refine ⟨i % width, i / width, Nat.mod_lt _ hw, ?_, ?_⟩
    · rw [Nat.div_lt_iff_lt_mul hw, Nat.mul_comm]
      exact hi
    · rw [Nat.mul_comm]
      exact (Nat.div_add_mod i width).symm
  · rw [foldl_set_length (fun p => p.2 * width + p.1), hlen]
  · intro x y hx hy
    exact foldl_set_getElem_of_mem (fun p => p.2 * width + p.1)
      (fun p => traceRay M cam_pos (cameraRay M width height cam_pos cam_look_at cam_up fov p.1 p.2))
      _ output_buffer (by rw [hidx]; exact List.nodup_range _) (x, y) (hmem x y hx hy)
      (by rw [hlen]; exact pixel_index_lt width height x y hx hy)

end Kernel

/-- C5 on a `2 × 1` image with the real functions. -/
theorem renderKernel_fills_buffer_witness :
    ([⟨0, 0, 0⟩, ⟨0, 0, 0⟩] : List (vec3 ℝ)).length = 2 * 1 ∧ 2 * 1 ≤ 2147483647 ∧
    (renderKernelTraced ⟨Real.sqrt, fun x y => x ^ y, Real.exp, Real.sin, Real.cos, Real.tan⟩
      ([⟨0, 0, 0⟩, ⟨0, 0, 0⟩] : List (vec3 ℝ)) 2 1 ⟨20, 0, 4⟩ ⟨0, 0, 0⟩ ⟨0, 0, 1⟩ 75).2.map
        (fun e => e.2.2) = [0, 1] ∧
    (renderKernel ⟨Real.sqrt, fun x y => x ^ y, Real.exp, Real.sin, Real.cos, Real.tan⟩
      ([⟨0, 0, 0⟩, ⟨0, 0, 0⟩] : List (vec3 ℝ)) 2 1 ⟨20, 0, 4⟩ ⟨0, 0, 0⟩ ⟨0, 0, 1⟩ 75).length =
        2 * 1 := by
  have h := renderKernel_fills_buffer
    ⟨Real.sqrt, fun x y => x ^ y, Real.exp, Real.sin, Real.cos, Real.tan⟩
    ([⟨0, 0, 0⟩, ⟨0, 0, 0⟩] : List (vec3 ℝ)) 2 1 ⟨20, 0, 4⟩ ⟨0, 0, 0⟩ ⟨0, 0, 1⟩ 75 rfl
    (by norm_num)
  exact ⟨rfl, by norm_num, h.1, h.2.2.2.2.2.2.1⟩

/-- C5 as stated fails on a `46341 × 46341` image, whose buffer of `46341 * 46341` entries has
more than `INT_MAX` of them: the kernel's write for pixel `(46340, 46340)` computes the `int`
index `46340 * 46341 + 46340 = 2147488280`, which overflows to `-2147479016`: not the index
`y * width + x`, and not within the bounds of the buffer. -/
theorem renderKernel_index_overflow_counterexample :
    0 < 46341 ∧
    (List.replicate (46341 * 46341) (⟨0, 0, 0⟩ : vec3 ℝ)).length = 46341 * 46341 ∧
    (46340, 46340, (-2147479016 : Int)) ∈
      (renderKernelTraced ⟨Real.sqrt, fun x y => x ^ y, Real.exp, Real.sin, Real.cos, Real.tan⟩
        (List.replicate (46341 * 46341) (⟨0, 0, 0⟩ : vec3 ℝ)) 46341 46341
        ⟨20, 0, 4⟩ ⟨0, 0, 0⟩ ⟨0, 0, 1⟩ 75).2 ∧
    (-2147479016 : Int) ≠ ((46340 * 46341 + 46340 : Nat) : Int) ∧
    ¬ (0 ≤ (-2147479016 : Int)) := by
  refine ⟨by norm_num, ?_, ?_, ?_, by norm_num⟩
  · exact List.length_replicate _ _
  swap
  · norm_num
  rw [renderKernelTraced_eq]
  have hp : ((46340 : Nat), (46340 : Nat)) ∈
      (List.range 46341).flatMap (fun y => (List.range 46341).map (fun x => (x, y))) := by
    rw [List.mem_flatMap]
    exact ⟨46340, List.mem_range.mpr (by norm_num),
      List.mem_map.mpr ⟨46340, List.mem_range.mpr (by norm_num), rfl⟩⟩
  have hv : wrapInt32 (wrapInt32 (((46340 : Nat) : Int) * ((46341 : Nat) : Int)) +
      ((46340 : Nat) : Int)) = -2147479016 := by
    norm_num [wrapInt32]
  have hm := List.mem_map_of_mem
    (fun p : Nat × Nat => (p.1, p.2, wrapInt32 (wrapInt32 ((p.2 : Int) * ((46341 : Nat) : Int)) +
      (p.1 : Int)))) hp
  simp only [hv] at hm
  dsimp only
  exact hm

section DiskHit

variable {F : Type} [LinearOrderedField F]

/-- What a reported hit of `intersectDisk` says about its arguments and its output point. -/
theorem intersectDisk_hit (p1 p2 o : vec3 F) (h : (intersectDisk p1 p2 o).1 = true) :
    p1.z * p2.z < 0 ∧ 0 < -p1.z / (p2.z - p1.z) ∧ -p1.z / (p2.z - p1.z) < 1 ∧
      (intersectDisk p1 p2 o).2 = p1 + (-p1.z / (p2.z - p1.z)) * (p2 - p1) ∧
      (intersectDisk p1 p2 o).2.z = 0 ∧
      DISK_INNER_R_SQ ≤ (intersectDisk p1 p2 o).2.x * (intersectDisk p1 p2 o).2.x +
        (intersectDisk p1 p2 o).2.y * (intersectDisk p1 p2 o).2.y ∧
      (intersectDisk p1 p2 o).2.x * (intersectDisk p1 p2 o).2.x +
        (intersectDisk p1 p2 o).2.y * (intersectDisk p1 p2 o).2.y ≤ DISK_OUTER_R_SQ := by
  by_cases hz : p1.z * p2.z ≥ 0
  · rw [intersectDisk_same_side p1 p2 o hz] at h
    exact absurd h (by simp)
  · have hz1 : p1.z * p2.z < 0 := not_le.mp hz
    by_cases hd : |p2.z - p1.z| < 1 / 1000000
    · have hf : (intersectDisk p1 p2 o).1 = false := by
        unfold intersectDisk
        rw [if_neg hz]
        simp only []
        rw [if_pos hd]
      rw [hf] at h
      exact absurd h (by simp)
    · obtain ⟨hne, h0, h1⟩ := crossing_param_bounds p1.z p2.z hz1
      rw [intersectDisk_of_crossing p1 p2 o hz1 (not_lt.mp hd)] at h ⊢
      simp only [decide_eq_true_eq] at h
      refine ⟨hz1, h0, h1, rfl, ?_, h.1, h.2⟩
      simp only [vec3.add_z, vec3.smul_z, vec3.sub_z]
      field_simp
      ring

/-- C16: for consecutive positions `p1`, `p2`, `p3` with `p2.z = 0`, both `intersectDisk p1 p2`
and `intersectDisk p2 p3` return false, whatever the signs of `p1.z` and `p3.z` and wherever
`p2` lies (in particular inside the annulus). -/
theorem intersectDisk_boundary_missed (p1 p2 p3 o o' : vec3 F) (h : p2.z = 0) :
    (intersectDisk p1 p2 o).1 = false ∧ (intersectDisk p2 p3 o').1 = false := by
  constructor
  · rw [intersectDisk_same_side p1 p2 o (by rw [h, mul_zero])]
  · rw [intersectDisk_same_side p2 p3 o' (by rw [h, zero_mul])]

end DiskHit

/-- C16 at `(10,0,1) → (10,0,0) → (10,0,-1)`: the middle point lies in the annulus and on the
plane, the outer points on opposite sides, and neither step reports a hit. -/
theorem intersectDisk_boundary_missed_witness :
    (⟨10, 0, 0⟩ : vec3 ℚ).z = 0 ∧ (1 : ℚ) * (-1) < 0 ∧
      (DISK_INNER_R_SQ : ℚ) ≤ 10 * 10 + 0 * 0 ∧ (10 * 10 + 0 * 0 : ℚ) ≤ DISK_OUTER_R_SQ ∧
      (intersectDisk (⟨10, 0, 1⟩ : vec3 ℚ) ⟨10, 0, 0⟩ ⟨0, 0, 0⟩).1 = false ∧
      (intersectDisk (⟨10, 0, 0⟩ : vec3 ℚ) ⟨10, 0, -1⟩ ⟨0, 0, 0⟩).1 = false := by
  have h := intersectDisk_boundary_missed (⟨10, 0, 1⟩ : vec3 ℚ) ⟨10, 0, 0⟩ ⟨10, 0, -1⟩
    ⟨0, 0, 0⟩ ⟨0, 0, 0⟩ rfl
  exact ⟨rfl, by norm_num, by norm_num [DISK_INNER_R_SQ, DISK_INNER_R, RS, M_BH],
    by norm_num [DISK_OUTER_R_SQ, DISK_OUTER_R, RS, M_BH], h.1, h.2⟩

section DiskColourSymmetry

variable {F : Type} [LinearOrderedField F]

/-- C18: `getDiskEmissionColor p v = getDiskEmissionColor p (-v)`, and the colour depends on
`p.x`, `p.y` and `|v.z|` only: two calls that agree on these three values return the same
colour.  In particular the negation of the previous direction in `traceRay` before shading does
not change the colour returned. -/
theorem getDiskEmissionColor_symmetric (M : Libm F) :
    (∀ p v : vec3 F, getDiskEmissionColor M p v = getDiskEmissionColor M p (-v)) ∧
      (∀ p q v w : vec3 F, p.x = q.x → p.y = q.y → |v.z| = |w.z| →
        getDiskEmissionColor M p v = getDiskEmissionColor M q w) ∧
      ∀ p prev_dir : vec3 F, getDiskEmissionColor M p (-(prev_dir.normalize M)) =
        getDiskEmissionColor M p (prev_dir.normalize M) := by
  have key : ∀ p q v w : vec3 F, p.x = q.x → p.y = q.y → |v.z| = |w.z| →
      getDiskEmissionColor M p v = getDiskEmissionColor M q w := by
    intro p q v w hx hy hz
    unfold getDiskEmissionColor
    rw [hx, hy, hz]
  refine ⟨fun p v => key p p v (-v) rfl rfl ?_, key, fun p d => key p p _ _ rfl rfl ?_⟩
  · rw [vec3.neg_z, abs_neg]
  · rw [vec3.neg_z, abs_neg]

end DiskColourSymmetry

/-- Two directions with the same squared hash have the same starfield colour. -/
theorem backgroundStars_congr {F : Type} [LinearOrderedField F] (M : Libm F) (d e : vec3 F)
    (h : M.sinf (d.x * 500) * M.cosf (d.y * 500) * M.sinf (d.z * 500) *
        (M.sinf (d.x * 500) * M.cosf (d.y * 500) * M.sinf (d.z * 500)) =
      M.sinf (e.x * 500) * M.cosf (e.y * 500) * M.sinf (e.z * 500) *
        (M.sinf (e.x * 500) * M.cosf (e.y * 500) * M.sinf (e.z * 500))) :
    backgroundStars M d = backgroundStars M e := by
  unfold backgroundStars
  simp only []
  rw [h]

/-- C19: under exact real arithmetic, the starfield is mirror-symmetric in every coordinate:
for every direction `(x, y, z)` and every choice of signs,
`backgroundStars (±x, ±y, ±z) = backgroundStars (x, y, z)`; in particular
`backgroundStars (-d) = backgroundStars d`. -/
theorem backgroundStars_mirror (M : Libm ℝ) (hM : M.IsReal) (d : vec3 ℝ) :
    (∀ sx sy sz : ℝ, (sx = 1 ∨ sx = -1) → (sy = 1 ∨ sy = -1) → (sz = 1 ∨ sz = -1) →
        backgroundStars M ⟨sx * d.x, sy * d.y, sz * d.z⟩ = backgroundStars M d) ∧
      backgroundStars M (-d) = backgroundStars M d := by
  have hs : M.sinf = Real.sin := hM.2.2.2.1
  have hc : M.cosf = Real.cos := hM.2.2.2.2.1
  constructor
  · intro sx sy sz hx hy hz
    apply backgroundStars_congr
    rw [hs, hc]
    rcases hx with rfl | rfl <;> rcases hy with rfl | rfl <;> rcases hz with rfl | rfl <;>
      simp only [one_mul, neg_mul, Real.sin_neg, Real.cos_neg] <;> ring
  · apply backgroundStars_congr
    rw [hs, hc]
    simp only [vec3.neg_x, vec3.neg_y, vec3.neg_z, neg_mul, Real.sin_neg, Real.cos_neg]
    ring

/-- C19 at `d = (1, 2, 3)` with the real functions. -/
theorem backgroundStars_mirror_witness :
    Libm.IsReal ⟨Real.sqrt, fun x y => x ^ y, Real.exp, Real.sin, Real.cos, Real.tan⟩ ∧
    backgroundStars ⟨Real.sqrt, fun x y => x ^ y, Real.exp, Real.sin, Real.cos, Real.tan⟩
      (-(⟨1, 2, 3⟩ : vec3 ℝ)) =
    backgroundStars ⟨Real.sqrt, fun x y => x ^ y, Real.exp, Real.sin, Real.cos, Real.tan⟩
      (⟨1, 2, 3⟩ : vec3 ℝ) :=
  ⟨isReal_real, (backgroundStars_mirror _ isReal_real _).2⟩

section Attractive

variable {F : Type} [LinearOrderedField F]

end Attractive

section Cross

variable {F : Type} [LinearOrderedField F]

theorem vec3.smul_dot (s : F) (a b : vec3 F) : (s * a).dot b = s * a.dot b := by
  simp only [vec3.dot, vec3.smul_x, vec3.smul_y, vec3.smul_z]
  ring

end Cross

section StepBudget

variable {F : Type} [LinearOrderedField F]

/-- The loop with `n` iterations left either returns from inside iteration `k + 1` for some
`k < n`, or runs all `n` iterations and returns `backgroundStars` of the last direction. -/
theorem traceRayLoop_cases (M : Libm F) (n : Nat) (pos dir : vec3 F) :
    (∃ k, k < n ∧ ∃ pos1 dir1 c, traceRayIter M k pos dir = some (pos1, dir1) ∧
        traceRayStep M pos1 dir1 = Sum.inl c ∧ traceRayLoop M n pos dir = c) ∨
      (∃ pos1 dir1, traceRayIter M n pos dir = some (pos1, dir1) ∧
        traceRayLoop M n pos dir = backgroundStars M dir1) := by
  induction n generalizing pos dir with
  | zero => exact Or.inr ⟨pos, dir, rfl, rfl⟩
  | succ n ih =>
    rcases hstep : traceRayStep M pos dir with c | ⟨pos2, dir2⟩
    · refine Or.inl ⟨0, Nat.succ_pos n, pos, dir, c, rfl, hstep, ?_⟩
      rw [traceRayLoop_succ, hstep]
    · have hloop : traceRayLoop M (n + 1) pos dir = traceRayLoop M n pos2 dir2 := by
        rw [traceRayLoop_succ, hstep]
      have hiter : ∀ k, traceRayIter M (k + 1) pos dir = traceRayIter M k pos2 dir2 := by
        intro k
        show (match traceRayStep M pos dir with
          | Sum.inl _ => none
          | Sum.inr (next_pos, next_dir) => traceRayIter M k next_pos next_dir) = _
        rw [hstep]
      rcases ih pos2 dir2 with ⟨k, hk, pos1, dir1, c, h1, h2, h3⟩ | ⟨pos1, dir1, h1, h2⟩
      · exact Or.inl ⟨k + 1, Nat.succ_lt_succ hk, pos1, dir1, c, by rw [hiter, h1], h2,
          by rw [hloop, h3]⟩
      · exact Or.inr ⟨pos1, dir1, by rw [hiter, h1], by rw [hloop, h2]⟩

/-- C14: for every start position and direction `traceRay` returns a colour after at most
`MAX_STEPS` integration steps: either some iteration `k + 1 ≤ MAX_STEPS` returns it, after `k`
iterations that did not return, or all `MAX_STEPS` iterations run without absorption, disk hit
or escape and the result is `backgroundStars` of the direction after the last step.  That is the
function the escape case applies to the direction after its step. -/
theorem traceRay_step_budget (M : Libm F) (ray_pos ray_dir : vec3 F) :
    ((∃ k, k < MAX_STEPS ∧ ∃ pos dir c,
          traceRayIter M k ray_pos (ray_dir.normalize M) = some (pos, dir) ∧
          traceRayStep M pos dir = Sum.inl c ∧ traceRay M ray_pos ray_dir = c) ∨
        (∃ pos dir, traceRayIter M MAX_STEPS ray_pos (ray_dir.normalize M) = some (pos, dir) ∧
          traceRay M ray_pos ray_dir = backgroundStars M dir)) ∧
      ∀ pos dir : vec3 F, ¬ (integrateRK4 M pos dir DT).1.lengthSq < HIT_DIST_SQ →
        (intersectDisk pos (integrateRK4 M pos dir DT).1 ⟨0, 0, 0⟩).1 = false →
        (integrateRK4 M pos dir DT).1.lengthSq > MAX_DIST * MAX_DIST →
        traceRayStep M pos dir = Sum.inl (backgroundStars M (integrateRK4 M pos dir DT).2) := by
  refine ⟨traceRayLoop_cases M MAX_STEPS ray_pos (ray_dir.normalize M), ?_⟩
  intro pos dir h1 h2 h3
  unfold traceRayStep
  rcases hrk : integrateRK4 M pos dir DT with ⟨pos1, dir1⟩
  rw [hrk] at h1 h2 h3
  simp only [] at h1 h2 h3 ⊢
  rw [if_neg h1]
  rcases hid : intersectDisk pos pos1 ⟨0, 0, 0⟩ with ⟨hit, pt⟩
  rw [hid] at h2
  simp only [] at h2 ⊢
  rw [h2]
  simp only [Bool.false_eq_true, if_false]
  rw [if_pos h3]

end StepBudget

section Exclusive

variable (M : Libm ℝ) (hM : M.IsReal)

include hM

/-- One integrator step with a direction of length at most `1` displaces the position by a
vector of length at most `dt`. -/
theorem integrateRK4_displacement_le (pos dir : vec3 ℝ) (dt : ℝ) (hdt : 0 ≤ dt)
    (hdir : dir.length M ≤ 1) :
    ((integrateRK4 M pos dir dt).1 - pos).length M ≤ dt := by
  obtain ⟨k2, k3, k4, h2, h3, h4, he⟩ := integrateRK4_fst M hM pos dir dt
  have hsub : (integrateRK4 M pos dir dt).1 - pos =
      (dt / 6) * (dir + (2 : ℝ) * k2 + (2 : ℝ) * k3 + k4) := by
    rw [he]
    ext <;> simp
  rw [hsub, vec3.length_smul M hM, abs_of_nonneg (by positivity)]
  have := vec3.length_rk_sum_le M hM dir k2 k3 k4 1 hdir h2 h3 h4
  have := mul_le_mul_of_nonneg_left this (by positivity : (0 : ℝ) ≤ dt / 6)
  linarith

/-- A point `q` of the plane `z = 0` with `x² + y²` in the annulus, on the segment from `a` to
`b` of length at most `DT`, keeps `b` between the absorption and the escape radius. -/
theorem lengthSq_near_annulus (a b q : vec3 ℝ) (t : ℝ) (ht0 : 0 < t) (ht1 : t < 1)
    (hq : q = a + t * (b - a)) (hz : q.z = 0)
    (hi : DISK_INNER_R_SQ ≤ q.x * q.x + q.y * q.y) (ho : q.x * q.x + q.y * q.y ≤ DISK_OUTER_R_SQ)
    (hab : (b - a).length M ≤ DT) :
    HIT_DIST_SQ ≤ b.lengthSq ∧ b.lengthSq ≤ MAX_DIST * MAX_DIST := by
  have hqs : q.lengthSq = q.x * q.x + q.y * q.y := by
    unfold vec3.lengthSq
    rw [hz]
    ring
  rw [← hqs] at hi ho
  have hq0 := vec3.length_nonneg M hM q
  have hqq := vec3.length_mul_self M hM q
  have hb0 := vec3.length_nonneg M hM b
  have hbb := vec3.length_mul_self M hM b
  have hd0 := vec3.length_nonneg M hM (b - a)
  have hq6 : 6 ≤ q.length M := by
    by_contra hlt
    push_neg at hlt
    have : (DISK_INNER_R_SQ : ℝ) = 36 := by norm_num [DISK_INNER_R_SQ, DISK_INNER_R, RS, M_BH]
    nlinarith
  have hq30 : q.length M ≤ 30 := by
    by_contra hlt
    push_neg at hlt
    have : (DISK_OUTER_R_SQ : ℝ) = 900 := by norm_num [DISK_OUTER_R_SQ, DISK_OUTER_R, RS, M_BH]
    nlinarith
  have hb : b = q + (1 - t) * (b - a) := by
    rw [hq]
    ext <;> simp <;> ring
  have hq2 : q = b + (-(1 - t)) * (b - a) := by
    rw [hq]
    ext <;> simp <;> ring
  have e1 := vec3.length_add_le M hM q ((1 - t) * (b - a))
  rw [← hb, vec3.length_smul M hM, abs_of_pos (by linarith)] at e1
  have e2 := vec3.length_add_le M hM b ((-(1 - t)) * (b - a))
  rw [← hq2, vec3.length_smul M hM, abs_neg, abs_of_pos (by linarith)] at e2
  have hsmall : (1 - t) * (b - a).length M ≤ 5 / 100 := by
    have hDT : (DT : ℝ) = 5 / 100 := rfl
    rw [hDT] at hab
    nlinarith
  have hlo : 595 / 100 ≤ b.length M := by linarith
  have hhi : b.length M ≤ 3005 / 100 := by linarith
  rw [← hbb]
  constructor
  · have : (HIT_DIST_SQ : ℝ) = 404 / 100 := by norm_num [HIT_DIST_SQ, RS_SQ, RS, M_BH]
    rw [this]
    nlinarith
  · have : (MAX_DIST : ℝ) = 100 := rfl
    rw [this]
    nlinarith

end Exclusive

/-- C17: under exact real arithmetic, for every position and every direction of unit length,
if `intersectDisk` reports a hit between the position before and after one `integrateRK4` step
with `dt = DT`, then `HIT_DIST_SQ ≤ |new_pos|² ≤ MAX_DIST²`: the absorption test and the escape
test both fail on that step, and the loop iteration returns the disk colour. -/
theorem disk_hit_excludes_absorb_escape (M : Libm ℝ) (hM : M.IsReal) (pos dir : vec3 ℝ)
    (hdir : dir.length M = 1)
    (hhit : (intersectDisk pos (integrateRK4 M pos dir DT).1 ⟨0, 0, 0⟩).1 = true) :
    HIT_DIST_SQ ≤ (integrateRK4 M pos dir DT).1.lengthSq ∧
      (integrateRK4 M pos dir DT).1.lengthSq ≤ MAX_DIST * MAX_DIST ∧
      ¬ (integrateRK4 M pos dir DT).1.lengthSq < HIT_DIST_SQ ∧
      ¬ (integrateRK4 M pos dir DT).1.lengthSq > MAX_DIST * MAX_DIST ∧
      traceRayStep M pos dir = Sum.inl (getDiskEmissionColor M
        (intersectDisk pos (integrateRK4 M pos dir DT).1 ⟨0, 0, 0⟩).2
        (-(dir.normalize M))) := by
  obtain ⟨_, h0, h1, he, hz, hi, ho⟩ := intersectDisk_hit _ _ _ hhit
  have hdisp := integrateRK4_displacement_le M hM pos dir DT (by norm_num [DT]) (le_of_eq hdir)
  obtain ⟨hlo, hhi⟩ := lengthSq_near_annulus M hM pos (integrateRK4 M pos dir DT).1 _ _ h0 h1 he hz
    hi ho hdisp
  refine ⟨hlo, hhi, not_lt.mpr hlo, not_lt.mpr hhi, ?_⟩
  unfold traceRayStep
  rcases hrk : integrateRK4 M pos dir DT with ⟨pos1, dir1⟩
  rw [hrk] at hlo hhit
  simp only [] at hlo hhit ⊢
  rw [if_neg (not_lt.mpr hlo)]
  rcases hid : intersectDisk pos pos1 ⟨0, 0, 0⟩ with ⟨hit, pt⟩
  rw [hid] at hhit
  simp only [] at hhit ⊢
  rw [hhit]
  simp
section Advance

variable (M : Libm ℝ) (hM : M.IsReal)

include hM

theorem vec3.abs_dot_le (a b : vec3 ℝ) : |a.dot b| ≤ a.length M * b.length M := by
  have ha := vec3.length_nonneg M hM a
  have hb := vec3.length_nonneg M hM b
  have hcs := vec3.dot_sq_le a b
  rw [← vec3.length_mul_self M hM a, ← vec3.length_mul_self M hM b] at hcs
  apply abs_le_of_sq_le_sq' _ (mul_nonneg ha hb) |> abs_le.mpr
  nlinarith

theorem vec3.abs_x_le_length (v : vec3 ℝ) : |v.x| ≤ v.length M := by
  have h0 := vec3.length_nonneg M hM v
  have hs := vec3.length_mul_self M hM v
  apply abs_le_of_sq_le_sq' _ h0 |> abs_le.mpr
  unfold vec3.lengthSq at hs
  nlinarith [mul_self_nonneg v.y, mul_self_nonneg v.z]

theorem vec3.abs_y_le_length (v : vec3 ℝ) : |v.y| ≤ v.length M := by
  have h0 := vec3.length_nonneg M hM v
  have hs := vec3.length_mul_self M hM v
  apply abs_le_of_sq_le_sq' _ h0 |> abs_le.mpr
  unfold vec3.lengthSq at hs
  nlinarith [mul_self_nonneg v.x, mul_self_nonneg v.z]

/-- A unit direction perturbed by at most `1/20` of a vector of length at most `1` and then
normalised keeps a component of at least `9/10` along the unit direction. -/
theorem vec3.normalize_dot_ge (dir a : vec3 ℝ) (s : ℝ) (hs0 : 0 ≤ s) (hs1 : s ≤ 1 / 20)
    (hdir : dir.length M = 1) (ha : a.length M ≤ 1) :
    9 / 10 ≤ ((dir + s * a).normalize M).dot dir := by
  have hd1 : dir.lengthSq = 1 := (vec3.length_eq_one_iff M hM dir).mp hdir
  have hcs := abs_le.mp (vec3.abs_dot_le M hM a dir)
  rw [hdir, mul_one] at hcs
  have hvd : (dir + s * a).dot dir = 1 + s * a.dot dir := by
    simp only [vec3.lengthSq] at hd1
    simp only [vec3.dot, vec3.add_x, vec3.add_y, vec3.add_z, vec3.smul_x, vec3.smul_y,
      vec3.smul_z]
    linear_combination hd1
  have hlow : 19 / 20 ≤ (dir + s * a).dot dir := by
    rw [hvd]
    nlinarith [hcs.1]
  have hne : dir + s * a ≠ ⟨0, 0, 0⟩ := by
    intro h0
    rw [h0] at hlow
    norm_num [vec3.dot] at hlow
  have hlen : (dir + s * a).length M ≤ 21 / 20 := by
    have h1 := vec3.length_add_le M hM dir (s * a)
    rw [vec3.length_smul M hM, abs_of_nonneg hs0, hdir] at h1
    nlinarith [vec3.length_nonneg M hM a]
  have hpos : 0 < (dir + s * a).length M :=
    lt_of_le_of_ne (vec3.length_nonneg M hM _)
      (fun h0 => hne ((vec3.length_eq_zero_iff M hM _).mp h0.symm))
  rw [vec3.normalize_of_ne M hM _ hne, vec3.smul_dot, one_div, inv_mul_eq_div,
    le_div_iff₀ hpos]
  nlinarith

/-- One integrator step with `dt = DT` from a unit direction advances the position by at least
`0.045` along that direction, and displaces it by at most `DT`. -/
theorem integrateRK4_advance (pos dir : vec3 ℝ) (hdir : dir.length M = 1) :
    45 / 1000 ≤ ((integrateRK4 M pos dir DT).1 - pos).dot dir := by
  have hn : ∀ v : vec3 ℝ, (v.normalize M).lengthSq ≤ 1 := vec3.lengthSq_normalize_le_one M hM
  have hds : dir.lengthSq = 1 := (vec3.length_eq_one_iff M hM dir).mp hdir
  obtain ⟨k2, k3, k4, h2, h3, h4, he⟩ : ∃ k2 k3 k4 : vec3 ℝ,
      9 / 10 ≤ k2.dot dir ∧ 9 / 10 ≤ k3.dot dir ∧ 9 / 10 ≤ k4.dot dir ∧
      (integrateRK4 M pos dir DT).1 =
        pos + (DT / 6) * (dir + (2 : ℝ) * k2 + (2 : ℝ) * k3 + k4) :=
    ⟨_, _, _,
      vec3.normalize_dot_ge M hM dir _ (1 / 2 * DT) (by norm_num [DT]) (by norm_num [DT]) hdir
        (geodesic_acceleration_length_le M hM _ _ (le_of_eq hds)),
      vec3.normalize_dot_ge M hM dir _ (1 / 2 * DT) (by norm_num [DT]) (by norm_num [DT]) hdir
        (geodesic_acceleration_length_le M hM _ _ (hn _)),
      vec3.normalize_dot_ge M hM dir _ DT (by norm_num [DT]) (by norm_num [DT]) hdir
        (geodesic_acceleration_length_le M hM _ _ (hn _)), rfl⟩
  rw [he]
  have hDT : (DT : ℝ) = 5 / 100 := rfl
  simp only [vec3.lengthSq] at hds
  simp only [vec3.dot, vec3.add_x, vec3.add_y, vec3.add_z, vec3.smul_x, vec3.smul_y,
    vec3.smul_z, vec3.sub_x, vec3.sub_y, vec3.sub_z, hDT] at h2 h3 h4 ⊢
  nlinarith

end Advance

/-- A concrete disk hit: the step from `(10, 0, 0.02)` with direction `(0, 0, -1)` crosses the
disk plane inside the annulus. -/
theorem integrateRK4_hits_disk (M : Libm ℝ) (hM : M.IsReal) :
    (⟨0, 0, -1⟩ : vec3 ℝ).length M = 1 ∧
      (intersectDisk (⟨10, 0, 1 / 50⟩ : vec3 ℝ)
        (integrateRK4 M ⟨10, 0, 1 / 50⟩ ⟨0, 0, -1⟩ DT).1 ⟨0, 0, 0⟩).1 = true := by
  have hdir : (⟨0, 0, -1⟩ : vec3 ℝ).length M = 1 := by
    rw [vec3.length_eq_one_iff M hM]
    norm_num [vec3.lengthSq]
  refine ⟨hdir, ?_⟩
  have hadv := integrateRK4_advance M hM ⟨10, 0, 1 / 50⟩ ⟨0, 0, -1⟩ hdir
  have hdisp := integrateRK4_displacement_le M hM ⟨10, 0, 1 / 50⟩ ⟨0, 0, -1⟩ DT
    (by norm_num [DT]) (le_of_eq hdir)
  have hx := le_trans (vec3.abs_x_le_length M hM _) hdisp
  have hy := le_trans (vec3.abs_y_le_length M hM _) hdisp
  generalize (integrateRK4 M ⟨10, 0, 1 / 50⟩ ⟨0, 0, -1⟩ DT).1 = q at hadv hx hy ⊢
  have hDT : (DT : ℝ) = 5 / 100 := rfl
  simp only [vec3.dot, vec3.sub_x, vec3.sub_y, vec3.sub_z, hDT] at hadv hx hy
  rw [abs_le] at hx hy
  have hz : (⟨10, 0, 1 / 50⟩ : vec3 ℝ).z * q.z < 0 := by
    simp only []
    nlinarith
  have hd : 1 / 1000000 ≤ |q.z - (⟨10, 0, 1 / 50⟩ : vec3 ℝ).z| := by
    simp only []
    rw [abs_of_neg (by linarith)]
    linarith
  obtain ⟨_, h0, h1⟩ := crossing_param_bounds _ _ hz
  rw [intersectDisk_of_crossing _ _ _ hz hd]
  simp only [decide_eq_true_eq, vec3.add_x, vec3.add_y, vec3.smul_x, vec3.smul_y, vec3.sub_x,
    vec3.sub_y]
  generalize -(⟨10, 0, 1 / 50⟩ : vec3 ℝ).z / (q.z - (⟨10, 0, 1 / 50⟩ : vec3 ℝ).z) = t at h0 h1
  have hI : (DISK_INNER_R_SQ : ℝ) = 36 := by norm_num [DISK_INNER_R_SQ, DISK_INNER_R, RS, M_BH]
  have hO : (DISK_OUTER_R_SQ : ℝ) = 900 := by norm_num [DISK_OUTER_R_SQ, DISK_OUTER_R, RS, M_BH]
  rw [hI, hO]
  have hxt : -(1 / 20) ≤ (q.x - 10) * t ∧ (q.x - 10) * t ≤ 1 / 20 := by
    constructor <;> nlinarith [hx.1, hx.2]
  have hyt : -(1 / 20) ≤ (q.y - 0) * t ∧ (q.y - 0) * t ≤ 1 / 20 := by
    constructor <;> nlinarith [hy.1, hy.2]
  generalize (q.x - 10) * t = u at hxt
  generalize (q.y - 0) * t = v at hyt
  constructor <;> nlinarith [hxt.1, hxt.2, hyt.1, hyt.2, mul_self_nonneg v]

/-- C17 at `pos = (10, 0, 0.02)`, `dir = (0, 0, -1)` with the real functions: the step hits the
disk, and the new position is neither absorbed nor escaped. -/
theorem disk_hit_excludes_absorb_escape_witness :
    Libm.IsReal ⟨Real.sqrt, fun x y => x ^ y, Real.exp, Real.sin, Real.cos, Real.tan⟩ ∧
    (⟨0, 0, -1⟩ : vec3 ℝ).length
      ⟨Real.sqrt, fun x y => x ^ y, Real.exp, Real.sin, Real.cos, Real.tan⟩ = 1 ∧
    (intersectDisk (⟨10, 0, 1 / 50⟩ : vec3 ℝ)
      (integrateRK4 ⟨Real.sqrt, fun x y => x ^ y, Real.exp, Real.sin, Real.cos, Real.tan⟩
        ⟨10, 0, 1 / 50⟩ ⟨0, 0, -1⟩ DT).1 ⟨0, 0, 0⟩).1 = true ∧
    HIT_DIST_SQ ≤
      (integrateRK4 ⟨Real.sqrt, fun x y => x ^ y, Real.exp, Real.sin, Real.cos, Real.tan⟩
        (⟨10, 0, 1 / 50⟩ : vec3 ℝ) ⟨0, 0, -1⟩ DT).1.lengthSq :=
  ⟨isReal_real, (integrateRK4_hits_disk _ isReal_real).1, (integrateRK4_hits_disk _ isReal_real).2,
    (disk_hit_excludes_absorb_escape _ isReal_real _ _ (integrateRK4_hits_disk _ isReal_real).1
      (integrateRK4_hits_disk _ isReal_real).2).1⟩

/-- The eleventh power of `x ^ (1 / 2.2)` is the fifth power of `x`. -/
theorem rpow_gamma_pow (x : ℝ) (hx : 0 ≤ x) : (x ^ (1 / (22 / 10) : ℝ)) ^ 11 = x ^ 5 := by
  rw [← Real.rpow_natCast, ← Real.rpow_mul hx]
  have : (1 / (22 / 10) : ℝ) * ((11 : ℕ) : ℝ) = ((5 : ℕ) : ℝ) := by norm_num
  rw [this, Real.rpow_natCast]

theorem le_rpow_gamma (x y : ℝ) (hx : 0 ≤ x) (h : y ^ 11 ≤ x ^ 5) :
    y ≤ x ^ (1 / (22 / 10) : ℝ) := by
  rw [← rpow_gamma_pow x hx] at h
  exact le_of_pow_le_pow_left₀ (by norm_num) (Real.rpow_nonneg hx _) h

theorem rpow_gamma_lt (x y : ℝ) (hx : 0 ≤ x) (hy : 0 ≤ y) (h : x ^ 5 < y ^ 11) :
    x ^ (1 / (22 / 10) : ℝ) < y := by
  rw [← rpow_gamma_pow x hx] at h
  exact lt_of_pow_lt_pow_left₀ 11 hy h

/-- C15 as stated fails: at the radiance `c = 4667601 / 16777216` (about `0.2782107`) the
truncation of `((c / (c + 1)) ^ (1 / 2.2)) * 255.99` is `128`, but the tone-mapping pass, which
compresses with `c / (c + 1 + 1e-6)`, produces `127`. -/
theorem toneMapChannel_compression_counterexample :
    ⌊((4667601 / 16777216 : ℝ) / (4667601 / 16777216 + 1)) ^ (1 / (22 / 10) : ℝ) *
        (25599 / 100)⌋₊ = 128 ∧
    toneMapChannel ⟨Real.sqrt, fun x y => x ^ y, Real.exp, Real.sin, Real.cos, Real.tan⟩
      (4667601 / 16777216 : ℝ) = 127 := by
  constructor
  · rw [Nat.floor_eq_iff (by positivity)]
    constructor
    · have h := le_rpow_gamma ((4667601 / 16777216 : ℝ) / (4667601 / 16777216 + 1))
        (128 / (25599 / 100)) (by norm_num) (by norm_num)
      rw [div_le_iff₀ (by norm_num)] at h
      exact_mod_cast h
    · have h := rpow_gamma_lt ((4667601 / 16777216 : ℝ) / (4667601 / 16777216 + 1))
        (129 / (25599 / 100)) (by norm_num) (by norm_num) (by norm_num)
      rw [lt_div_iff₀ (by norm_num)] at h
      exact_mod_cast h
  · have hfl : ⌊((4667601 / 16777216 : ℝ) / (4667601 / 16777216 + 1 + 1 / 1000000)) ^
        (1 / (22 / 10) : ℝ) * (25599 / 100)⌋₊ = 127 := by
      rw [Nat.floor_eq_iff (by positivity)]
      constructor
      · have h := le_rpow_gamma
          ((4667601 / 16777216 : ℝ) / (4667601 / 16777216 + 1 + 1 / 1000000))
          (127 / (25599 / 100)) (by norm_num) (by norm_num)
        rw [div_le_iff₀ (by norm_num)] at h
        exact_mod_cast h
      · have h := rpow_gamma_lt
          ((4667601 / 16777216 : ℝ) / (4667601 / 16777216 + 1 + 1 / 1000000))
          (128 / (25599 / 100)) (by norm_num) (by norm_num) (by norm_num)
        rw [lt_div_iff₀ (by norm_num)] at h
        exact_mod_cast h
    unfold toneMapChannel
    simp only []
    rw [min_eq_right (by norm_num), max_eq_right (by norm_num)]
    exact toUChar_of_floor _ 127 (by norm_num)
      (by rw [← hfl]; exact Nat.floor_le (by positivity))
      (by
        have := Nat.lt_floor_add_one (((4667601 / 16777216 : ℝ) /
          (4667601 / 16777216 + 1 + 1 / 1000000)) ^ (1 / (22 / 10) : ℝ) * (25599 / 100))
        rw [hfl] at this
        exact_mod_cast this)

namespace binary32

theorem bitlenAux_zero (fuel : Nat) : bitlenAux fuel 0 = 0 := by
  cases fuel <;> simp [bitlenAux]

theorem bitlenAux_spec : ∀ (fuel n : Nat), n ≤ fuel → 0 < n →
    0 < bitlenAux fuel n ∧ 2 ^ (bitlenAux fuel n - 1) ≤ n ∧ n < 2 ^ bitlenAux fuel n := by
  intro fuel
  induction fuel with
  | zero => intro n h1 h2; omega
  | succ fuel ih =>
    intro n h1 h2
    have hn : n ≠ 0 := by omega
    simp only [bitlenAux, hn, if_false]
    by_cases h : n / 2 = 0
    · rw [h, bitlenAux_zero]
      have : n = 1 := by omega
      subst this
      simp
    · obtain ⟨hb, hlo, hhi⟩ := ih (n / 2) (by omega) (by omega)
      refine ⟨by omega, ?_, ?_⟩
      · have e : bitlenAux fuel (n / 2) + 1 - 1 = (bitlenAux fuel (n / 2) - 1) + 1 := by omega
        rw [e, pow_succ]
        omega
      · rw [pow_succ]
        omega

theorem bitlen_spec (n : Nat) (hn : 0 < n) :
    0 < bitlen n ∧ 2 ^ (bitlen n - 1) ≤ n ∧ n < 2 ^ bitlen n :=
  bitlenAux_spec n n (le_refl n) hn

/-- Rounding to nearest even of `M / 2^sh` on natural numbers: the result is within half a unit. -/
theorem rne_nat (M sh : Nat) (hsh : 0 < sh) (m : Nat)
    (hm : m = if M % 2 ^ sh > 2 ^ (sh - 1) ∨ (M % 2 ^ sh = 2 ^ (sh - 1) ∧ M / 2 ^ sh % 2 = 1)
      then M / 2 ^ sh + 1 else M / 2 ^ sh) :
    m * 2 ^ sh ≤ M + 2 ^ (sh - 1) ∧ M ≤ m * 2 ^ sh + 2 ^ (sh - 1) ∧ M / 2 ^ sh ≤ m ∧
      m ≤ M / 2 ^ sh + 1 ∧ (M % 2 ^ sh = 0 → m = M / 2 ^ sh) := by
  have hP : 2 ^ sh = 2 * 2 ^ (sh - 1) := by
    have : sh = (sh - 1) + 1 := by omega
    conv_lhs => rw [this, pow_succ]
    ring
  have hdm := Nat.div_add_mod M (2 ^ sh)
  have hr : M % 2 ^ sh < 2 ^ sh := Nat.mod_lt _ (by positivity)
  have hhalf : 0 < 2 ^ (sh - 1) := by positivity
  have hmul : (M / 2 ^ sh + 1) * 2 ^ sh = 2 ^ sh * (M / 2 ^ sh) + 2 ^ sh := by ring
  have hmul2 : (M / 2 ^ sh) * 2 ^ sh = 2 ^ sh * (M / 2 ^ sh) := by ring
  obtain ⟨q, hq⟩ : ∃ q, q = M / 2 ^ sh := ⟨_, rfl⟩
  obtain ⟨r, hr0⟩ : ∃ r, r = M % 2 ^ sh := ⟨_, rfl⟩
  rw [← hq, ← hr0] at hm hdm
  rw [← hq] at hmul hmul2
  rw [← hr0] at hr
  rw [← hq, ← hr0]
  obtain ⟨X, hX⟩ : ∃ X, X = 2 ^ sh * q := ⟨_, rfl⟩
  rw [← hX] at hdm hmul hmul2
  obtain ⟨H, hH⟩ : ∃ H, H = 2 ^ (sh - 1) := ⟨_, rfl⟩
  rw [← hH] at hm hP hhalf ⊢
  obtain ⟨P, hPP⟩ : ∃ P, P = 2 ^ sh := ⟨_, rfl⟩
  rw [← hPP] at hP hr hmul hmul2 ⊢
  split_ifs at hm with h
  · subst hm
    rw [hmul]
    refine ⟨by omega, by omega, by omega, by omega, ?_⟩
    intro h0
    omega
  · subst hm
    rw [hmul2]
    push_neg at h
    refine ⟨by omega, by omega, by omega, by omega, fun _ => rfl⟩

theorem isqrtAux_spec : ∀ (k n r : Nat), r * r ≤ n → n < (r + 2 ^ k) * (r + 2 ^ k) →
    isqrtAux k n r * isqrtAux k n r ≤ n ∧ n < (isqrtAux k n r + 1) * (isqrtAux k n r + 1) := by
  intro k
  induction k with
  | zero =>
    intro n r h1 h2
    simpa [isqrtAux] using ⟨h1, h2⟩
  | succ k ih =>
    intro n r h1 h2
    simp only [isqrtAux]
    split_ifs with h
    · apply ih _ _ h
      have : r + 2 ^ k + 2 ^ k = r + 2 ^ (k + 1) := by rw [pow_succ]; ring
      rw [this]
      exact h2
    · exact ih _ _ h1 (not_le.mp h)

theorem isqrt_spec (n : Nat) : isqrt n * isqrt n ≤ n ∧ n < (isqrt n + 1) * (isqrt n + 1) := by
  unfold isqrt
  apply isqrtAux_spec
  · simp
  · rcases Nat.eq_zero_or_pos n with h | h
    · subst h
      simp
    · obtain ⟨hb, _, hhi⟩ := bitlen_spec n h
      simp only [zero_add]
      have h2 : bitlen n ≤ 2 * (bitlen n / 2 + 1) := by omega
      calc n < 2 ^ bitlen n := hhi
        _ ≤ 2 ^ (2 * (bitlen n / 2 + 1)) := Nat.pow_le_pow_right (by norm_num) h2
        _ = 2 ^ (bitlen n / 2 + 1) * 2 ^ (bitlen n / 2 + 1) := by rw [two_mul, pow_add]

theorem two_zpow_pos (a : ℤ) : (0 : ℚ) < 2 ^ a := zpow_pos (by norm_num) a

theorem two_zpow_add (a b : ℤ) : (2 : ℚ) ^ (a + b) = 2 ^ a * 2 ^ b :=
  zpow_add₀ (by norm_num) a b

theorem two_zpow_le (a b : ℤ) (h : a ≤ b) : (2 : ℚ) ^ a ≤ 2 ^ b :=
  zpow_le_zpow_right₀ (by norm_num) h

theorem two_pow_cast (n : ℕ) : ((2 ^ n : ℕ) : ℚ) = (2 : ℚ) ^ (n : ℤ) := by
  push_cast
  rw [zpow_natCast]

/-- Placement of a value on a grid of step `g`: a point `m * g` next to `v`, chosen as the lower
neighbour when `v` is on the grid, is not separated from `v` by any grid point, nor by any point
below the lower neighbour. -/
theorem grid_no_crossing (g v : ℚ) (hg : 0 < g) (q m : ℕ) (h1 : (q : ℚ) * g ≤ v)
    (h2 : v < ((q : ℚ) + 1) * g) (hm1 : q ≤ m) (hm2 : m ≤ q + 1) (hm3 : v = (q : ℚ) * g → m = q)
    (f : ℚ) (hf : (∃ K : ℕ, f = (K : ℚ) * g) ∨ f < (q : ℚ) * g) :
    (f ≤ v → f ≤ (m : ℚ) * g) ∧ (v ≤ f → (m : ℚ) * g ≤ f) := by
  have hqm : (q : ℚ) ≤ m := by exact_mod_cast hm1
  have hmq : (m : ℚ) ≤ q + 1 := by exact_mod_cast hm2
  rcases hf with ⟨K, rfl⟩ | hlt
  · constructor
    · intro hfv
      have hK : (K : ℚ) * g < ((q : ℚ) + 1) * g := lt_of_le_of_lt hfv h2
      have hK2 : (K : ℚ) < q + 1 := lt_of_mul_lt_mul_right hK hg.le
      have hK3 : K < q + 1 := by exact_mod_cast hK2
      have hK4 : (K : ℚ) ≤ m := by
        have : K ≤ m := by omega
        exact_mod_cast this
      exact mul_le_mul_of_nonneg_right hK4 hg.le
    · intro hvf
      have hK : (q : ℚ) * g ≤ (K : ℚ) * g := le_trans h1 hvf
      have hK2 : (q : ℚ) ≤ K := le_of_mul_le_mul_right hK hg
      have hK3 : q ≤ K := by exact_mod_cast hK2
      by_cases hmq2 : m = q
      · rw [hmq2]
        exact hK
      · have hne : v ≠ (q : ℚ) * g := fun h => hmq2 (hm3 h)
        have hlt : (q : ℚ) * g < (K : ℚ) * g := lt_of_lt_of_le (lt_of_le_of_ne h1 (Ne.symm hne)) hvf
        have hK5 : (q : ℚ) < K := lt_of_mul_lt_mul_right hlt hg.le
        have hK6 : q < K := by exact_mod_cast hK5
        have hK7 : (m : ℚ) ≤ K := by
          have : m ≤ K := by omega
          exact_mod_cast this
        exact mul_le_mul_of_nonneg_right hK7 hg.le
  · constructor
    · intro _
      exact le_trans hlt.le (mul_le_mul_of_nonneg_right hqm hg.le)
    · intro hvf
      exact absurd (lt_of_lt_of_le hlt h1) (not_lt.mpr hvf)

/-- A canonical finite value is a multiple of the step `2^er`, or lies below `q * 2^er`, when
the step is the least one or `q` has at least 24 binary digits. -/
theorem canon_on_grid (mf : ℕ) (ef er : ℤ) (q : ℕ) (hc : Canon mf ef)
    (hq : er = -149 ∨ 2 ^ 23 ≤ q) :
    (∃ K : ℕ, (mf : ℚ) * 2 ^ ef = (K : ℚ) * 2 ^ er) ∨ (mf : ℚ) * 2 ^ ef < (q : ℚ) * 2 ^ er := by
  obtain ⟨hm, he1, _, _⟩ := hc
  by_cases h : er ≤ ef
  · left
    refine ⟨mf * 2 ^ (ef - er).toNat, ?_⟩
    have : ef = (((ef - er).toNat : ℕ) : ℤ) + er := by
      rw [Int.toNat_of_nonneg (by omega)]
      ring
    conv_lhs => rw [this, two_zpow_add]
    push_cast
    rw [zpow_natCast]
    ring
  · right
    push_neg at h
    have hq2 : 2 ^ 23 ≤ q := by
      rcases hq with h1 | h1
      · omega
      · exact h1
    have h1 : (mf : ℚ) < 2 ^ 24 := by exact_mod_cast hm
    have h2 : (2 : ℚ) ^ 23 ≤ q := by exact_mod_cast hq2
    have h3 : (2 : ℚ) ^ ef ≤ 2 ^ (er - 1) := two_zpow_le _ _ (by omega)
    have h4 : (2 : ℚ) ^ er = 2 ^ (er - 1) * 2 := by
      have : er = (er - 1) + 1 := by ring
      conv_lhs => rw [this, two_zpow_add]
      norm_num
    have hp := two_zpow_pos ef
    have hp2 := two_zpow_pos (er - 1)
    rw [h4]
    calc (mf : ℚ) * 2 ^ ef < 2 ^ 24 * 2 ^ ef := by nlinarith
      _ ≤ 2 ^ 24 * 2 ^ (er - 1) := by nlinarith
      _ = 2 ^ 23 * (2 ^ (er - 1) * 2) := by ring
      _ ≤ (q : ℚ) * (2 ^ (er - 1) * 2) := by nlinarith

end binary32

namespace binary32

theorem overflowCheck_fin (neg : Bool) (m : ℕ) (e : ℤ) (h : e ≤ 104) :
    overflowCheck neg m e = fin neg m e := by
  unfold overflowCheck
  rw [if_neg (by omega)]

theorem overflowCheck_inf (neg : Bool) (m : ℕ) (e : ℤ) (h : 104 < e) :
    overflowCheck neg m e = inf neg := by
  unfold overflowCheck
  rw [if_pos (by omega)]

/-- Rounding to nearest even of an odd `M` (a sticky last digit) by at least two digits: the
bounds of `rne_nat` hold with one unit to spare. -/
theorem rne_nat_odd (M sh : Nat) (hsh : 2 ≤ sh) (hodd : M % 2 = 1) (m : Nat)
    (hm : m = if M % 2 ^ sh > 2 ^ (sh - 1) ∨ (M % 2 ^ sh = 2 ^ (sh - 1) ∧ M / 2 ^ sh % 2 = 1)
      then M / 2 ^ sh + 1 else M / 2 ^ sh) :
    M / 2 ^ sh * 2 ^ sh + 1 ≤ M ∧ M + 1 ≤ (M / 2 ^ sh + 1) * 2 ^ sh ∧
      m * 2 ^ sh + 1 ≤ M + 2 ^ (sh - 1) ∧ M + 1 ≤ m * 2 ^ sh + 2 ^ (sh - 1) := by
  obtain ⟨T, hT⟩ : ∃ T, T = 2 ^ (sh - 2) := ⟨_, rfl⟩
  have hT0 : 0 < T := by rw [hT]; positivity
  have hH : 2 ^ (sh - 1) = 2 * T := by
    have : sh - 1 = (sh - 2) + 1 := by omega
    rw [this, pow_succ, hT]
    ring
  have hP : 2 ^ sh = 4 * T := by
    have : sh = (sh - 2) + 2 := by omega
    conv_lhs => rw [this, pow_add]
    rw [hT]
    ring
  rw [hP, hH] at hm
  rw [hP, hH]
  have hdm := Nat.div_add_mod M (4 * T)
  have hr : M % (4 * T) < 4 * T := Nat.mod_lt _ (by omega)
  obtain ⟨q, hq⟩ : ∃ q, q = M / (4 * T) := ⟨_, rfl⟩
  obtain ⟨r, hr0⟩ : ∃ r, r = M % (4 * T) := ⟨_, rfl⟩
  rw [← hq, ← hr0] at hm hdm
  rw [← hr0] at hr
  rw [← hq]
  obtain ⟨Y, hY⟩ : ∃ Y, Y = T * q := ⟨_, rfl⟩
  have e1 : 4 * T * q = 4 * Y := by rw [hY]; ring
  have e2 : q * (4 * T) = 4 * Y := by rw [hY]; ring
  have e3 : (q + 1) * (4 * T) = 4 * Y + 4 * T := by rw [hY]; ring
  rw [e1] at hdm
  rw [e2, e3]
  split_ifs at hm with h
  · subst hm
    rw [e3]
    omega
  · subst hm
    rw [e2]
    push_neg at h
    omega

/-- Specification of `roundNE` on magnitudes. The exact value `V` is the value `M * 2^E` of the
argument, or, when `M` is odd (the last digit being a sticky digit) and has at least 26 digits,
any value strictly between `(M - 1) * 2^E` and `(M + 1) * 2^E`. Either the result overflows, for
a value of at least `2^128 - 2^103`, or it is a canonical finite value within half a unit in the last
place of `V`, and no canonical value lies strictly between `V` and the result. -/
theorem roundNE_spec (neg : Bool) (M : ℕ) (E : ℤ) (V : ℚ) (hM : 0 < M)
    (hV : V = (M : ℚ) * 2 ^ E ∨ (M % 2 = 1 ∧ 26 ≤ bitlen M ∧ ((M : ℚ) - 1) * 2 ^ E < V ∧
      V < ((M : ℚ) + 1) * 2 ^ E)) :
    (roundNE neg M E = inf neg ∧ (2 : ℚ) ^ 128 - 2 ^ 103 ≤ V) ∨
    ∃ (m : ℕ) (e : ℤ), roundNE neg M E = fin neg m e ∧ Canon m e ∧
      (|(m : ℚ) * 2 ^ e - V| ≤ 2 ^ (-24 : ℤ) * V ∨ |(m : ℚ) * 2 ^ e - V| ≤ 2 ^ (-150 : ℤ)) ∧
      (-149 ≤ E → V = (M : ℚ) * 2 ^ E → |(m : ℚ) * 2 ^ e - V| ≤ 2 ^ (-24 : ℤ) * V) ∧
      (∀ (mf : ℕ) (ef : ℤ), Canon mf ef →
        ((mf : ℚ) * 2 ^ ef ≤ V → (mf : ℚ) * 2 ^ ef ≤ (m : ℚ) * 2 ^ e) ∧
        (V ≤ (mf : ℚ) * 2 ^ ef → (m : ℚ) * 2 ^ e ≤ (mf : ℚ) * 2 ^ ef)) := by
  obtain ⟨hb0, hblo, hbhi⟩ := bitlen_spec M hM
  have hMq : (0 : ℚ) < M := by exact_mod_cast hM
  have hE0 : (0 : ℚ) < 2 ^ E := two_zpow_pos E
  obtain ⟨er, her⟩ : ∃ er : ℤ, er = max (E + (bitlen M : ℤ) - 24) (-149) := ⟨_, rfl⟩
  have her1 : -149 ≤ er := by rw [her]; exact le_max_right _ _
  have her2 : E + (bitlen M : ℤ) - 24 ≤ er := by rw [her]; exact le_max_left _ _
  have her3 : er = E + (bitlen M : ℤ) - 24 ∨ er = -149 := by
    rw [her]
    rcases max_cases (E + (bitlen M : ℤ) - 24) (-149) with h | h
    · exact Or.inl h.1
    · exact Or.inr h.1
  unfold roundNE
  rw [if_neg hM.ne']
  simp only [← her]
  by_cases hcase : er ≤ E
  · -- the value is representable
    have hVeq : V = (M : ℚ) * 2 ^ E := by
      rcases hV with h | ⟨_, h26, _, _⟩
      · exact h
      · exfalso
        omega
    rw [if_pos hcase]
    obtain ⟨d, hd⟩ : ∃ d : ℕ, (d : ℤ) = E - er := ⟨(E - er).toNat, Int.toNat_of_nonneg (by omega)⟩
    have hdn : (E - er).toNat = d := by omega
    rw [hdn]
    have hval : ((M * 2 ^ d : ℕ) : ℚ) * 2 ^ er = V := by
      have : E = (d : ℤ) + er := by omega
      rw [hVeq, this, two_zpow_add]
      push_cast
      rw [zpow_natCast]
      ring
    have hVpos : 0 < V := by rw [hVeq]; exact mul_pos hMq hE0
    have hdb : d + bitlen M ≤ 24 := by omega
    have hlt : M * 2 ^ d < 2 ^ 24 := by
      calc M * 2 ^ d < 2 ^ bitlen M * 2 ^ d := Nat.mul_lt_mul_of_pos_right hbhi (by positivity)
        _ = 2 ^ (bitlen M + d) := by rw [pow_add]
        _ ≤ 2 ^ 24 := Nat.pow_le_pow_right (by norm_num) (by omega)
    have hnorm : er = E + (bitlen M : ℤ) - 24 → 2 ^ 23 ≤ M * 2 ^ d := by
      intro h
      have hd2 : d = 24 - bitlen M := by omega
      calc 2 ^ 23 = 2 ^ (bitlen M - 1 + d) := by congr 1; omega
        _ = 2 ^ (bitlen M - 1) * 2 ^ d := by rw [pow_add]
        _ ≤ M * 2 ^ d := Nat.mul_le_mul_right _ hblo
    by_cases hov : er ≤ 104
    · right
      refine ⟨M * 2 ^ d, er, overflowCheck_fin _ _ _ hov, ⟨hlt, her1, hov, ?_⟩, ?_, ?_, ?_⟩
      · rcases her3 with h | h
        · exact Or.inl (hnorm h)
        · exact Or.inr h
      · left
        rw [hval, sub_self, abs_zero]
        positivity
      · intro _ _
        rw [hval, sub_self, abs_zero]
        positivity
      · intro mf ef _
        rw [hval]
        exact ⟨fun h => h, fun h => h⟩
    · left
      push_neg at hov
      refine ⟨overflowCheck_inf _ _ _ hov, ?_⟩
      have hn : 2 ^ 23 ≤ M * 2 ^ d := hnorm (by omega)
      have hn2 : (2 : ℚ) ^ 23 ≤ ((M * 2 ^ d : ℕ) : ℚ) := by exact_mod_cast hn
      rw [← hval]
      have h1 : (2 : ℚ) ^ (105 : ℤ) ≤ 2 ^ er := two_zpow_le _ _ (by omega)
      have h2 : (2 : ℚ) ^ 128 - 2 ^ 103 ≤ 2 ^ 23 * 2 ^ (105 : ℤ) := by norm_num
      exact le_trans h2 (mul_le_mul hn2 h1 (by positivity) (by positivity))
  · -- the value is rounded
    rw [if_neg hcase]
    push_neg at hcase
    obtain ⟨sh, hsh⟩ : ∃ sh : ℕ, (sh : ℤ) = er - E := ⟨(er - E).toNat, Int.toNat_of_nonneg (by omega)⟩
    have hshn : (er - E).toNat = sh := by omega
    have hsh0 : 0 < sh := by omega
    rw [hshn]
    obtain ⟨m, hm⟩ : ∃ m : ℕ, m = if M % 2 ^ sh > 2 ^ (sh - 1) ∨
        (M % 2 ^ sh = 2 ^ (sh - 1) ∧ M / 2 ^ sh % 2 = 1) then M / 2 ^ sh + 1 else M / 2 ^ sh :=
      ⟨_, rfl⟩
    rw [← hm]
    obtain ⟨hr1, hr2, hr3, hr4, hr5⟩ := rne_nat M sh hsh0 m hm
    obtain ⟨q, hq⟩ : ∃ q, q = M / 2 ^ sh := ⟨_, rfl⟩
    rw [← hq] at hr3 hr4 hr5
    have hqlo : q * 2 ^ sh ≤ M := by rw [hq]; exact Nat.div_mul_le_self M (2 ^ sh)
    have hqhi : M < (q + 1) * 2 ^ sh := by
      rw [hq]
      have := Nat.lt_succ_iff.mpr (le_refl (M / 2 ^ sh))
      exact (Nat.div_lt_iff_lt_mul (by positivity)).mp this
    have hqexact : M = q * 2 ^ sh → m = q := by
      intro h
      apply hr5
      rw [h]
      exact Nat.mul_mod_left _ _
    -- value of the grid step
    have hgE : (2 : ℚ) ^ er = 2 ^ (sh : ℤ) * 2 ^ E := by
      have : er = (sh : ℤ) + E := by omega
      rw [this, two_zpow_add]
    have hg : (0 : ℚ) < 2 ^ er := two_zpow_pos er
    have hshq : ((2 ^ sh : ℕ) : ℚ) = (2 : ℚ) ^ (sh : ℤ) := two_pow_cast sh
    have hhalf : ((2 ^ (sh - 1) : ℕ) : ℚ) = (2 : ℚ) ^ ((sh : ℤ) - 1) := by
      rw [two_pow_cast]
      congr 1
      omega
    -- the four facts about the exact value
    have hfacts : (q : ℚ) * 2 ^ er ≤ V ∧ V < ((q : ℚ) + 1) * 2 ^ er ∧
        (V = (q : ℚ) * 2 ^ er → m = q) ∧
        |(m : ℚ) * 2 ^ er - V| ≤ 2 ^ ((sh : ℤ) - 1) * 2 ^ E := by
      rcases hV with hVeq | ⟨hodd, h26, hVlo, hVhi⟩
      · rw [hVeq]
        refine ⟨?_, ?_, ?_, ?_⟩
        · have : ((q * 2 ^ sh : ℕ) : ℚ) ≤ (M : ℚ) := by exact_mod_cast hqlo
          rw [Nat.cast_mul, hshq] at this
          rw [hgE, ← mul_assoc]
          exact mul_le_mul_of_nonneg_right this hE0.le
        · have : (M : ℚ) < (((q + 1) * 2 ^ sh : ℕ) : ℚ) := by exact_mod_cast hqhi
          rw [Nat.cast_mul, hshq] at this
          push_cast at this
          rw [hgE, ← mul_assoc]
          exact mul_lt_mul_of_pos_right this hE0
        · intro h
          apply hqexact
          rw [hgE, ← mul_assoc] at h
          have h2 := mul_right_cancel₀ hE0.ne' h
          rw [← hshq] at h2
          exact_mod_cast h2
        · have h1 : ((m * 2 ^ sh : ℕ) : ℚ) ≤ ((M + 2 ^ (sh - 1) : ℕ) : ℚ) := by exact_mod_cast hr1
          have h2 : ((M : ℕ) : ℚ) ≤ ((m * 2 ^ sh + 2 ^ (sh - 1) : ℕ) : ℚ) := by exact_mod_cast hr2
          rw [Nat.cast_add, Nat.cast_mul, hshq, hhalf] at h1 h2
          rw [hgE, ← mul_assoc, ← sub_mul, abs_mul, abs_of_pos hE0]
          apply mul_le_mul_of_nonneg_right _ hE0.le
          rw [abs_le]
          constructor <;> linarith
      · have hsh2 : 2 ≤ sh := by omega
        obtain ⟨ho1, ho2, ho3, ho4⟩ := rne_nat_odd M sh hsh2 hodd m hm
        rw [← hq] at ho1 ho2
        have c1 : ((q * 2 ^ sh + 1 : ℕ) : ℚ) ≤ (M : ℚ) := by exact_mod_cast ho1
        have c2 : ((M + 1 : ℕ) : ℚ) ≤ (((q + 1) * 2 ^ sh : ℕ) : ℚ) := by exact_mod_cast ho2
        have c3 : ((m * 2 ^ sh + 1 : ℕ) : ℚ) ≤ ((M + 2 ^ (sh - 1) : ℕ) : ℚ) := by
          exact_mod_cast ho3
        have c4 : ((M + 1 : ℕ) : ℚ) ≤ ((m * 2 ^ sh + 2 ^ (sh - 1) : ℕ) : ℚ) := by
          exact_mod_cast ho4
        push_cast at c1 c2 c3 c4
        have hp1 : (2 : ℚ) ^ sh = 2 ^ (sh : ℤ) := (zpow_natCast 2 sh).symm
        have hp2 : (2 : ℚ) ^ (sh - 1) = 2 ^ ((sh : ℤ) - 1) := by
          rw [← zpow_natCast]
          congr 1
          omega
        rw [hp1] at c1 c2 c3 c4
        rw [hp2] at c3 c4
        have d1 : (q : ℚ) * 2 ^ er ≤ ((M : ℚ) - 1) * 2 ^ E := by
          rw [hgE, ← mul_assoc]
          apply mul_le_mul_of_nonneg_right _ hE0.le
          linarith
        have d2 : ((M : ℚ) + 1) * 2 ^ E ≤ ((q : ℚ) + 1) * 2 ^ er := by
          rw [hgE, ← mul_assoc]
          apply mul_le_mul_of_nonneg_right _ hE0.le
          linarith
        have d3 : (m : ℚ) * 2 ^ er - 2 ^ ((sh : ℤ) - 1) * 2 ^ E ≤ ((M : ℚ) - 1) * 2 ^ E := by
          rw [hgE, ← mul_assoc, ← sub_mul]
          apply mul_le_mul_of_nonneg_right _ hE0.le
          linarith
        have d4 : ((M : ℚ) + 1) * 2 ^ E ≤ (m : ℚ) * 2 ^ er + 2 ^ ((sh : ℤ) - 1) * 2 ^ E := by
          rw [hgE, ← mul_assoc, ← add_mul]
          apply mul_le_mul_of_nonneg_right _ hE0.le
          linarith
        refine ⟨by linarith, by linarith, ?_, ?_⟩
        · intro h
          exfalso
          linarith
        · rw [abs_le]
          constructor <;> linarith
    obtain ⟨hv1, hv2, hv3, herr⟩ := hfacts
    have hnormal : er = E + (bitlen M : ℤ) - 24 →
        2 ^ 23 ≤ q ∧ q < 2 ^ 24 ∧
        (2 : ℚ) ^ ((sh : ℤ) - 1) * 2 ^ E ≤ 2 ^ (-24 : ℤ) * V := by
      intro h
      have hsb : sh + 24 = bitlen M := by omega
      have h23 : 2 ^ 23 * 2 ^ sh ≤ M := by
        calc 2 ^ 23 * 2 ^ sh = 2 ^ (bitlen M - 1) := by rw [← pow_add]; congr 1; omega
          _ ≤ M := hblo
      have h24 : M < 2 ^ 24 * 2 ^ sh := by
        calc M < 2 ^ bitlen M := hbhi
          _ = 2 ^ 24 * 2 ^ sh := by rw [← pow_add]; congr 1; omega
      have hq23 : 2 ^ 23 ≤ q := by
        rw [hq]
        exact (Nat.le_div_iff_mul_le (by positivity)).mpr h23
      refine ⟨hq23, ?_, ?_⟩
      · rw [hq]
        exact (Nat.div_lt_iff_lt_mul (by positivity)).mpr h24
      · have hq23q : (2 : ℚ) ^ 23 ≤ (q : ℚ) := by exact_mod_cast hq23
        have e1 : (2 : ℚ) ^ ((sh : ℤ) - 1) * 2 ^ E = 2 ^ (-24 : ℤ) * (2 ^ 23 * 2 ^ er) := by
          have : (sh : ℤ) - 1 = (-24 : ℤ) + (23 + (sh : ℤ)) := by ring
          rw [hgE, this, two_zpow_add, two_zpow_add]
          norm_num
          ring
        rw [e1]
        apply mul_le_mul_of_nonneg_left _ (two_zpow_pos _).le
        exact le_trans (mul_le_mul_of_nonneg_right hq23q hg.le) hv1
    have hsub : er = -149 → (2 : ℚ) ^ ((sh : ℤ) - 1) * 2 ^ E = 2 ^ (-150 : ℤ) := by
      intro h
      rw [← two_zpow_add]
      congr 1
      omega
    have hsubq : ¬ er = E + (bitlen M : ℤ) - 24 → q < 2 ^ 23 := by
      intro h
      have h149 : er = -149 := by omega
      have hsb : bitlen M ≤ sh + 23 := by omega
      rw [hq]
      apply (Nat.div_lt_iff_lt_mul (by positivity)).mpr
      calc M < 2 ^ bitlen M := hbhi
        _ ≤ 2 ^ (sh + 23) := Nat.pow_le_pow_right (by norm_num) hsb
        _ = 2 ^ 23 * 2 ^ sh := by rw [pow_add]; ring
    have hqgrid : er = -149 ∨ 2 ^ 23 ≤ q := by
      by_cases h : er = E + (bitlen M : ℤ) - 24
      · exact Or.inr (hnormal h).1
      · exact Or.inl (by omega)
    have herr2 : |(m : ℚ) * 2 ^ er - V| ≤ 2 ^ (-24 : ℤ) * V ∨
        |(m : ℚ) * 2 ^ er - V| ≤ 2 ^ (-150 : ℤ) := by
      by_cases h : er = E + (bitlen M : ℤ) - 24
      · exact Or.inl (le_trans herr (hnormal h).2.2)
      · right
        rw [← hsub (by omega)]
        exact herr
    have herr3 : -149 ≤ E → V = (M : ℚ) * 2 ^ E →
        |(m : ℚ) * 2 ^ er - V| ≤ 2 ^ (-24 : ℤ) * V := by
      intro h _
      exact le_trans herr (hnormal (by omega)).2.2
    have hcross : ∀ (mf : ℕ) (ef : ℤ), Canon mf ef →
        ((mf : ℚ) * 2 ^ ef ≤ V → (mf : ℚ) * 2 ^ ef ≤ (m : ℚ) * 2 ^ er) ∧
        (V ≤ (mf : ℚ) * 2 ^ ef → (m : ℚ) * 2 ^ er ≤ (mf : ℚ) * 2 ^ ef) := by
      intro mf ef hc
      exact grid_no_crossing _ _ hg q m hv1 hv2 hr3 hr4 hv3 _ (canon_on_grid mf ef er q hc hqgrid)
    have hm24 : m ≤ 2 ^ 24 := by
      by_cases h : er = E + (bitlen M : ℤ) - 24
      · have := (hnormal h).2.1
        omega
      · have := hsubq h
        omega
    have hmlo : er = -149 ∨ 2 ^ 23 ≤ m := by
      rcases hqgrid with h | h
      · exact Or.inl h
      · exact Or.inr (le_trans h hr3)
    have hovf : 105 ≤ er → (2 : ℚ) ^ 128 - 2 ^ 103 ≤ V := by
      intro hov
      have hnorm : er = E + (bitlen M : ℤ) - 24 := by omega
      have hq23 : (2 : ℚ) ^ 23 ≤ (q : ℚ) := by exact_mod_cast (hnormal hnorm).1
      have h1 : (2 : ℚ) ^ (105 : ℤ) ≤ 2 ^ er := two_zpow_le _ _ hov
      have h2 : (2 : ℚ) ^ 128 - 2 ^ 103 ≤ 2 ^ 23 * 2 ^ (105 : ℤ) := by norm_num
      calc (2 : ℚ) ^ 128 - 2 ^ 103 ≤ 2 ^ 23 * 2 ^ (105 : ℤ) := h2
        _ ≤ (q : ℚ) * 2 ^ er := mul_le_mul hq23 h1 (by positivity) (by positivity)
        _ ≤ V := hv1
    have hovc : m = 2 ^ 24 → 104 ≤ er → (2 : ℚ) ^ 128 - 2 ^ 103 ≤ V := by
      intro hm24' hov
      have h1 : (2 : ℚ) ^ (104 : ℤ) ≤ 2 ^ er := two_zpow_le _ _ hov
      have h3 : (2 : ℚ) ^ ((sh : ℤ) - 1) * 2 ^ E = 2 ^ er / 2 := by
        rw [hgE, zpow_sub_one₀ (by norm_num)]
        ring
      rw [h3, abs_le] at herr
      have h4 : (m : ℚ) = 2 ^ 24 := by exact_mod_cast hm24'
      rw [h4] at herr
      have h5 : (2 : ℚ) ^ 128 - 2 ^ 103 = (2 ^ 24 - 1 / 2) * 2 ^ (104 : ℤ) := by norm_num
      rw [h5]
      have h6 : ((2 : ℚ) ^ 24 - 1 / 2) * 2 ^ (104 : ℤ) ≤ (2 ^ 24 - 1 / 2) * 2 ^ er :=
        mul_le_mul_of_nonneg_left h1 (by norm_num)
      linarith [herr.1]
    by_cases hcarry : m = 2 ^ 24
    · rw [if_pos hcarry]
      have hval : ((2 ^ 23 : ℕ) : ℚ) * 2 ^ (er + 1) = (m : ℚ) * 2 ^ er := by
        rw [hcarry, two_zpow_add]
        norm_num
        ring
      by_cases hov : er + 1 ≤ 104
      · right
        refine ⟨2 ^ 23, er + 1, overflowCheck_fin _ _ _ hov, ⟨by norm_num, by omega, hov,
          Or.inl (le_refl _)⟩, ?_, ?_, ?_⟩
        · rw [hval]; exact herr2
        · rw [hval]; exact herr3
        · rw [hval]; exact hcross
      · left
        push_neg at hov
        exact ⟨overflowCheck_inf _ _ _ hov, hovc hcarry (by omega)⟩
    · rw [if_neg hcarry]
      by_cases hov : er ≤ 104
      · right
        refine ⟨m, er, overflowCheck_fin _ _ _ hov, ⟨by omega, her1, hov, ?_⟩, herr2, herr3,
          hcross⟩
        rcases hmlo with h | h
        · exact Or.inr h
        · exact Or.inl h
      · left
        push_neg at hov
        exact ⟨overflowCheck_inf _ _ _ hov, hovf (by omega)⟩

end binary32

namespace binary32

theorem toRat_fin (s : Bool) (m : ℕ) (e : ℤ) :
    toRat (fin s m e) = (if s then -1 else 1) * (m : ℚ) * 2 ^ e := rfl

theorem isFinite_cases (a : binary32) (h : a.IsFinite) :
    ∃ (s : Bool) (m : ℕ) (e : ℤ), a = fin s m e ∧ Canon m e := by
  cases a with
  | nan => exact absurd h (by simp [IsFinite])
  | inf s => exact absurd h (by simp [IsFinite])
  | fin s m e => exact ⟨s, m, e, rfl, h⟩

theorem canon_zero : Canon 0 (-149) := ⟨by norm_num, le_refl _, by norm_num, Or.inr rfl⟩

theorem isFinite_zero (s : Bool) : (fin s 0 (-149)).IsFinite := canon_zero

theorem toRat_zero (s : Bool) (e : ℤ) : toRat (fin s 0 e) = 0 := by
  simp [toRat]

theorem toRat_neg (a : binary32) : toRat (neg a) = - toRat a := by
  cases a with
  | nan => simp [neg, toRat]
  | inf s => simp [neg, toRat]
  | fin s m e => cases s <;> simp [neg, toRat]

theorem isFinite_neg (a : binary32) : (neg a).IsFinite ↔ a.IsFinite := by
  cases a <;> simp [neg, IsFinite]

theorem toRat_abs (a : binary32) : toRat (abs a) = |toRat a| := by
  cases a with
  | nan => simp [abs, toRat]
  | inf s => simp [abs, toRat]
  | fin s m e =>
    have h : (0 : ℚ) ≤ (m : ℚ) * 2 ^ e := mul_nonneg (Nat.cast_nonneg m) (two_zpow_pos e).le
    cases s
    · simp only [abs, toRat, if_false, Bool.false_eq_true]
      rw [one_mul, abs_of_nonneg h]
    · simp only [abs, toRat, if_true, if_false, Bool.false_eq_true]
      rw [one_mul, mul_assoc, neg_one_mul, abs_neg, abs_of_nonneg h]

theorem isFinite_abs (a : binary32) : (abs a).IsFinite ↔ a.IsFinite := by
  cases a <;> simp [abs, IsFinite]

theorem scaled_toRat (s : Bool) (m : ℕ) (e e0 : ℤ) (h : e0 ≤ e) :
    ((scaled s m e e0 : ℤ) : ℚ) * 2 ^ e0 = toRat (fin s m e) := by
  obtain ⟨d, hd⟩ : ∃ d : ℕ, (d : ℤ) = e - e0 := ⟨(e - e0).toNat, Int.toNat_of_nonneg (by omega)⟩
  have hdn : (e - e0).toNat = d := by omega
  have he : e = (d : ℤ) + e0 := by omega
  rw [toRat_fin]
  unfold scaled
  rw [hdn]
  conv_rhs => rw [he, two_zpow_add]
  cases s
  · simp only [if_false, Bool.false_eq_true]
    push_cast
    rw [zpow_natCast]
    ring
  · simp only [if_true]
    push_cast
    rw [zpow_natCast]
    ring

theorem lt_fin_iff (s1 : Bool) (m1 : ℕ) (e1 : ℤ) (s2 : Bool) (m2 : ℕ) (e2 : ℤ) :
    lt (fin s1 m1 e1) (fin s2 m2 e2) = true ↔ toRat (fin s1 m1 e1) < toRat (fin s2 m2 e2) := by
  rw [← scaled_toRat s1 m1 e1 (min e1 e2) (min_le_left _ _),
    ← scaled_toRat s2 m2 e2 (min e1 e2) (min_le_right _ _)]
  unfold lt
  rw [decide_eq_true_iff, mul_lt_mul_right (two_zpow_pos _), Int.cast_lt]

theorem le_fin_iff (s1 : Bool) (m1 : ℕ) (e1 : ℤ) (s2 : Bool) (m2 : ℕ) (e2 : ℤ) :
    le (fin s1 m1 e1) (fin s2 m2 e2) = true ↔ toRat (fin s1 m1 e1) ≤ toRat (fin s2 m2 e2) := by
  rw [← scaled_toRat s1 m1 e1 (min e1 e2) (min_le_left _ _),
    ← scaled_toRat s2 m2 e2 (min e1 e2) (min_le_right _ _)]
  unfold le
  rw [decide_eq_true_iff, mul_le_mul_right (two_zpow_pos _), Int.cast_le]

theorem eq_fin_iff (s1 : Bool) (m1 : ℕ) (e1 : ℤ) (s2 : Bool) (m2 : ℕ) (e2 : ℤ) :
    eq (fin s1 m1 e1) (fin s2 m2 e2) = true ↔ toRat (fin s1 m1 e1) = toRat (fin s2 m2 e2) := by
  rw [← scaled_toRat s1 m1 e1 (min e1 e2) (min_le_left _ _),
    ← scaled_toRat s2 m2 e2 (min e1 e2) (min_le_right _ _)]
  unfold eq
  rw [decide_eq_true_iff, mul_left_inj' (two_zpow_pos _).ne', Int.cast_inj]

/-- On finite values the comparison `<` is the order of the values. -/
theorem lt_iff (a b : binary32) (ha : a.IsFinite) (hb : b.IsFinite) :
    lt a b = true ↔ a.toRat < b.toRat := by
  obtain ⟨s1, m1, e1, rfl, _⟩ := isFinite_cases a ha
  obtain ⟨s2, m2, e2, rfl, _⟩ := isFinite_cases b hb
  exact lt_fin_iff _ _ _ _ _ _

/-- On finite values the comparison `<=` is the order of the values. -/
theorem le_iff (a b : binary32) (ha : a.IsFinite) (hb : b.IsFinite) :
    le a b = true ↔ a.toRat ≤ b.toRat := by
  obtain ⟨s1, m1, e1, rfl, _⟩ := isFinite_cases a ha
  obtain ⟨s2, m2, e2, rfl, _⟩ := isFinite_cases b hb
  exact le_fin_iff _ _ _ _ _ _

/-- On finite values the comparison `==` is the equality of the values. -/
theorem eq_iff (a b : binary32) (ha : a.IsFinite) (hb : b.IsFinite) :
    eq a b = true ↔ a.toRat = b.toRat := by
  obtain ⟨s1, m1, e1, rfl, _⟩ := isFinite_cases a ha
  obtain ⟨s2, m2, e2, rfl, _⟩ := isFinite_cases b hb
  exact eq_fin_iff _ _ _ _ _ _

/-- Signed form of `roundNE_spec`: the result rounds the signed exact value. -/
theorem roundNE_rounds (neg : Bool) (M : ℕ) (E : ℤ) (W : ℚ) (hM : 0 < M)
    (hW : W = (M : ℚ) * 2 ^ E ∨ (M % 2 = 1 ∧ 26 ≤ bitlen M ∧ ((M : ℚ) - 1) * 2 ^ E < W ∧
      W < ((M : ℚ) + 1) * 2 ^ E)) :
    Rounds (roundNE neg M E) ((if neg then -1 else 1) * W) ∧
      (-149 ≤ E → W = (M : ℚ) * 2 ^ E → (roundNE neg M E).IsFinite →
        |(roundNE neg M E).toRat - (if neg then -1 else 1) * W| ≤ 2 ^ (-24 : ℤ) * W) := by
  have hMq : (1 : ℚ) ≤ M := by exact_mod_cast hM
  have hE0 := two_zpow_pos E
  have hWpos : 0 < W := by
    rcases hW with h | ⟨_, _, h, _⟩
    · rw [h]
      exact mul_pos (by linarith) hE0
    · have : 0 ≤ ((M : ℚ) - 1) * 2 ^ E := mul_nonneg (by linarith) hE0.le
      linarith
  rcases roundNE_spec neg M E W hM hW with ⟨hr, hbig⟩ | ⟨m, e, hr, hc, herr, herr3, hcross⟩
  · refine ⟨?_, fun _ _ hf => ?_⟩
    swap
    · rw [hr] at hf
      exact absurd hf (by simp [IsFinite])
    left
    rw [hr]
    cases neg
    · simp only [if_false, Bool.false_eq_true, one_mul]
      refine ⟨?_, ?_⟩
      · congr 1
        symm
        rw [decide_eq_false_iff_not]
        linarith
      · rw [abs_of_pos hWpos]
        exact hbig
    · simp only [if_true, neg_one_mul]
      refine ⟨?_, ?_⟩
      · congr 1
        symm
        rw [decide_eq_true_iff]
        linarith
      · rw [abs_neg, abs_of_pos hWpos]
        exact hbig
  · refine ⟨?_, fun h1 h2 _ => ?_⟩
    swap
    · rw [hr]
      have h3 := herr3 h1 h2
      cases neg
      · simp only [toRat, if_false, Bool.false_eq_true, one_mul]
        exact h3
      · simp only [toRat, if_true, neg_one_mul]
        have : -(m : ℚ) * 2 ^ e - -W = -((m : ℚ) * 2 ^ e - W) := by ring
        rw [this, abs_neg]
        exact h3
    right
    rw [hr]
    have hmpos : (0 : ℚ) ≤ (m : ℚ) * 2 ^ e := mul_nonneg (Nat.cast_nonneg m) (two_zpow_pos e).le
    refine ⟨hc, ?_, ?_⟩
    · cases neg
      · simp only [toRat, if_false, Bool.false_eq_true, one_mul]
        rw [abs_of_pos hWpos]
        exact herr
      · simp only [toRat, if_true, neg_one_mul]
        have : -(m : ℚ) * 2 ^ e - -W = -((m : ℚ) * 2 ^ e - W) := by ring
        rw [this, abs_neg, abs_neg, abs_of_pos hWpos]
        exact herr
    · intro f hf
      obtain ⟨sf, mf, ef, rfl, hcf⟩ := isFinite_cases f hf
      have hfpos : (0 : ℚ) ≤ (mf : ℚ) * 2 ^ ef :=
        mul_nonneg (Nat.cast_nonneg mf) (two_zpow_pos ef).le
      obtain ⟨hc1, hc2⟩ := hcross mf ef hcf
      cases neg <;> cases sf <;>
        simp only [toRat, if_true, if_false, Bool.false_eq_true, one_mul, neg_one_mul, mul_assoc]
      · exact ⟨hc1, hc2⟩
      · exact ⟨fun _ => by linarith, fun h => by linarith⟩
      · exact ⟨fun h => by linarith, fun _ => by linarith⟩
      · exact ⟨fun h => by linarith [hc2 (by linarith)], fun h => by linarith [hc1 (by linarith)]⟩

theorem rounds_exact (r : binary32) (V : ℚ) (hr : r.IsFinite) (hV : r.toRat = V) : Rounds r V := by
  right
  refine ⟨hr, Or.inr ?_, fun f _ => ?_⟩
  · rw [hV, sub_self, abs_zero]
    positivity
  · rw [hV]
    exact ⟨fun h => h, fun h => h⟩

theorem roundNE_zero (neg : Bool) (E : ℤ) : roundNE neg 0 E = fin neg 0 (-149) := by
  simp [roundNE]

/-- The sum of two finite floats rounds their exact sum, and a finite sum is within a
relative error `2^-24` of it (a sum is exact in the subnormal range). -/
theorem add_spec (a b : binary32) (ha : a.IsFinite) (hb : b.IsFinite) :
    Rounds (a + b) (a.toRat + b.toRat) ∧
      ((a + b).IsFinite →
        |(a + b).toRat - (a.toRat + b.toRat)| ≤ 2 ^ (-24 : ℤ) * |a.toRat + b.toRat|) := by
  obtain ⟨s1, m1, e1, rfl, hc1⟩ := isFinite_cases a ha
  obtain ⟨s2, m2, e2, rfl, hc2⟩ := isFinite_cases b hb
  show Rounds (add (fin s1 m1 e1) (fin s2 m2 e2)) _ ∧
    ((add (fin s1 m1 e1) (fin s2 m2 e2)).IsFinite →
      |(add (fin s1 m1 e1) (fin s2 m2 e2)).toRat - _| ≤ _)
  obtain ⟨v, hv⟩ : ∃ v : ℤ, v = scaled s1 m1 e1 (min e1 e2) + scaled s2 m2 e2 (min e1 e2) :=
    ⟨_, rfl⟩
  have hsum : ((v : ℤ) : ℚ) * 2 ^ (min e1 e2) = toRat (fin s1 m1 e1) + toRat (fin s2 m2 e2) := by
    rw [hv, Int.cast_add, add_mul, scaled_toRat _ _ _ _ (min_le_left _ _),
      scaled_toRat _ _ _ _ (min_le_right _ _)]
  have hE : -149 ≤ min e1 e2 := le_min hc1.2.1 hc2.2.1
  unfold add
  simp only [← hv]
  rw [← hsum]
  by_cases hv0 : v = 0
  · rw [if_pos hv0, hv0]
    simp only [Int.cast_zero, zero_mul]
    refine ⟨rounds_exact _ _ (isFinite_zero _) (toRat_zero _ _), fun _ => ?_⟩
    rw [toRat_zero]
    simp
  · rw [if_neg hv0]
    have hM : 0 < v.natAbs := Int.natAbs_pos.mpr hv0
    have hW : (if decide (v < 0) = true then (-1 : ℚ) else 1) *
        ((v.natAbs : ℚ) * 2 ^ (min e1 e2)) = ((v : ℤ) : ℚ) * 2 ^ (min e1 e2) := by
      by_cases hneg : v < 0
      · rw [if_pos (decide_eq_true hneg)]
        have : ((v.natAbs : ℕ) : ℚ) = -((v : ℤ) : ℚ) := by
          rw [Nat.cast_natAbs, abs_of_neg hneg, Int.cast_neg]
        rw [this]
        ring
      · rw [if_neg (by simpa using hneg)]
        have : ((v.natAbs : ℕ) : ℚ) = ((v : ℤ) : ℚ) := by
          rw [Nat.cast_natAbs, abs_of_nonneg (not_lt.mp hneg)]
        rw [this]
        ring
    have hWabs : |((v : ℤ) : ℚ) * 2 ^ (min e1 e2)| = (v.natAbs : ℚ) * 2 ^ (min e1 e2) := by
      rw [abs_mul, abs_of_pos (two_zpow_pos _), Nat.cast_natAbs, Int.cast_abs]
    obtain ⟨h1, h2⟩ := roundNE_rounds (decide (v < 0)) v.natAbs (min e1 e2)
      ((v.natAbs : ℚ) * 2 ^ (min e1 e2)) hM (Or.inl rfl)
    rw [hW] at h1 h2
    refine ⟨h1, fun hf => ?_⟩
    rw [hWabs]
    exact h2 hE rfl hf

end binary32

namespace binary32

/-- The difference of two finite floats rounds their exact difference. -/
theorem sub_spec (a b : binary32) (ha : a.IsFinite) (hb : b.IsFinite) :
    Rounds (a - b) (a.toRat - b.toRat) ∧
      ((a - b).IsFinite →
        |(a - b).toRat - (a.toRat - b.toRat)| ≤ 2 ^ (-24 : ℤ) * |a.toRat - b.toRat|) := by
  have h := add_spec a (neg b) ha ((isFinite_neg b).mpr hb)
  rw [toRat_neg, ← sub_eq_add_neg] at h
  exact h

theorem sign_mul (s1 s2 : Bool) :
    (if xor s1 s2 = true then (-1 : ℚ) else 1) =
      (if s1 = true then -1 else 1) * (if s2 = true then -1 else 1) := by
  cases s1 <;> cases s2 <;> simp

/-- The product of two finite floats rounds their exact product. -/
theorem mul_spec (a b : binary32) (ha : a.IsFinite) (hb : b.IsFinite) :
    Rounds (a * b) (a.toRat * b.toRat) := by
  obtain ⟨s1, m1, e1, rfl, hc1⟩ := isFinite_cases a ha
  obtain ⟨s2, m2, e2, rfl, hc2⟩ := isFinite_cases b hb
  show Rounds (roundNE (xor s1 s2) (m1 * m2) (e1 + e2)) _
  have hval : toRat (fin s1 m1 e1) * toRat (fin s2 m2 e2) =
      (if xor s1 s2 = true then (-1 : ℚ) else 1) * (((m1 * m2 : ℕ) : ℚ) * 2 ^ (e1 + e2)) := by
    rw [toRat_fin, toRat_fin, sign_mul, two_zpow_add]
    push_cast
    ring
  rw [hval]
  by_cases h0 : m1 * m2 = 0
  · rw [h0, roundNE_zero]
    simp only [Nat.cast_zero, zero_mul, mul_zero]
    exact rounds_exact _ _ (isFinite_zero _) (toRat_zero _ _)
  · exact (roundNE_rounds _ _ _ _ (Nat.pos_of_ne_zero h0) (Or.inl rfl)).1

/-- The rounded quotient `n / d * 2^E` of natural numbers, computed with a sticky digit. -/
theorem roundQuot_rounds (neg : Bool) (n d k : ℕ) (E : ℤ) (hd : 0 < d)
    (hk : n = 0 ∨ 2 ^ 25 ≤ n * 2 ^ k / d) :
    Rounds (roundQuot neg n d k E) ((if neg then -1 else 1) * ((n : ℚ) / d * 2 ^ E)) := by
  unfold roundQuot
  rcases Nat.eq_zero_or_pos n with hn | hn
  · subst hn
    simp only [zero_mul, Nat.zero_div, mul_zero, Nat.zero_mod, if_true, add_zero, Nat.cast_zero,
      zero_div]
    rw [roundNE_zero]
    exact rounds_exact _ _ (isFinite_zero _) (toRat_zero _ _)
  · have hQ : 2 ^ 25 ≤ n * 2 ^ k / d := by
      rcases hk with h | h
      · omega
      · exact h
    obtain ⟨Q, hQd⟩ : ∃ Q, Q = n * 2 ^ k / d := ⟨_, rfl⟩
    obtain ⟨R, hRd⟩ : ∃ R, R = n * 2 ^ k % d := ⟨_, rfl⟩
    have hdm : d * Q + R = n * 2 ^ k := by rw [hQd, hRd]; exact Nat.div_add_mod _ _
    have hR : R < d := by rw [hRd]; exact Nat.mod_lt _ hd
    rw [← hQd, ← hRd]
    rw [← hQd] at hQ
    have hdq : (0 : ℚ) < d := by exact_mod_cast hd
    have hE1 := two_zpow_pos (E - k - 1)
    -- the exact value on the scale of the rounded number
    have hX : (n : ℚ) / d * 2 ^ E = (2 * ((Q : ℚ) + R / d)) * 2 ^ (E - (k : ℤ) - 1) := by
      have h1 : ((d * Q + R : ℕ) : ℚ) = ((n * 2 ^ k : ℕ) : ℚ) := by rw [hdm]
      push_cast at h1
      have h2 : (2 : ℚ) ^ E = 2 ^ (k : ℤ) * (2 * 2 ^ (E - (k : ℤ) - 1)) := by
        have : E = (k : ℤ) + (1 + (E - (k : ℤ) - 1)) := by ring
        conv_lhs => rw [this, two_zpow_add, two_zpow_add]
        norm_num
      rw [h2, zpow_natCast]
      field_simp
      linear_combination (-2 : ℚ) * 2 ^ (E - (k : ℤ) - 1) * h1
    have hM : 0 < 2 * Q + (if R = 0 then 0 else 1) := by
      have : 0 < Q := lt_of_lt_of_le (by norm_num) hQ
      omega
    apply (roundNE_rounds neg _ (E - (k : ℤ) - 1) _ hM ?_).1
    by_cases hR0 : R = 0
    · left
      rw [hX, if_pos hR0, hR0]
      push_cast
      ring
    · right
      rw [if_neg hR0]
      refine ⟨by omega, ?_, ?_, ?_⟩
      · have hb := bitlen_spec _ hM
        rw [if_neg hR0] at hb
        by_contra hlt
        push_neg at hlt
        have : 2 ^ bitlen (2 * Q + 1) ≤ 2 ^ 25 := Nat.pow_le_pow_right (by norm_num) (by omega)
        omega
      · rw [hX]
        apply mul_lt_mul_of_pos_right _ hE1
        have hRq : (0 : ℚ) < (R : ℚ) / d := div_pos (by exact_mod_cast Nat.pos_of_ne_zero hR0) hdq
        push_cast
        linarith
      · rw [hX]
        apply mul_lt_mul_of_pos_right _ hE1
        have hRq : (R : ℚ) / d < 1 := by
          rw [div_lt_one hdq]
          exact_mod_cast hR
        push_cast
        linarith

theorem quot_large (n d : ℕ) (hn : 0 < n) (h : 0 < d) (hd : d < 2 ^ 24) :
    2 ^ 25 ≤ n * 2 ^ 64 / d := by
  rw [Nat.le_div_iff_mul_le h]
  calc 2 ^ 25 * d ≤ 2 ^ 25 * 2 ^ 24 := Nat.mul_le_mul_left _ hd.le
    _ ≤ 1 * 2 ^ 64 := by norm_num
    _ ≤ n * 2 ^ 64 := Nat.mul_le_mul_right _ hn

/-- The quotient of two finite floats, the divisor not zero, rounds their exact quotient. -/
theorem div_spec (a b : binary32) (ha : a.IsFinite) (hb : b.IsFinite) (hb0 : b.toRat ≠ 0) :
    Rounds (a / b) (a.toRat / b.toRat) := by
  obtain ⟨s1, m1, e1, rfl, hc1⟩ := isFinite_cases a ha
  obtain ⟨s2, m2, e2, rfl, hc2⟩ := isFinite_cases b hb
  show Rounds (div (fin s1 m1 e1) (fin s2 m2 e2)) _
  have hm2 : m2 ≠ 0 := by
    intro h
    apply hb0
    rw [h]
    exact toRat_zero _ _
  show Rounds (if m2 = 0 then (if m1 = 0 then nan else inf (xor s1 s2))
    else roundQuot (xor s1 s2) m1 m2 64 (e1 - e2)) _
  rw [if_neg hm2]
  have hm2q : (m2 : ℚ) ≠ 0 := by exact_mod_cast hm2
  have hval : toRat (fin s1 m1 e1) / toRat (fin s2 m2 e2) =
      (if xor s1 s2 = true then (-1 : ℚ) else 1) * ((m1 : ℚ) / m2 * 2 ^ (e1 - e2)) := by
    have h2 : (2 : ℚ) ^ e1 = 2 ^ (e1 - e2) * 2 ^ e2 := by
      rw [← two_zpow_add]
      congr 1
      ring
    have h3 := (two_zpow_pos e2).ne'
    rw [toRat_fin, toRat_fin, sign_mul, h2]
    cases s1 <;> cases s2 <;> simp <;> field_simp <;> ring
  rw [hval]
  apply roundQuot_rounds _ _ _ _ _ (Nat.pos_of_ne_zero hm2)
  rcases Nat.eq_zero_or_pos m1 with h | h
  · exact Or.inl h
  · exact Or.inr (quot_large m1 m2 h (Nat.pos_of_ne_zero hm2) hc2.1)

/-- A decimal literal `n / d` rounds the fraction it denotes. -/
theorem lit_rounds (n d : ℕ) (hd : 0 < d) : Rounds (lit n d) ((n : ℚ) / d) := by
  have h := roundQuot_rounds false n d (bitlen d + 64) 0 hd (by
    rcases Nat.eq_zero_or_pos n with h | h
    · exact Or.inl h
    · right
      rw [Nat.le_div_iff_mul_le hd]
      have hb := (bitlen_spec d hd).2.2
      calc 2 ^ 25 * d ≤ 2 ^ 25 * 2 ^ bitlen d := Nat.mul_le_mul_left _ hb.le
        _ ≤ 2 ^ 64 * 2 ^ bitlen d := Nat.mul_le_mul_right _ (by norm_num)
        _ = 1 * 2 ^ (bitlen d + 64) := by rw [pow_add]; ring
        _ ≤ n * 2 ^ (bitlen d + 64) := Nat.mul_le_mul_right _ h)
  simpa [lit] using h

end binary32

namespace binary32

theorem toRat_pos_cases (s : Bool) (m : ℕ) (e : ℤ) (h : 0 < toRat (fin s m e)) :
    s = false ∧ 0 < m := by
  have hp : (0 : ℚ) ≤ (m : ℚ) * 2 ^ e := mul_nonneg (Nat.cast_nonneg m) (two_zpow_pos e).le
  rw [toRat_fin] at h
  cases s
  · refine ⟨rfl, ?_⟩
    rcases Nat.eq_zero_or_pos m with h0 | h0
    · subst h0
      simp at h
    · exact h0
  · exfalso
    simp only [if_true, mul_assoc, neg_one_mul] at h
    linarith

/-- The function `sqrtf` on a positive finite float: the result is finite and positive, and its
square is within the relative error `2^-22` of the argument. -/
theorem sqrt_spec (a : binary32) (ha : a.IsFinite) (hpos : 0 < a.toRat) :
    (sqrt a).IsFinite ∧ 0 < (sqrt a).toRat ∧
      a.toRat * (1 - 2 ^ (-22 : ℤ)) ≤ (sqrt a).toRat ^ 2 ∧
      (sqrt a).toRat ^ 2 ≤ a.toRat * (1 + 2 ^ (-22 : ℤ)) := by
  obtain ⟨s, m, e, rfl, hc⟩ := isFinite_cases a ha
  obtain ⟨hs, hm⟩ := toRat_pos_cases s m e hpos
  subst hs
  obtain ⟨k, hk⟩ : ∃ k : ℕ, k = if e % 2 = 0 then 64 else 65 := ⟨_, rfl⟩
  have hk1 : 64 ≤ k ∧ k ≤ 65 := by
    rw [hk]
    split_ifs <;> omega
  obtain ⟨h, hh⟩ : ∃ h : ℤ, e - (k : ℤ) = 2 * h := by
    refine ⟨(e - (k : ℤ)) / 2, ?_⟩
    rw [hk]
    split_ifs with h2
    · push_cast
      omega
    · push_cast
      omega
  have hE' : (e - (k : ℤ)) / 2 - 1 = h - 1 := by omega
  obtain ⟨s0, hs0⟩ : ∃ s0, s0 = isqrt (m * 2 ^ k) := ⟨_, rfl⟩
  obtain ⟨hlo, hhi⟩ := isqrt_spec (m * 2 ^ k)
  rw [← hs0] at hlo hhi
  have hsq : sqrt (fin false m e) = roundNE false (2 * s0 + (if s0 * s0 = m * 2 ^ k then 0 else 1))
      (h - 1) := by
    show (if m = 0 then fin false 0 (-149) else if false = true then nan else
      roundNE false (2 * isqrt (m * 2 ^ (if e % 2 = 0 then 64 else 65)) +
        (if isqrt (m * 2 ^ (if e % 2 = 0 then 64 else 65)) *
          isqrt (m * 2 ^ (if e % 2 = 0 then 64 else 65)) =
            m * 2 ^ (if e % 2 = 0 then 64 else 65) then 0 else 1))
        ((e - ((if e % 2 = 0 then 64 else 65 : ℕ) : ℤ)) / 2 - 1)) = _
    rw [if_neg hm.ne', if_neg (by simp), ← hk, ← hs0, hE']
  rw [hsq]
  obtain ⟨σ, hσ⟩ : ∃ σ : ℕ, σ = if s0 * s0 = m * 2 ^ k then 0 else 1 := ⟨_, rfl⟩
  rw [← hσ]
  -- natural-number facts
  have hN : 2 ^ 64 ≤ m * 2 ^ k := by
    calc 2 ^ 64 ≤ 2 ^ k := Nat.pow_le_pow_right (by norm_num) hk1.1
      _ = 1 * 2 ^ k := (one_mul _).symm
      _ ≤ m * 2 ^ k := Nat.mul_le_mul_right _ hm
  have hNhi : m * 2 ^ k < 2 ^ 89 := by
    calc m * 2 ^ k < 2 ^ 24 * 2 ^ k := Nat.mul_lt_mul_of_pos_right hc.1 (by positivity)
      _ ≤ 2 ^ 24 * 2 ^ 65 := Nat.mul_le_mul_left _ (Nat.pow_le_pow_right (by norm_num) hk1.2)
      _ = 2 ^ 89 := by norm_num
  have hs32 : 2 ^ 32 ≤ s0 := by
    by_contra hlt
    push_neg at hlt
    have : (s0 + 1) * (s0 + 1) ≤ 2 ^ 32 * 2 ^ 32 := Nat.mul_le_mul (by omega) (by omega)
    have : (2 : ℕ) ^ 32 * 2 ^ 32 = 2 ^ 64 := by norm_num
    omega
  have hs45 : s0 < 2 ^ 45 := by
    by_contra hlt
    push_neg at hlt
    have : 2 ^ 45 * 2 ^ 45 ≤ s0 * s0 := Nat.mul_le_mul hlt hlt
    have : (2 : ℕ) ^ 45 * 2 ^ 45 = 2 ^ 90 := by norm_num
    have : (2 : ℕ) ^ 89 ≤ 2 ^ 90 := by norm_num
    omega
  have hσ01 : σ ≤ 1 := by rw [hσ]; split_ifs <;> omega
  have hσ0 : σ = 0 → s0 * s0 = m * 2 ^ k := by
    intro h0
    by_contra hne
    rw [hσ, if_neg hne] at h0
    omega
  have hM : 0 < 2 * s0 + σ := by
    have : 0 < s0 := lt_of_lt_of_le (by norm_num) hs32
    omega
  -- rational facts
  obtain ⟨N, hNd⟩ : ∃ N : ℚ, N = ((m * 2 ^ k : ℕ) : ℚ) := ⟨_, rfl⟩
  obtain ⟨X, hXd⟩ : ∃ X : ℚ, X = (s0 : ℚ) + (σ : ℚ) / 2 := ⟨_, rfl⟩
  have hs0q : (2 : ℚ) ^ 32 ≤ (s0 : ℚ) := by exact_mod_cast hs32
  have hs0q2 : (s0 : ℚ) < 2 ^ 45 := by exact_mod_cast hs45
  have hσq : (0 : ℚ) ≤ (σ : ℚ) ∧ (σ : ℚ) ≤ 1 := ⟨Nat.cast_nonneg _, by exact_mod_cast hσ01⟩
  have hloq : (s0 : ℚ) * s0 ≤ N := by rw [hNd]; exact_mod_cast hlo
  have hhiq : N + 1 ≤ ((s0 : ℚ) + 1) * (s0 + 1) := by
    rw [hNd]
    have : m * 2 ^ k + 1 ≤ (s0 + 1) * (s0 + 1) := hhi
    exact_mod_cast this
  have hNpos : (0 : ℚ) < N := by
    rw [hNd]
    exact_mod_cast lt_of_lt_of_le (by norm_num) hN
  have hXN : |X ^ 2 - N| ≤ (s0 : ℚ) := by
    rcases Nat.eq_zero_or_pos σ with h0 | h1
    · have := hσ0 h0
      have hq : (s0 : ℚ) * s0 = N := by rw [hNd]; exact_mod_cast this
      rw [hXd, h0]
      simp only [Nat.cast_zero, zero_div, add_zero]
      rw [sq, hq, sub_self, abs_zero]
      linarith [show (0 : ℚ) ≤ 2 ^ 32 by positivity]
    · have h1' : σ = 1 := by omega
      have hne : s0 * s0 ≠ m * 2 ^ k := by
        intro heq
        rw [hσ, if_pos heq] at h1
        omega
      have hlt : s0 * s0 + 1 ≤ m * 2 ^ k := by omega
      have hltq : (s0 : ℚ) * s0 + 1 ≤ N := by rw [hNd]; exact_mod_cast hlt
      rw [hXd, h1', abs_le]
      push_cast
      constructor <;> nlinarith
  have hsN : (s0 : ℚ) ≤ 2 ^ (-32 : ℤ) * N := by
    have : (s0 : ℚ) * 2 ^ 32 ≤ N := le_trans (by nlinarith) hloq
    have e : (2 : ℚ) ^ (-32 : ℤ) = 1 / 2 ^ 32 := by norm_num
    rw [e]
    linarith
  have hXpos : 0 < X := by rw [hXd]; linarith [show (0 : ℚ) < 2 ^ 32 by positivity]
  have hG := two_zpow_pos h
  obtain ⟨G, hGd⟩ : ∃ G : ℚ, G = 2 ^ h := ⟨_, rfl⟩
  rw [← hGd] at hG
  have hW : ((2 * s0 + σ : ℕ) : ℚ) * 2 ^ (h - 1) = X * G := by
    have : (2 : ℚ) ^ (h - 1) = 2 ^ h / 2 := by
      rw [zpow_sub_one₀ (by norm_num)]
      ring
    rw [this, hXd, hGd]
    push_cast
    ring
  have ha' : toRat (fin false m e) = N * G ^ 2 := by
    rw [toRat_fin, hNd, hGd]
    have : e = (k : ℤ) + (h + h) := by omega
    rw [this, two_zpow_add, two_zpow_add]
    push_cast
    rw [zpow_natCast]
    simp
    ring
  obtain ⟨hR, -⟩ := roundNE_rounds false (2 * s0 + σ) (h - 1) (((2 * s0 + σ : ℕ) : ℚ) * 2 ^ (h - 1))
    hM (Or.inl rfl)
  simp only [if_false, Bool.false_eq_true, one_mul] at hR
  rw [hW] at hR
  have hWpos : 0 < X * G := mul_pos hXpos hG
  -- bounds on the scale factor
  have hGhi : G ≤ 2 ^ 20 := by
    rw [hGd]
    have : (2 : ℚ) ^ (20 : ℤ) = 2 ^ 20 := by norm_num
    rw [← this]
    exact two_zpow_le _ _ (by have := hc.2.2.1; omega)
  have hGlo : (2 : ℚ) ^ (-107 : ℤ) ≤ G := by
    rw [hGd]
    exact two_zpow_le _ _ (by have := hc.2.1; omega)
  have hXhi : X ≤ 2 ^ 45 := by
    have : s0 + 1 ≤ 2 ^ 45 := hs45
    have h2 : ((s0 + 1 : ℕ) : ℚ) ≤ 2 ^ 45 := by exact_mod_cast this
    push_cast at h2
    rw [hXd]
    linarith
  rcases hR with ⟨_, hbig⟩ | ⟨hfin, herr, _⟩
  · exfalso
    rw [abs_of_pos hWpos] at hbig
    have : X * G ≤ 2 ^ 45 * 2 ^ 20 := mul_le_mul hXhi hGhi hG.le (by positivity)
    have : (2 : ℚ) ^ 45 * 2 ^ 20 < 2 ^ 128 - 2 ^ 103 := by norm_num
    linarith
  · obtain ⟨r, hrd⟩ : ∃ r : ℚ, r = (roundNE false (2 * s0 + σ) (h - 1)).toRat := ⟨_, rfl⟩
    rw [← hrd] at herr ⊢
    rw [abs_of_pos hWpos] at herr
    have herr' : |r - X * G| ≤ 2 ^ (-24 : ℤ) * (X * G) := by
      rcases herr with h1 | h1
      · exact h1
      · refine le_trans h1 ?_
        have hXlo : (2 : ℚ) ^ 32 ≤ X := by rw [hXd]; linarith
        have e1 : (2 : ℚ) ^ (-150 : ℤ) = 2 ^ (-24 : ℤ) * (2 ^ (-19 : ℤ) * 2 ^ (-107 : ℤ)) := by
          rw [← two_zpow_add, ← two_zpow_add]
          norm_num
        rw [e1]
        apply mul_le_mul_of_nonneg_left _ (two_zpow_pos _).le
        have e2 : (2 : ℚ) ^ (-19 : ℤ) ≤ X := le_trans (by norm_num) hXlo
        exact mul_le_mul e2 hGlo (two_zpow_pos _).le hXpos.le
    obtain ⟨u, hud⟩ : ∃ u : ℚ, u = 2 ^ (-24 : ℤ) := ⟨_, rfl⟩
    have hu : u = 1 / 16777216 := by rw [hud]; norm_num
    rw [← hud] at herr'
    rw [abs_le] at herr' hXN
    have hr1 : X * G * (1 - u) ≤ r := by linarith
    have hr2 : r ≤ X * G * (1 + u) := by linarith
    have hrpos : 0 < r := lt_of_lt_of_le (mul_pos hWpos (by rw [hu]; norm_num)) hr1
    have hX2lo : N * (1 - 2 ^ (-32 : ℤ)) ≤ X ^ 2 := by linarith
    have hX2hi : X ^ 2 ≤ N * (1 + 2 ^ (-32 : ℤ)) := by linarith
    have hsq1 : (X * G * (1 - u)) ^ 2 ≤ r ^ 2 :=
      pow_le_pow_left₀ (mul_nonneg hWpos.le (by rw [hu]; norm_num)) hr1 2
    have hsq2 : r ^ 2 ≤ (X * G * (1 + u)) ^ 2 := pow_le_pow_left₀ hrpos.le hr2 2
    have hG2 : 0 < G ^ 2 := by positivity
    refine ⟨hfin, hrpos, ?_, ?_⟩
    · rw [ha']
      refine le_trans ?_ hsq1
      have e1 : (X * G * (1 - u)) ^ 2 = X ^ 2 * (G ^ 2 * (1 - u) ^ 2) := by ring
      rw [e1]
      have h3 : N * (1 - 2 ^ (-32 : ℤ)) * (G ^ 2 * (1 - u) ^ 2) ≤ X ^ 2 * (G ^ 2 * (1 - u) ^ 2) :=
        mul_le_mul_of_nonneg_right hX2lo (by positivity)
      refine le_trans ?_ h3
      have e2 : N * (1 - 2 ^ (-32 : ℤ)) * (G ^ 2 * (1 - u) ^ 2) =
          N * G ^ 2 * ((1 - 2 ^ (-32 : ℤ)) * (1 - u) ^ 2) := by ring
      rw [e2]
      apply mul_le_mul_of_nonneg_left _ (by positivity)
      rw [hu]
      norm_num
    · rw [ha']
      refine le_trans hsq2 ?_
      have e1 : (X * G * (1 + u)) ^ 2 = X ^ 2 * (G ^ 2 * (1 + u) ^ 2) := by ring
      rw [e1]
      have h3 : X ^ 2 * (G ^ 2 * (1 + u) ^ 2) ≤ N * (1 + 2 ^ (-32 : ℤ)) * (G ^ 2 * (1 + u) ^ 2) :=
        mul_le_mul_of_nonneg_right hX2hi (by positivity)
      refine le_trans h3 ?_
      have e2 : N * (1 + 2 ^ (-32 : ℤ)) * (G ^ 2 * (1 + u) ^ 2) =
          N * G ^ 2 * ((1 + 2 ^ (-32 : ℤ)) * (1 + u) ^ 2) := by ring
      rw [e2]
      apply mul_le_mul_of_nonneg_left _ (by positivity)
      rw [hu]
      norm_num

/-- The function `sqrtf` at a zero. -/
theorem sqrt_zero (a : binary32) (ha : a.IsFinite) (h0 : a.toRat = 0) :
    (sqrt a).IsFinite ∧ (sqrt a).toRat = 0 := by
  obtain ⟨s, m, e, rfl, hc⟩ := isFinite_cases a ha
  have hm : m = 0 := by
    rw [toRat_fin] at h0
    have h2 := (two_zpow_pos e).ne'
    cases s <;> simp at h0 <;> tauto
  subst hm
  have hsq : sqrt (fin s 0 e) = fin s 0 (-149) := by
    simp [sqrt]
  rw [hsq]
  exact ⟨isFinite_zero _, toRat_zero _ _⟩

end binary32

namespace binary32

theorem not_isFinite_inf (s : Bool) : ¬ (inf s).IsFinite := by simp [IsFinite]

theorem not_isFinite_nan : ¬ (nan).IsFinite := by simp [IsFinite]

/-- A rounding of a value below the overflow threshold is finite. -/
theorem Rounds.isFinite {r : binary32} {V : ℚ} (h : Rounds r V)
    (hV : |V| < 2 ^ 128 - 2 ^ 103) : r.IsFinite := by
  rcases h with ⟨_, hbig⟩ | ⟨hf, _⟩
  · exact absurd hV (not_lt.mpr hbig)
  · exact hf

/-- The error of a finite rounding. -/
theorem Rounds.err {r : binary32} {V : ℚ} (h : Rounds r V) (hf : r.IsFinite) :
    |r.toRat - V| ≤ 2 ^ (-24 : ℤ) * |V| + 2 ^ (-150 : ℤ) := by
  rcases h with ⟨hr, _⟩ | ⟨_, herr, _⟩
  · rw [hr] at hf
    exact absurd hf (not_isFinite_inf _)
  · have h1 : (0 : ℚ) ≤ 2 ^ (-24 : ℤ) * |V| := mul_nonneg (two_zpow_pos _).le (abs_nonneg _)
    have h2 := (two_zpow_pos (-150)).le
    rcases herr with h | h <;> linarith

/-- No finite float lies strictly between the exact value and its finite rounding. -/
theorem Rounds.mono {r : binary32} {V : ℚ} (h : Rounds r V) (hf : r.IsFinite) (f : binary32)
    (hff : f.IsFinite) :
    (f.toRat ≤ V → f.toRat ≤ r.toRat) ∧ (V ≤ f.toRat → r.toRat ≤ f.toRat) := by
  rcases h with ⟨hr, _⟩ | ⟨_, _, hc⟩
  · rw [hr] at hf
    exact absurd hf (not_isFinite_inf _)
  · exact hc f hff

theorem Rounds.nonneg {r : binary32} {V : ℚ} (h : Rounds r V) (hf : r.IsFinite) (hV : 0 ≤ V) :
    0 ≤ r.toRat := by
  have := (h.mono hf (fin false 0 (-149)) (isFinite_zero _)).1
  rw [toRat_zero] at this
  exact this hV

theorem Rounds.nonpos {r : binary32} {V : ℚ} (h : Rounds r V) (hf : r.IsFinite) (hV : V ≤ 0) :
    r.toRat ≤ 0 := by
  have := (h.mono hf (fin false 0 (-149)) (isFinite_zero _)).2
  rw [toRat_zero] at this
  exact this hV

/-- A rounding that overflows is the infinity of the sign of the exact value. -/
theorem Rounds.eq_inf {r : binary32} {V : ℚ} (h : Rounds r V) (hf : ¬ r.IsFinite) :
    r = inf (decide (V < 0)) ∧ 2 ^ 128 - 2 ^ 103 ≤ |V| := by
  rcases h with h | ⟨hf', _⟩
  · exact h
  · exact absurd hf' hf

theorem toRat_abs_lt (a : binary32) (ha : a.IsFinite) : |a.toRat| < 2 ^ 128 - 2 ^ 103 := by
  obtain ⟨s, m, e, rfl, hm, _, he, _⟩ := isFinite_cases a ha
  have h0 : (0 : ℚ) ≤ (m : ℚ) * 2 ^ e := mul_nonneg (Nat.cast_nonneg m) (two_zpow_pos e).le
  have h1 : |toRat (fin s m e)| = (m : ℚ) * 2 ^ e := by
    rw [← toRat_abs]
    simp [abs, toRat]
  rw [h1]
  have h2 : (m : ℚ) ≤ 2 ^ 24 - 1 := by
    have : m + 1 ≤ 2 ^ 24 := hm
    have h3 : ((m + 1 : ℕ) : ℚ) ≤ ((2 ^ 24 : ℕ) : ℚ) := by exact_mod_cast this
    push_cast at h3
    linarith
  have h3 : (2 : ℚ) ^ e ≤ 2 ^ (104 : ℤ) := two_zpow_le _ _ he
  have h4 : (2 : ℚ) ^ (104 : ℤ) = 2 ^ 104 := by norm_num
  rw [h4] at h3
  calc (m : ℚ) * 2 ^ e ≤ (2 ^ 24 - 1) * 2 ^ 104 :=
        mul_le_mul h2 h3 (two_zpow_pos e).le (by norm_num)
    _ < 2 ^ 128 - 2 ^ 103 := by norm_num

/-- Two finite floats with the same sign bit and the same value are the same float. -/
theorem canon_unique (m1 m2 : ℕ) (e1 e2 : ℤ) (h1 : Canon m1 e1) (h2 : Canon m2 e2)
    (hv : (m1 : ℚ) * 2 ^ e1 = (m2 : ℚ) * 2 ^ e2) : m1 = m2 ∧ e1 = e2 := by
  -- reduce to the case e1 ≤ e2
  have key : ∀ (a b : ℕ) (x y : ℤ), Canon a x → Canon b y → (a : ℚ) * 2 ^ x = (b : ℚ) * 2 ^ y →
      x ≤ y → a = b ∧ x = y := by
    intro a b x y ha hb hab hxy
    obtain ⟨d, hd⟩ : ∃ d : ℕ, (d : ℤ) = y - x := ⟨(y - x).toNat, Int.toNat_of_nonneg (by omega)⟩
    have hy : y = (d : ℤ) + x := by omega
    rw [hy, two_zpow_add, ← mul_assoc] at hab
    have h3 := mul_right_cancel₀ (two_zpow_pos x).ne' hab
    rw [zpow_natCast] at h3
    have h4 : a = b * 2 ^ d := by exact_mod_cast h3
    rcases Nat.eq_zero_or_pos d with h0 | hpos
    · subst h0
      simp at h4
      exact ⟨h4, by omega⟩
    · exfalso
      -- y > x ≥ -149, so b is normal: b ≥ 2^23, hence a ≥ 2^24
      have hb23 : 2 ^ 23 ≤ b := by
        rcases hb.2.2.2 with h | h
        · exact h
        · have := ha.2.1
          omega
      have : 2 ^ 23 * 2 ^ 1 ≤ b * 2 ^ d :=
        Nat.mul_le_mul hb23 (Nat.pow_le_pow_right (by norm_num) hpos)
      have := ha.1
      omega
  rcases le_total e1 e2 with h | h
  · exact key m1 m2 e1 e2 h1 h2 hv h
  · obtain ⟨ha, hb⟩ := key m2 m1 e2 e1 h2 h1 hv.symm h
    exact ⟨ha.symm, hb.symm⟩

theorem eq_of_toRat_eq (a b : binary32) (ha : a.IsFinite) (hb : b.IsFinite)
    (hv : a.toRat = b.toRat) (hne : a.toRat ≠ 0) : a = b := by
  obtain ⟨s1, m1, e1, rfl, hc1⟩ := isFinite_cases a ha
  obtain ⟨s2, m2, e2, rfl, hc2⟩ := isFinite_cases b hb
  have hp1 : (0 : ℚ) ≤ (m1 : ℚ) * 2 ^ e1 := mul_nonneg (Nat.cast_nonneg m1) (two_zpow_pos e1).le
  have hp2 : (0 : ℚ) ≤ (m2 : ℚ) * 2 ^ e2 := mul_nonneg (Nat.cast_nonneg m2) (two_zpow_pos e2).le
  rw [toRat_fin] at hne
  rw [toRat_fin, toRat_fin] at hv
  cases s1 <;> cases s2 <;>
    simp only [if_true, if_false, Bool.false_eq_true, one_mul, neg_one_mul, mul_assoc] at hv hne
  · obtain ⟨h1, h2⟩ := canon_unique m1 m2 e1 e2 hc1 hc2 hv
    rw [h1, h2]
  · exfalso
    apply hne
    linarith
  · exfalso
    apply hne
    linarith
  · obtain ⟨h1, h2⟩ := canon_unique m1 m2 e1 e2 hc1 hc2 (by linarith)
    rw [h1, h2]

end binary32

namespace binary32

theorem u_eq : (2 : ℚ) ^ (-24 : ℤ) = 1 / 16777216 := by norm_num

/-- A product of finite floats whose exact value is below the overflow threshold: the result is
finite and within the standard error bound. -/
theorem mul_bd (a b : binary32) (ha : a.IsFinite) (hb : b.IsFinite)
    (hV : |a.toRat * b.toRat| < 2 ^ 128 - 2 ^ 103) :
    (a * b).IsFinite ∧
      |(a * b).toRat - a.toRat * b.toRat| ≤ 1 / 16777216 * |a.toRat * b.toRat| + 2 ^ (-150 : ℤ) := by
  have h := mul_spec a b ha hb
  have hf := h.isFinite hV
  have he := h.err hf
  rw [u_eq] at he
  exact ⟨hf, he⟩

/-- A sum of finite floats whose exact value is below the overflow threshold: the result is
finite and within the relative error `2^-24`. -/
theorem add_bd (a b : binary32) (ha : a.IsFinite) (hb : b.IsFinite)
    (hV : |a.toRat + b.toRat| < 2 ^ 128 - 2 ^ 103) :
    (a + b).IsFinite ∧
      |(a + b).toRat - (a.toRat + b.toRat)| ≤ 1 / 16777216 * |a.toRat + b.toRat| := by
  obtain ⟨h, he⟩ := add_spec a b ha hb
  have hf := h.isFinite hV
  have he' := he hf
  rw [u_eq] at he'
  exact ⟨hf, he'⟩

/-- A difference of finite floats whose exact value is below the overflow threshold. -/
theorem sub_bd (a b : binary32) (ha : a.IsFinite) (hb : b.IsFinite)
    (hV : |a.toRat - b.toRat| < 2 ^ 128 - 2 ^ 103) :
    (a - b).IsFinite ∧
      |(a - b).toRat - (a.toRat - b.toRat)| ≤ 1 / 16777216 * |a.toRat - b.toRat| := by
  obtain ⟨h, he⟩ := sub_spec a b ha hb
  have hf := h.isFinite hV
  have he' := he hf
  rw [u_eq] at he'
  exact ⟨hf, he'⟩

/-- A quotient of finite floats, the divisor not zero, whose exact value is below the overflow
threshold. -/
theorem div_bd (a b : binary32) (ha : a.IsFinite) (hb : b.IsFinite) (hb0 : b.toRat ≠ 0)
    (hV : |a.toRat / b.toRat| < 2 ^ 128 - 2 ^ 103) :
    (a / b).IsFinite ∧
      |(a / b).toRat - a.toRat / b.toRat| ≤ 1 / 16777216 * |a.toRat / b.toRat| + 2 ^ (-150 : ℤ) := by
  have h := div_spec a b ha hb hb0
  have hf := h.isFinite hV
  have he := h.err hf
  rw [u_eq] at he
  exact ⟨hf, he⟩

/-- The square of a finite float of magnitude at most `2^60`. -/
theorem sq_bd (a : binary32) (ha : a.IsFinite) (hB : |a.toRat| ≤ 2 ^ 60) :
    (a * a).IsFinite ∧ 0 ≤ (a * a).toRat ∧
      (a * a).toRat ≤ a.toRat * a.toRat * (1 + 1 / 16777216) + 2 ^ (-150 : ℤ) ∧
      a.toRat * a.toRat * (1 - 1 / 16777216) - 2 ^ (-150 : ℤ) ≤ (a * a).toRat ∧
      (a * a).toRat ≤ 2 ^ 121 := by
  have hsq : 0 ≤ a.toRat * a.toRat := mul_self_nonneg _
  have hle : a.toRat * a.toRat ≤ 2 ^ 120 := by
    have h1 : a.toRat * a.toRat = |a.toRat| * |a.toRat| := (abs_mul_abs_self _).symm
    rw [h1]
    calc |a.toRat| * |a.toRat| ≤ 2 ^ 60 * 2 ^ 60 :=
          mul_le_mul hB hB (abs_nonneg _) (by positivity)
      _ = 2 ^ 120 := by norm_num
  have hV : |a.toRat * a.toRat| < 2 ^ 128 - 2 ^ 103 := by
    rw [abs_of_nonneg hsq]
    have : (2 : ℚ) ^ 120 < 2 ^ 128 - 2 ^ 103 := by norm_num
    linarith
  obtain ⟨hf, he⟩ := mul_bd a a ha ha hV
  rw [abs_of_nonneg hsq, abs_le] at he
  have h0 := (mul_spec a a ha ha).nonneg hf hsq
  have hη : (2 : ℚ) ^ (-150 : ℤ) ≤ 1 := by
    have : (2 : ℚ) ^ (-150 : ℤ) ≤ 2 ^ (0 : ℤ) := two_zpow_le _ _ (by norm_num)
    simpa using this
  refine ⟨hf, h0, by linarith [he.2], by linarith [he.1], ?_⟩
  have : (2 : ℚ) ^ 120 * (1 + 1 / 16777216) + 1 ≤ 2 ^ 121 := by norm_num
  nlinarith [he.2]

/-- A sum of two non-negative finite floats below the overflow threshold. -/
theorem add_nonneg_bd (a b : binary32) (ha : a.IsFinite) (hb : b.IsFinite) (ha0 : 0 ≤ a.toRat)
    (hb0 : 0 ≤ b.toRat) (hV : a.toRat + b.toRat < 2 ^ 128 - 2 ^ 103) :
    (a + b).IsFinite ∧ 0 ≤ (a + b).toRat ∧
      (a + b).toRat ≤ (a.toRat + b.toRat) * (1 + 1 / 16777216) ∧
      (a.toRat + b.toRat) * (1 - 1 / 16777216) ≤ (a + b).toRat ∧
      a.toRat ≤ (a + b).toRat ∧ b.toRat ≤ (a + b).toRat := by
  have h0 : 0 ≤ a.toRat + b.toRat := by linarith
  obtain ⟨hf, he⟩ := add_bd a b ha hb (by rw [abs_of_nonneg h0]; exact hV)
  rw [abs_of_nonneg h0, abs_le] at he
  have hR := (add_spec a b ha hb).1
  refine ⟨hf, hR.nonneg hf h0, by linarith [he.2], by linarith [he.1], ?_, ?_⟩
  · exact (hR.mono hf a ha).1 (by linarith)
  · exact (hR.mono hf b hb).1 (by linarith)

end binary32

namespace FP

open binary32

theorem val_lengthSq (v : vec3 binary32) :
    vec3.lengthSq (val v) = v.x.toRat * v.x.toRat + v.y.toRat * v.y.toRat + v.z.toRat * v.z.toRat :=
  rfl

/-- The computed squared length of a vector with components of magnitude at most `2^60`: finite,
non-negative, within the relative error `2^-22` and the absolute error `2^-148` of the exact
squared length, and at least the computed square of each component. -/
theorem lengthSq_bd (v : vec3 binary32) (hv : Bounded3 v (2 ^ 60)) :
    (lengthSq v).IsFinite ∧ 0 ≤ (lengthSq v).toRat ∧
      (lengthSq v).toRat ≤ vec3.lengthSq (val v) * (1 + 1 / 4194304) + 2 ^ (-148 : ℤ) ∧
      vec3.lengthSq (val v) * (1 - 1 / 4194304) - 2 ^ (-148 : ℤ) ≤ (lengthSq v).toRat := by
  obtain ⟨⟨hfx, hfy, hfz⟩, hbx, hby, hbz⟩ := hv
  obtain ⟨hX, hX0, hXhi, hXlo, hXB⟩ := sq_bd v.x hfx hbx
  obtain ⟨hY, hY0, hYhi, hYlo, hYB⟩ := sq_bd v.y hfy hby
  obtain ⟨hZ, hZ0, hZhi, hZlo, hZB⟩ := sq_bd v.z hfz hbz
  have h121 : (2 : ℚ) ^ 121 + 2 ^ 121 < 2 ^ 128 - 2 ^ 103 := by norm_num
  obtain ⟨hA, hA0, hAhi, hAlo, -, -⟩ := add_nonneg_bd _ _ hX hY hX0 hY0 (by linarith)
  have hAB : (v.x * v.x + v.y * v.y).toRat ≤ 2 ^ 123 := by
    have : ((2 : ℚ) ^ 121 + 2 ^ 121) * (1 + 1 / 16777216) ≤ 2 ^ 123 := by norm_num
    nlinarith
  have h123 : (2 : ℚ) ^ 123 + 2 ^ 121 < 2 ^ 128 - 2 ^ 103 := by norm_num
  obtain ⟨hS, hS0, hShi, hSlo, -, -⟩ := add_nonneg_bd _ _ hA hZ hA0 hZ0 (by linarith)
  rw [val_lengthSq]
  have e148 : (2 : ℚ) ^ (-148 : ℤ) = 4 * 2 ^ (-150 : ℤ) := by
    rw [show (-148 : ℤ) = 2 + (-150) by norm_num, two_zpow_add]
    norm_num
  rw [e148]
  obtain ⟨η, hη⟩ : ∃ η : ℚ, η = 2 ^ (-150 : ℤ) := ⟨_, rfl⟩
  have hη0 : 0 < η := by rw [hη]; exact two_zpow_pos _
  rw [← hη] at hXhi hXlo hYhi hYlo hZhi hZlo ⊢
  obtain ⟨x2, hx2⟩ : ∃ x2 : ℚ, x2 = v.x.toRat * v.x.toRat := ⟨_, rfl⟩
  obtain ⟨y2, hy2⟩ : ∃ y2 : ℚ, y2 = v.y.toRat * v.y.toRat := ⟨_, rfl⟩
  obtain ⟨z2, hz2⟩ : ∃ z2 : ℚ, z2 = v.z.toRat * v.z.toRat := ⟨_, rfl⟩
  have hx20 : 0 ≤ x2 := by rw [hx2]; exact mul_self_nonneg _
  have hy20 : 0 ≤ y2 := by rw [hy2]; exact mul_self_nonneg _
  have hz20 : 0 ≤ z2 := by rw [hz2]; exact mul_self_nonneg _
  rw [← hx2] at hXhi hXlo
  rw [← hy2] at hYhi hYlo
  rw [← hz2] at hZhi hZlo
  rw [← hx2, ← hy2, ← hz2]
  obtain ⟨X, hXd⟩ : ∃ X : ℚ, X = (v.x * v.x).toRat := ⟨_, rfl⟩
  obtain ⟨Y, hYd⟩ : ∃ Y : ℚ, Y = (v.y * v.y).toRat := ⟨_, rfl⟩
  obtain ⟨Z, hZd⟩ : ∃ Z : ℚ, Z = (v.z * v.z).toRat := ⟨_, rfl⟩
  obtain ⟨A, hAd⟩ : ∃ A : ℚ, A = (v.x * v.x + v.y * v.y).toRat := ⟨_, rfl⟩
  have hSd : (lengthSq v).toRat = (v.x * v.x + v.y * v.y + v.z * v.z).toRat := rfl
  obtain ⟨S, hSd2⟩ : ∃ S : ℚ, S = (v.x * v.x + v.y * v.y + v.z * v.z).toRat := ⟨_, rfl⟩
  rw [hSd, ← hSd2]
  rw [← hXd] at hXhi hXlo hX0 hAhi hAlo
  rw [← hYd] at hYhi hYlo hY0 hAhi hAlo
  rw [← hZd] at hZhi hZlo hZ0 hShi hSlo
  rw [← hAd] at hAhi hAlo hA0 hShi hSlo
  rw [← hSd2] at hShi hSlo hS0
  refine ⟨hS, hS0, ?_, ?_⟩
  · nlinarith
  · nlinarith

end FP

namespace binary32

theorem overflowCheck_sign (neg : Bool) (m : ℕ) (e : ℤ) :
    overflowCheck neg m e = inf neg ∨ ∃ (m' : ℕ) (e' : ℤ), overflowCheck neg m e = fin neg m' e' := by
  unfold overflowCheck
  split_ifs
  · exact Or.inl rfl
  · exact Or.inr ⟨_, _, rfl⟩

/-- The result of `roundNE` carries the sign it is given. -/
theorem roundNE_sign (neg : Bool) (M : ℕ) (E : ℤ) :
    roundNE neg M E = inf neg ∨ ∃ (m : ℕ) (e : ℤ), roundNE neg M E = fin neg m e := by
  unfold roundNE
  by_cases hM : M = 0
  · rw [if_pos hM]
    exact Or.inr ⟨_, _, rfl⟩
  · rw [if_neg hM]
    dsimp only
    split_ifs <;> exact overflowCheck_sign _ _ _

/-- A finite float with a positive value has its sign bit clear. -/
theorem sign_of_pos (a : binary32) (ha : a.IsFinite) (hpos : 0 < a.toRat) :
    ∃ (m : ℕ) (e : ℤ), a = fin false m e ∧ Canon m e ∧ 0 < m := by
  obtain ⟨s, m, e, rfl, hc⟩ := isFinite_cases a ha
  obtain ⟨hs, hm⟩ := toRat_pos_cases s m e hpos
  subst hs
  exact ⟨m, e, rfl, hc, hm⟩

/-- The quotient of two floats with clear sign bits, when finite, has its sign bit clear. -/
theorem div_sign_pos (m1 : ℕ) (e1 : ℤ) (m2 : ℕ) (e2 : ℤ) (hm2 : m2 ≠ 0)
    (hf : (fin false m1 e1 / fin false m2 e2).IsFinite) :
    ∃ (m : ℕ) (e : ℤ), fin false m1 e1 / fin false m2 e2 = fin false m e := by
  have h : fin false m1 e1 / fin false m2 e2 = roundQuot false m1 m2 64 (e1 - e2) := by
    show (if m2 = 0 then (if m1 = 0 then nan else inf (xor false false))
      else roundQuot (xor false false) m1 m2 64 (e1 - e2)) = _
    rw [if_neg hm2]
    rfl
  rw [h] at hf ⊢
  unfold roundQuot at hf ⊢
  rcases roundNE_sign false (2 * (m1 * 2 ^ 64 / m2) + if m1 * 2 ^ 64 % m2 = 0 then 0 else 1)
    (e1 - e2 - ((64 : ℕ) : ℤ) - 1) with h1 | h1
  · rw [h1] at hf
    exact absurd hf (not_isFinite_inf _)
  · exact h1

theorem canon_zero_exp (e : ℤ) (h : Canon 0 e) : e = -149 := by
  rcases h.2.2.2 with h1 | h1
  · norm_num at h1
  · exact h1

end binary32

namespace FP

open binary32

theorem lit_zero : lit 0 1 = fin false 0 (-149) := by decide!

theorem lit_one : lit 1 1 = fin false 8388608 (-23) := by decide!

theorem toRat_lit_one : (lit 1 1).toRat = 1 := by
  rw [lit_one, toRat_fin]
  norm_num

theorem isFinite_lit_one : (lit 1 1).IsFinite := by
  rw [lit_one]
  exact ⟨by norm_num, by norm_num, by norm_num, Or.inl (by norm_num)⟩

theorem lit_micro : lit 1 1000000 = fin false 8796093 (-43) := by decide!

theorem isFinite_lit_micro : (lit 1 1000000).IsFinite := by
  rw [lit_micro]
  exact ⟨by norm_num, by norm_num, by norm_num, Or.inl (by norm_num)⟩

/-- The compression of the tone mapping, `c / (c + 1.0f + 1e-6f)` in binary32 arithmetic, of a
non-negative finite `c`: a finite float with clear sign bit and a value in `[0, 1]`. -/
theorem compress_range (m : ℕ) (e : ℤ) (hc : Canon m e) :
    ∃ (mx : ℕ) (ex : ℤ),
      fin false m e / (fin false m e + lit 1 1 + lit 1 1000000) = fin false mx ex ∧
      Canon mx ex ∧ (fin false mx ex).toRat ≤ 1 := by
  obtain ⟨c, hcd⟩ : ∃ c : binary32, c = fin false m e := ⟨_, rfl⟩
  have hcf : c.IsFinite := by rw [hcd]; exact hc
  have hc0 : 0 ≤ c.toRat := by
    rw [hcd, toRat_fin]
    simp only [if_false, Bool.false_eq_true, one_mul]
    exact mul_nonneg (Nat.cast_nonneg m) (two_zpow_pos e).le
  have hcB := toRat_abs_lt c hcf
  rw [abs_of_nonneg hc0] at hcB
  have hcB2 : c.toRat ≤ 2 ^ 128 - 2 ^ 104 := by
    obtain ⟨hm, _, he, _⟩ := hc
    rw [hcd, toRat_fin]
    simp only [if_false, Bool.false_eq_true, one_mul]
    have h2 : (m : ℚ) ≤ 2 ^ 24 - 1 := by
      have : m + 1 ≤ 2 ^ 24 := hm
      have h3 : ((m + 1 : ℕ) : ℚ) ≤ ((2 ^ 24 : ℕ) : ℚ) := by exact_mod_cast this
      push_cast at h3
      linarith
    have h3 : (2 : ℚ) ^ e ≤ 2 ^ (104 : ℤ) := two_zpow_le _ _ he
    have h4 : (2 : ℚ) ^ (104 : ℤ) = 2 ^ 104 := by norm_num
    rw [h4] at h3
    calc (m : ℚ) * 2 ^ e ≤ (2 ^ 24 - 1) * 2 ^ 104 :=
          mul_le_mul h2 h3 (two_zpow_pos e).le (by norm_num)
      _ = 2 ^ 128 - 2 ^ 104 := by norm_num
  rw [← hcd]
  -- first sum
  obtain ⟨hR1, -⟩ := add_spec c (lit 1 1) hcf isFinite_lit_one
  rw [toRat_lit_one] at hR1
  have hf1 : (c + lit 1 1).IsFinite := by
    apply hR1.isFinite
    rw [abs_of_nonneg (by linarith)]
    have : (2 : ℚ) ^ 128 - 2 ^ 104 + 1 < 2 ^ 128 - 2 ^ 103 := by norm_num
    linarith
  have h1a : 1 ≤ (c + lit 1 1).toRat := by
    have := (hR1.mono hf1 (lit 1 1) isFinite_lit_one).1
    rw [toRat_lit_one] at this
    exact this (by linarith)
  have h1b : c.toRat ≤ (c + lit 1 1).toRat :=
    (hR1.mono hf1 c hcf).1 (by linarith)
  have h1c : (c + lit 1 1).toRat ≤ 2 ^ 128 - 2 ^ 104 := by
    have hmax : (fin false 16777215 104).IsFinite :=
      ⟨by norm_num, by norm_num, by norm_num, Or.inl (by norm_num)⟩
    have hmaxv : (fin false 16777215 104).toRat = 2 ^ 128 - 2 ^ 104 := by
      rw [toRat_fin]
      norm_num
    by_cases hle : c.toRat + 1 ≤ 2 ^ 128 - 2 ^ 104
    · have := (hR1.mono hf1 _ hmax).2
      rw [hmaxv] at this
      exact this hle
    · have := toRat_abs_lt _ hf1
      rw [abs_of_nonneg (by linarith)] at this
      -- the sum is a float below the threshold, hence at most the largest float
      obtain ⟨s', m', e', hs', hm', _, he', _⟩ := isFinite_cases _ hf1
      rw [hs', toRat_fin]
      have hp : (0 : ℚ) ≤ (m' : ℚ) * 2 ^ e' := mul_nonneg (Nat.cast_nonneg m') (two_zpow_pos e').le
      have h2 : (m' : ℚ) ≤ 2 ^ 24 - 1 := by
        have : m' + 1 ≤ 2 ^ 24 := hm'
        have h3 : ((m' + 1 : ℕ) : ℚ) ≤ ((2 ^ 24 : ℕ) : ℚ) := by exact_mod_cast this
        push_cast at h3
        linarith
      have h3 : (2 : ℚ) ^ e' ≤ 2 ^ (104 : ℤ) := two_zpow_le _ _ he'
      have h4 : (2 : ℚ) ^ (104 : ℤ) = 2 ^ 104 := by norm_num
      rw [h4] at h3
      have h5 : (m' : ℚ) * 2 ^ e' ≤ (2 ^ 24 - 1) * 2 ^ 104 :=
        mul_le_mul h2 h3 (two_zpow_pos e').le (by norm_num)
      have h6 : ((2 : ℚ) ^ 24 - 1) * 2 ^ 104 = 2 ^ 128 - 2 ^ 104 := by norm_num
      cases s' <;> simp only [if_true, if_false, Bool.false_eq_true, one_mul, neg_one_mul,
        mul_assoc] <;> linarith
  -- second sum
  obtain ⟨hR2, -⟩ := add_spec (c + lit 1 1) (lit 1 1000000) hf1 isFinite_lit_micro
  have hmv : (lit 1 1000000).toRat = 8796093 / 2 ^ 43 := by
    rw [lit_micro, toRat_fin]
    norm_num
  rw [hmv] at hR2
  have hf2 : (c + lit 1 1 + lit 1 1000000).IsFinite := by
    apply hR2.isFinite
    rw [abs_of_nonneg (by positivity)]
    have : (2 : ℚ) ^ 128 - 2 ^ 104 + 8796093 / 2 ^ 43 < 2 ^ 128 - 2 ^ 103 := by norm_num
    linarith
  have h2a : (c + lit 1 1).toRat ≤ (c + lit 1 1 + lit 1 1000000).toRat :=
    (hR2.mono hf2 _ hf1).1 (by
      have : (0 : ℚ) ≤ 8796093 / 2 ^ 43 := by norm_num
      linarith)
  have hpos2 : 0 < (c + lit 1 1 + lit 1 1000000).toRat := by linarith
  -- the quotient
  have hR3 := div_spec c (c + lit 1 1 + lit 1 1000000) hcf hf2 hpos2.ne'
  have hV0 : 0 ≤ c.toRat / (c + lit 1 1 + lit 1 1000000).toRat := div_nonneg hc0 hpos2.le
  have hV1 : c.toRat / (c + lit 1 1 + lit 1 1000000).toRat ≤ 1 := by
    rw [div_le_one hpos2]
    linarith
  have hf3 : (c / (c + lit 1 1 + lit 1 1000000)).IsFinite := by
    apply hR3.isFinite
    rw [abs_of_nonneg hV0]
    have : (1 : ℚ) < 2 ^ 128 - 2 ^ 103 := by norm_num
    linarith
  have h3b : (c / (c + lit 1 1 + lit 1 1000000)).toRat ≤ 1 := by
    have := (hR3.mono hf3 (lit 1 1) isFinite_lit_one).2
    rw [toRat_lit_one] at this
    exact this hV1
  obtain ⟨m2, e2, hd2, hc2, hm2⟩ := sign_of_pos _ hf2 hpos2
  subst hcd
  rw [hd2] at hf3 h3b ⊢
  obtain ⟨mx, ex, hx⟩ := div_sign_pos m e m2 e2 hm2.ne' hf3
  rw [hx] at hf3 h3b ⊢
  exact ⟨mx, ex, rfl, hf3, h3b⟩

/-- On a finite float with clear sign bit and a value at most `1`, the clamp
`fmaxf(0.0f, fminf(1.0f, x))` returns `x`. -/
theorem clamp_id (mx : ℕ) (ex : ℤ) (hc : Canon mx ex) (h1 : (fin false mx ex).toRat ≤ 1) :
    fmaxf (lit 0 1) (fminf (lit 1 1) (fin false mx ex)) = fin false mx ex := by
  have hmin : fminf (lit 1 1) (fin false mx ex) = fin false mx ex := by
    rw [lit_one]
    show (if lt (fin false mx ex) (fin false 8388608 (-23)) then fin false mx ex
      else fin false 8388608 (-23)) = _
    by_cases hlt : lt (fin false mx ex) (fin false 8388608 (-23)) = true
    · rw [if_pos hlt]
    · rw [if_neg hlt]
      rw [lt_fin_iff] at hlt
      have hv1 : (fin false 8388608 (-23)).toRat = 1 := by rw [← lit_one]; exact toRat_lit_one
      rw [hv1] at hlt
      have hv : (fin false mx ex).toRat = 1 := le_antisymm h1 (not_lt.mp hlt)
      symm
      have hcf : (fin false mx ex).IsFinite := hc
      have h1f : (fin false 8388608 (-23)).IsFinite := by rw [← lit_one]; exact isFinite_lit_one
      apply eq_of_toRat_eq _ _ hcf h1f
      · rw [hv, hv1]
      · rw [hv]
        norm_num
  rw [hmin, lit_zero]
  show (if lt (fin false 0 (-149)) (fin false mx ex) then fin false mx ex
    else fin false 0 (-149)) = _
  by_cases hlt : lt (fin false 0 (-149)) (fin false mx ex) = true
  · rw [if_pos hlt]
  · rw [if_neg hlt]
    rw [lt_fin_iff, toRat_zero, toRat_fin] at hlt
    simp only [if_false, Bool.false_eq_true, one_mul] at hlt
    have hm0 : mx = 0 := by
      by_contra hne
      apply hlt
      have : (0 : ℚ) < (mx : ℚ) := by exact_mod_cast Nat.pos_of_ne_zero hne
      exact mul_pos this (two_zpow_pos ex)
    subst hm0
    rw [canon_zero_exp ex hc]

end FP

open binary32

/-- C15 (amended): for every non-negative finite float `c` (sign bit clear), the 8-bit value of
the tone-mapping pass is the conversion of the float product `powf(x, 1.0f / 2.2f) * 255.99f`,
where `x` is the float quotient `c / (c + 1.0f + 1e-6f)`; the quotient lies in `[0, 1]`, so the
clamp to `[0, 1]` leaves it unchanged; and it is within the relative error `2^-22` (and the
absolute error `2^-150` of an underflow) of the exact compression `c / (c + 1 + 1e-6)`. -/
theorem toneMapChannel_float_eq (M : Libm binary32) (m : ℕ) (e : ℤ) (hc : Canon m e) :
    FP.toneMapChannel M (fin false m e) =
        FP.toUChar (M.powf (fin false m e / (fin false m e + lit 1 1 + lit 1 1000000))
          (lit 1 1 / lit 22 10) * lit 25599 100) ∧
      (fin false m e / (fin false m e + lit 1 1 + lit 1 1000000)).IsFinite ∧
      0 ≤ (fin false m e / (fin false m e + lit 1 1 + lit 1 1000000)).toRat ∧
      (fin false m e / (fin false m e + lit 1 1 + lit 1 1000000)).toRat ≤ 1 ∧
      |(fin false m e / (fin false m e + lit 1 1 + lit 1 1000000)).toRat -
          (fin false m e).toRat / ((fin false m e).toRat + 1 + 1 / 1000000)| ≤
        2 ^ (-22 : ℤ) * ((fin false m e).toRat / ((fin false m e).toRat + 1 + 1 / 1000000)) +
          2 ^ (-150 : ℤ) := by
  obtain ⟨mx, ex, hx, hcx, hx1⟩ := FP.compress_range m e hc
  have hclamp := FP.clamp_id mx ex hcx hx1
  refine ⟨?_, ?_, ?_, ?_, ?_⟩
  · show FP.toUChar (M.powf (fmaxf (lit 0 1) (fminf (lit 1 1)
      (fin false m e / (fin false m e + lit 1 1 + lit 1 1000000)))) (lit 1 1 / lit 22 10) *
        lit 25599 100) = _
    rw [hx, hclamp]
  · rw [hx]
    exact hcx
  · rw [hx, toRat_fin]
    simp only [if_false, Bool.false_eq_true, one_mul]
    exact mul_nonneg (Nat.cast_nonneg mx) (two_zpow_pos ex).le
  · rw [hx]
    exact hx1
  · -- accuracy of the three roundings
    obtain ⟨c, hcd⟩ : ∃ c : binary32, c = fin false m e := ⟨_, rfl⟩
    have hcf : c.IsFinite := by rw [hcd]; exact hc
    have hc0 : 0 ≤ c.toRat := by
      rw [hcd, toRat_fin]
      simp only [if_false, Bool.false_eq_true, one_mul]
      exact mul_nonneg (Nat.cast_nonneg m) (two_zpow_pos e).le
    rw [← hcd] at hx ⊢
    have hf3 : (c / (c + lit 1 1 + lit 1 1000000)).IsFinite := by rw [hx]; exact hcx
    -- finiteness of the sums follows from that of the quotient's divisor being non-zero
    have hf1 : (c + lit 1 1).IsFinite := by
      by_contra hnf
      obtain ⟨h1, _⟩ := (add_spec c (lit 1 1) hcf FP.isFinite_lit_one).1.eq_inf hnf
      have hB := toRat_abs_lt c hcf
      rw [FP.toRat_lit_one] at *
      rename_i h2
      rw [abs_of_nonneg (by linarith)] at h2
      rw [abs_of_nonneg hc0] at hB
      obtain ⟨hm, _, he, _⟩ := hc
      have h4 : c.toRat ≤ 2 ^ 128 - 2 ^ 104 := by
        rw [hcd, toRat_fin]
        simp only [if_false, Bool.false_eq_true, one_mul]
        have h2 : (m : ℚ) ≤ 2 ^ 24 - 1 := by
          have : m + 1 ≤ 2 ^ 24 := hm
          have h3 : ((m + 1 : ℕ) : ℚ) ≤ ((2 ^ 24 : ℕ) : ℚ) := by exact_mod_cast this
          push_cast at h3
          linarith
        have h3 : (2 : ℚ) ^ e ≤ 2 ^ (104 : ℤ) := two_zpow_le _ _ he
        have h4 : (2 : ℚ) ^ (104 : ℤ) = 2 ^ 104 := by norm_num
        rw [h4] at h3
        calc (m : ℚ) * 2 ^ e ≤ (2 ^ 24 - 1) * 2 ^ 104 :=
              mul_le_mul h2 h3 (two_zpow_pos e).le (by norm_num)
          _ = 2 ^ 128 - 2 ^ 104 := by norm_num
      have : (2 : ℚ) ^ 128 - 2 ^ 104 + 1 < 2 ^ 128 - 2 ^ 103 := by norm_num
      linarith
    obtain ⟨hR1, hE1⟩ := add_spec c (lit 1 1) hcf FP.isFinite_lit_one
    have hE1' := hE1 hf1
    rw [FP.toRat_lit_one] at hR1 hE1'
    rw [abs_of_nonneg (by linarith : (0 : ℚ) ≤ c.toRat + 1)] at hE1'
    have hmv : (lit 1 1000000).toRat = 8796093 / 2 ^ 43 := by
      rw [FP.lit_micro, toRat_fin]
      norm_num
    have hA1 : 1 ≤ (c + lit 1 1).toRat := by
      have := (hR1.mono hf1 (lit 1 1) FP.isFinite_lit_one).1
      rw [FP.toRat_lit_one] at this
      exact this (by linarith)
    have hf2 : (c + lit 1 1 + lit 1 1000000).IsFinite := by
      by_contra hnf
      -- an infinite divisor makes the quotient a zero, which is finite, but the sum of a
      -- float and `1e-6f` stays below the overflow threshold
      obtain ⟨_, h2⟩ := (add_spec _ _ hf1 FP.isFinite_lit_micro).1.eq_inf hnf
      rw [hmv, abs_of_nonneg (by positivity)] at h2
      have hA := toRat_abs_lt _ hf1
      rw [abs_of_nonneg (by linarith)] at hA
      obtain ⟨s', m', e', hs', hm', _, he', _⟩ := isFinite_cases _ hf1
      have hp : (0 : ℚ) ≤ (m' : ℚ) * 2 ^ e' := mul_nonneg (Nat.cast_nonneg m') (two_zpow_pos e').le
      have h2' : (m' : ℚ) ≤ 2 ^ 24 - 1 := by
        have : m' + 1 ≤ 2 ^ 24 := hm'
        have h3 : ((m' + 1 : ℕ) : ℚ) ≤ ((2 ^ 24 : ℕ) : ℚ) := by exact_mod_cast this
        push_cast at h3
        linarith
      have h3 : (2 : ℚ) ^ e' ≤ 2 ^ (104 : ℤ) := two_zpow_le _ _ he'
      have h4 : (2 : ℚ) ^ (104 : ℤ) = 2 ^ 104 := by norm_num
      rw [h4] at h3
      have h5 : (m' : ℚ) * 2 ^ e' ≤ (2 ^ 24 - 1) * 2 ^ 104 :=
        mul_le_mul h2' h3 (two_zpow_pos e').le (by norm_num)
      have h6 : (c + lit 1 1).toRat ≤ 2 ^ 128 - 2 ^ 104 := by
        rw [hs', toRat_fin]
        cases s' <;> simp only [if_true, if_false, Bool.false_eq_true, one_mul, neg_one_mul,
          mul_assoc] <;> nlinarith
      have : (2 : ℚ) ^ 128 - 2 ^ 104 + 8796093 / 2 ^ 43 < 2 ^ 128 - 2 ^ 103 := by norm_num
      linarith
    obtain ⟨hR2, hE2⟩ := add_spec (c + lit 1 1) (lit 1 1000000) hf1 FP.isFinite_lit_micro
    have hE2' := hE2 hf2
    rw [hmv] at hR2 hE2'
    rw [abs_of_nonneg (by positivity : (0 : ℚ) ≤ (c + lit 1 1).toRat + 8796093 / 2 ^ 43)] at hE2'
    have hB1 : (c + lit 1 1).toRat ≤ (c + lit 1 1 + lit 1 1000000).toRat :=
      (hR2.mono hf2 _ hf1).1 (by
        have : (0 : ℚ) ≤ 8796093 / 2 ^ 43 := by norm_num
        linarith)
    have hBpos : 0 < (c + lit 1 1 + lit 1 1000000).toRat := by linarith
    have hR3 := div_spec c (c + lit 1 1 + lit 1 1000000) hcf hf2 hBpos.ne'
    have hE3 := hR3.err hf3
    -- names for the values
    obtain ⟨cv, hcv⟩ : ∃ cv : ℚ, cv = c.toRat := ⟨_, rfl⟩
    obtain ⟨A, hA⟩ : ∃ A : ℚ, A = (c + lit 1 1).toRat := ⟨_, rfl⟩
    obtain ⟨B, hB⟩ : ∃ B : ℚ, B = (c + lit 1 1 + lit 1 1000000).toRat := ⟨_, rfl⟩
    obtain ⟨x, hxd⟩ : ∃ x : ℚ, x = (c / (c + lit 1 1 + lit 1 1000000)).toRat := ⟨_, rfl⟩
    rw [← hcv, ← hA] at hE1'
    rw [← hA, ← hB] at hE2'
    rw [← hcv, ← hB, ← hxd] at hE3
    rw [← hcv] at hc0
    rw [← hA] at hA1
    rw [← hB] at hBpos
    rw [← hcv, ← hxd]
    have hu : (2 : ℚ) ^ (-24 : ℤ) = 1 / 16777216 := by norm_num
    have h22 : (2 : ℚ) ^ (-22 : ℤ) = 1 / 4194304 := by norm_num
    rw [hu] at hE1' hE2' hE3
    rw [h22]
    obtain ⟨η, hη⟩ : ∃ η : ℚ, η = 2 ^ (-150 : ℤ) := ⟨_, rfl⟩
    have hη0 : 0 < η := by rw [hη]; exact two_zpow_pos _
    rw [← hη] at hE3 ⊢
    rw [abs_le] at hE1' hE2'
    obtain ⟨D, hD⟩ : ∃ D : ℚ, D = cv + 1 + 1 / 1000000 := ⟨_, rfl⟩
    rw [← hD]
    have hDpos : 0 < D := by rw [hD]; linarith
    -- the divisor is within 2.1 units of roundoff of the exact one
    have hB_lo : D * (1 - 21 / 167772160) ≤ B := by
      rw [hD]
      nlinarith [hE1'.1, hE2'.1]
    have hB_hi : B ≤ D * (1 + 21 / 167772160) := by
      rw [hD]
      nlinarith [hE1'.2, hE2'.2]
    obtain ⟨Q, hQ⟩ : ∃ Q : ℚ, Q = cv / D := ⟨_, rfl⟩
    obtain ⟨R, hR⟩ : ∃ R : ℚ, R = cv / B := ⟨_, rfl⟩
    rw [← hQ]
    rw [← hR] at hE3
    have hQ0 : 0 ≤ Q := by rw [hQ]; exact div_nonneg hc0 hDpos.le
    have hR0 : 0 ≤ R := by rw [hR]; exact div_nonneg hc0 hBpos.le
    have hQD : Q * D = cv := by rw [hQ]; field_simp
    have hRB : R * B = cv := by rw [hR]; field_simp
    have hRQ1 : R * (1 - 21 / 167772160) ≤ Q := by
      have h1 : R * (D * (1 - 21 / 167772160)) ≤ R * B := mul_le_mul_of_nonneg_left hB_lo hR0
      have h2 : R * (1 - 21 / 167772160) * D ≤ Q * D := by
        rw [hQD, ← hRB]
        linarith
      exact le_of_mul_le_mul_right h2 hDpos
    have hRQ2 : Q ≤ R * (1 + 21 / 167772160) := by
      have h1 : R * B ≤ R * (D * (1 + 21 / 167772160)) := mul_le_mul_of_nonneg_left hB_hi hR0
      have h2 : Q * D ≤ R * (1 + 21 / 167772160) * D := by
        rw [hQD, ← hRB]
        linarith
      exact le_of_mul_le_mul_right h2 hDpos
    rw [abs_of_nonneg hR0, abs_le] at hE3
    rw [abs_le]
    constructor <;> linarith [hE3.1, hE3.2]

/-- C15 at `c = 1.0f`, for every library. -/
theorem toneMapChannel_float_eq_witness :
    Canon 8388608 (-23) ∧ ∀ M : Libm binary32,
      FP.toneMapChannel M (fin false 8388608 (-23)) =
        FP.toUChar (M.powf (fin false 8388608 (-23) /
          (fin false 8388608 (-23) + lit 1 1 + lit 1 1000000)) (lit 1 1 / lit 22 10) *
            lit 25599 100) :=
  ⟨⟨by norm_num, by norm_num, by norm_num, Or.inl (by norm_num)⟩,
    fun M => (toneMapChannel_float_eq M 8388608 (-23)
      ⟨by norm_num, by norm_num, by norm_num, Or.inl (by norm_num)⟩).1⟩

open binary32

namespace FP

theorem threshold_eq : RS * lit 1001 1000 = fin false 8396997 (-22) := by decide!

theorem abs_le_of_sq_le (x B : ℚ) (hB : 0 ≤ B) (h : x * x ≤ B * B) : |x| ≤ B := by
  rw [abs_le]
  constructor <;> nlinarith

/-- A vector whose exact squared length is at most `L^2`, with `L ≤ 2^60`, has components of
magnitude at most `2^60`. -/
theorem bounded3_of_lengthSq (v : vec3 binary32) (hv : Finite3 v) (L : ℚ) (hL0 : 0 ≤ L)
    (hL : L ≤ 2 ^ 60) (h : vec3.lengthSq (val v) ≤ L * L) : Bounded3 v (2 ^ 60) := by
  rw [val_lengthSq] at h
  have hx := mul_self_nonneg v.x.toRat
  have hy := mul_self_nonneg v.y.toRat
  have hz := mul_self_nonneg v.z.toRat
  refine ⟨hv, ?_, ?_, ?_⟩
  · exact le_trans (abs_le_of_sq_le _ L hL0 (by linarith)) hL
  · exact le_trans (abs_le_of_sq_le _ L hL0 (by linarith)) hL
  · exact le_trans (abs_le_of_sq_le _ L hL0 (by linarith)) hL

/-- The computed length of a vector with bounded components: finite, non-negative, with a square
within the relative error `2^-22` of the computed squared length. -/
theorem sqrt_bd (a : binary32) (ha : a.IsFinite) (h0 : 0 ≤ a.toRat) :
    (sqrt a).IsFinite ∧ 0 ≤ (sqrt a).toRat ∧
      a.toRat * (1 - 1 / 4194304) ≤ (sqrt a).toRat ^ 2 ∧
      (sqrt a).toRat ^ 2 ≤ a.toRat * (1 + 1 / 4194304) ∧
      (0 < a.toRat → 0 < (sqrt a).toRat) := by
  have h22 : (2 : ℚ) ^ (-22 : ℤ) = 1 / 4194304 := by norm_num
  rcases eq_or_lt_of_le h0 with h | h
  · obtain ⟨hf, hv⟩ := sqrt_zero a ha h.symm
    rw [hv, ← h]
    refine ⟨hf, le_refl _, by norm_num, by norm_num, fun hh => absurd hh (lt_irrefl _)⟩
  · obtain ⟨hf, hp, hlo, hhi⟩ := sqrt_spec a ha h
    rw [h22] at hlo hhi
    exact ⟨hf, hp.le, hlo, hhi, fun _ => hp⟩

end FP

/-- C9 (amended): for every finite position whose exact distance from the origin is at most
`2.0019` (squared distance at most `4.008`), and every direction, `geodesic_acceleration` in
binary32 arithmetic returns the zero vector: the computed distance is then strictly below the
float threshold `RS * 1.001f`. -/
theorem geodesic_acceleration_zero_near (pos dir : vec3 binary32) (hpos : FP.Finite3 pos)
    (h : vec3.lengthSq (FP.val pos) ≤ 4008 / 1000) :
    FP.geodesic_acceleration pos dir = FP.zero3 := by
  have hB : FP.Bounded3 pos (2 ^ 60) :=
    FP.bounded3_of_lengthSq pos hpos 3 (by norm_num) (by norm_num) (by linarith)
  obtain ⟨hSf, hS0, hShi, -⟩ := FP.lengthSq_bd pos hB
  obtain ⟨hrf, hr0, -, hrhi, -⟩ := FP.sqrt_bd _ hSf hS0
  have hlt : lt (sqrt (FP.lengthSq pos)) (FP.RS * lit 1001 1000) = true := by
    rw [FP.threshold_eq]
    have hthr : (fin false 8396997 (-22)).IsFinite :=
      ⟨by norm_num, by norm_num, by norm_num, Or.inl (by norm_num)⟩
    rw [lt_iff _ _ hrf hthr]
    have hv : (fin false 8396997 (-22)).toRat = 8396997 / 4194304 := by
      rw [toRat_fin]
      norm_num
    rw [hv]
    have hη : (2 : ℚ) ^ (-148 : ℤ) ≤ 1 / 2 ^ 100 := by
      have : (2 : ℚ) ^ (-148 : ℤ) ≤ 2 ^ (-100 : ℤ) := two_zpow_le _ _ (by norm_num)
      have e : (2 : ℚ) ^ (-100 : ℤ) = 1 / 2 ^ 100 := by norm_num
      rw [e] at this
      exact this
    by_contra hge
    push_neg at hge
    have hsq : (8396997 / 4194304 : ℚ) ^ 2 ≤ (sqrt (FP.lengthSq pos)).toRat ^ 2 :=
      pow_le_pow_left₀ (by norm_num) hge 2
    have hb : (FP.lengthSq pos).toRat ≤ 4008 / 1000 * (1 + 1 / 4194304) + 1 / 2 ^ 100 := by
      nlinarith
    have : (sqrt (FP.lengthSq pos)).toRat ^ 2 ≤
        (4008 / 1000 * (1 + 1 / 4194304) + 1 / 2 ^ 100) * (1 + 1 / 4194304) := by
      nlinarith
    have hnum : (4008 / 1000 * (1 + 1 / 4194304) + 1 / 2 ^ 100) * (1 + 1 / 4194304) <
        (8396997 / 4194304 : ℚ) ^ 2 := by norm_num
    linarith
  show (if lt (sqrt (FP.lengthSq pos)) (FP.RS * lit 1001 1000) then FP.zero3 else _) = FP.zero3
  rw [if_pos hlt]

/-- C9 at the position `(1, 1, 1)`, at distance `1.73...`, with direction `(0, 1, 0)`. -/
theorem geodesic_acceleration_zero_near_witness :
    FP.Finite3 ⟨lit 1 1, lit 1 1, lit 1 1⟩ ∧
    vec3.lengthSq (FP.val ⟨lit 1 1, lit 1 1, lit 1 1⟩) ≤ 4008 / 1000 ∧
    FP.geodesic_acceleration ⟨lit 1 1, lit 1 1, lit 1 1⟩ ⟨lit 0 1, lit 1 1, lit 0 1⟩ = FP.zero3 := by
  have hf : FP.Finite3 ⟨lit 1 1, lit 1 1, lit 1 1⟩ := by
    refine ⟨?_, ?_, ?_⟩ <;>
    · show (lit 1 1).IsFinite
      rw [show lit 1 1 = fin false 8388608 (-23) by decide!]
      exact ⟨by norm_num, by norm_num, by norm_num, Or.inl (by norm_num)⟩
  have hl : vec3.lengthSq (FP.val ⟨lit 1 1, lit 1 1, lit 1 1⟩) ≤ 4008 / 1000 := by
    rw [FP.val_lengthSq]
    show (lit 1 1).toRat * (lit 1 1).toRat + (lit 1 1).toRat * (lit 1 1).toRat +
      (lit 1 1).toRat * (lit 1 1).toRat ≤ 4008 / 1000
    rw [show lit 1 1 = fin false 8388608 (-23) by decide!, toRat_fin]
    norm_num
  exact ⟨hf, hl, geodesic_acceleration_zero_near _ _ hf hl⟩

end Gargantua
